import Mathlib

/-! Aggon: content store, generation manager and reconciler.

A shallow embedding of `store.go`, `generations.go`, `reconcile.go` and `types.go`.

Modelling conventions.
* The filesystem is an explicit value `FS`, a finite table from cleaned paths to nodes.
  Every operation takes the filesystem and returns the new one.
* A Go string is a sequence of bytes. It is represented by the Lean string that has one
  character per byte, the character with the code of the byte; so the length of the
  representation is Go's `len`, slicing `s[:n]` takes `n` characters, and ASCII text
  represents itself. The representation of other text is given by `goString`.
* A path string is represented by the list of its components (`FPath`); `joinName` is
  `filepath.Join` of a cleaned path with one raw string.
* A JSON file is represented by the record it encodes (`Node.generationFile`,
  `Node.metadataFile`); a file of any other kind fails to decode.
* Symbolic links are leaves: `Stat` and `Open` do not follow them (they behave as for a
  dangling link), `Create` and `Rename` replace them, `Lstat`, `Readlink` and `Remove` see
  the link itself.
* A system call on the modelled tree fails only for a reason visible in the filesystem state
  (a missing or occupied path, a non-directory on the way); permissions, a full disk and read
  errors are not modelled. A file or link is created only after its directory was made with
  `MkdirAll` or read, so the existence of the parent directory is not checked again.
* The temporary file of `Store.Add` lives in `os.TempDir()`, outside the modelled tree; which
  of the steps on it fail (creating, writing, closing, renaming it into the store from another
  filesystem) is an argument `temp : TempFile`.
* `time.Now()` is an argument `now`; the SHA-256 function of the standard library is an
  argument `H : Hasher`.
* A Go run-time panic (slice bounds out of range) is the value `none` of an `Option`.
* A Go `map` is an association list read through `GoMap.get?` (first binding wins) and
  iterated through `GoMap.range` (every key once, in list order). Go leaves the order of an
  iteration open: list order is one of the orders a run may take, and statements about the
  order of a result hold for that one. The run of `Plan` in the section on `PlanRun` takes
  the order of every iteration from a `Schedule` instead.
-/

namespace Aggon

/-! ## Bytes, hex, decimal -/

/-- Raw bytes; an element is read modulo 256. -/
abbrev Bytes := List Nat

/-- Go `error` values: the message text. -/
abbrev Err := String

deriving instance DecidableEq for Except

/-- One lower-case hex digit. -/
def hexDigit (n : Nat) : Char :=
  if n < 10 then Char.ofNat (48 + n) else Char.ofNat (87 + n)

/-- Characters of `hex.EncodeToString` / `fmt.Sprintf("%x", bytes)`. -/
def hexChars : Bytes → List Char
  | [] => []
  | b :: bs => hexDigit ((b / 16) % 16) :: hexDigit (b % 16) :: hexChars bs

/-- The function `hex.EncodeToString`. -/
def hexEncode (b : Bytes) : String := ⟨hexChars b⟩

/-- The bytes of a Go string (for text, its UTF-8 bytes): in the representation every
character stands for one byte. -/
def utf8Bytes (s : String) : Bytes := s.data.map Char.toNat

/-- The Go string with the given text: its UTF-8 bytes, one character each. -/
def goString (text : String) : String :=
  ⟨text.data.flatMap fun c => (String.utf8EncodeChar c).map fun b => Char.ofNat b.toNat⟩

/-- The SHA-256 function of `crypto/sha256`: any function with 32-byte digests. -/
structure Hasher where
  sum : Bytes → Bytes
  size : ∀ b, (sum b).length = 32

/-- Go `s[:n]`, the first `n` bytes (one character of the representation each); `none` is
the slice-bounds panic. -/
def sliceTo (s : String) (n : Nat) : Option String :=
  if n ≤ s.data.length then some ⟨s.data.take n⟩ else none

/-- Go `s[n:]`, what follows the first `n` bytes; `none` is the slice-bounds panic. -/
def sliceFrom (s : String) (n : Nat) : Option String :=
  if n ≤ s.data.length then some ⟨s.data.drop n⟩ else none

/-- Go `fmt.Sprintf("%d", i)`. -/
def itoa (i : Int) : String :=
  match i with
  | Int.ofNat n => ⟨Nat.toDigits 10 n⟩
  | Int.negSucc n => ⟨'-' :: Nat.toDigits 10 (n + 1)⟩

/-- Value of a decimal digit character. -/
def digitVal (c : Char) : Option Nat :=
  if 48 ≤ c.toNat ∧ c.toNat ≤ 57 then some (c.toNat - 48) else none

/-- Reads a run of decimal digits. -/
def parseDigits : List Char → Nat → Option Nat
  | [], acc => some acc
  | c :: cs, acc =>
    match digitVal c with
    | none => none
    | some d => parseDigits cs (acc * 10 + d)

/-- Reads a non-empty run of decimal digits. -/
def parseNat (cs : List Char) : Option Nat :=
  if cs = [] then none else parseDigits cs 0

/-- Go `strconv.Atoi`: optional sign, decimal digits, value in the 64-bit `int` range. -/
def atoi (s : String) : Option Int :=
  match s.data with
  | [] => none
  | c :: cs =>
    if c = '-' then
      (parseNat cs).bind fun n => if n ≤ 2 ^ 63 then some (-(n : Int)) else none
    else if c = '+' then
      (parseNat cs).bind fun n => if n < 2 ^ 63 then some (n : Int) else none
    else
      (parseNat (c :: cs)).bind fun n => if n < 2 ^ 63 then some (n : Int) else none

/-- Two's-complement wrap of a Go `int` (64 bits). -/
def wrapInt64 (x : Int) : Int := (x + 2 ^ 63) % 2 ^ 64 - 2 ^ 63

/-- First element of `strings.Split(s, "-")`. -/
def splitDashHead (s : String) : String := ⟨s.data.takeWhile fun c => c ≠ '-'⟩

/-! ## Time -/

/-- Wall-clock reading of a `time.Time` (to the second). -/
structure Time where
  year : Nat
  month : Nat
  day : Nat
  hour : Nat
  minute : Nat
  second : Nat
deriving DecidableEq, Repr

/-- The zero `time.Time`: January 1, year 1, 00:00:00. -/
def Time.zero : Time := ⟨1, 1, 1, 0, 0, 0⟩

/-- Decimal digits zero-padded to a width. -/
def padDigits (w n : Nat) : List Char :=
  List.replicate (w - (Nat.toDigits 10 n).length) '0' ++ Nat.toDigits 10 n

/-- The call `t.Format("2006-01-02-150405")`. -/
def formatStamp (t : Time) : String :=
  ⟨padDigits 4 t.year ++ '-' :: padDigits 2 t.month ++ '-' :: padDigits 2 t.day ++
    '-' :: padDigits 2 t.hour ++ padDigits 2 t.minute ++ padDigits 2 t.second⟩

/-! ## Paths -/

/-- A cleaned path: its components from the common origin. -/
abbrev FPath := List String

/-- Splits at every slash; `cur` is the reversed current component. -/
def splitSep : List Char → List Char → List String
  | [], cur => [⟨cur.reverse⟩]
  | c :: cs, cur => if c = '/' then ⟨cur.reverse⟩ :: splitSep cs [] else splitSep cs (c :: cur)

/-- One step of `filepath.Clean`: appends a component to a cleaned path. -/
def pushComponent (stack : FPath) (c : String) : FPath :=
  if c = "" ∨ c = "." then stack
  else if c = ".." then
    match stack.getLast? with
    | none => stack ++ [".."]
    | some top => if top = ".." then stack ++ [".."] else stack.dropLast
  else stack ++ [c]

/-- The call `filepath.Join(p, s)` for a cleaned `p` and a raw string `s`. -/
def joinName (p : FPath) (s : String) : FPath :=
  (splitSep s.data []).foldl pushComponent p

/-- The function `filepath.Dir`. -/
def filepathDir (p : FPath) : FPath := p.dropLast

/-- The function `filepath.Base` on a cleaned path. -/
def pathBase (p : FPath) : String := p.getLast?.getD "."

/-- The function `filepath.Base` on a raw string. -/
def filepathBase (s : String) : String :=
  if s.data = [] then "."
  else
    let stripped := s.data.reverse.dropWhile fun c => c = '/'
    if stripped = [] then "/" else ⟨(stripped.takeWhile fun c => c ≠ '/').reverse⟩

/-- Removes the common leading components of two paths. -/
def stripCommon : FPath → FPath → FPath × FPath
  | a :: as, b :: bs => if a = b then stripCommon as bs else (a :: as, b :: bs)
  | as, bs => (as, bs)

/-- Text of a cleaned path. -/
def pathString (p : FPath) : String := if p = [] then "." else "/".intercalate p

/-- The function `filepath.Rel(base, targ)`; all paths share one origin. -/
def filepathRel (base targ : FPath) : Except Err String :=
  match stripCommon base targ with
  | (b, t) =>
    if b.head? = some ".." then Except.error "Rel: can't make path relative"
    else Except.ok (pathString (List.replicate b.length ".." ++ t))

/-! ## Go maps -/

/-- A Go `map[string]V`. -/
abbrev GoMap (V : Type) := List (String × V)

/-- Map read `m[k]` with the comma-ok flag. -/
def GoMap.get? {V : Type} (m : GoMap V) (k : String) : Option V := List.lookup k m

/-- Map write `m[k] = v`. -/
def GoMap.set {V : Type} (m : GoMap V) (k : String) (v : V) : GoMap V :=
  m.filter (fun e => e.1 ≠ k) ++ [(k, v)]

/-- Entries visited by `range`, skipping the keys in `seen`. -/
def GoMap.rangeFrom {V : Type} : List String → GoMap V → List (String × V)
  | _, [] => []
  | seen, (k, v) :: rest =>
    if k ∈ seen then GoMap.rangeFrom seen rest else (k, v) :: GoMap.rangeFrom (k :: seen) rest

/-- Entries visited by `for k, v := range m`: every key once, here in list order (one of the
orders Go may choose; `GoMap.rangeBy` takes the order from a schedule). -/
def GoMap.range {V : Type} (m : GoMap V) : List (String × V) := GoMap.rangeFrom [] m

/-! ## Data model (`types.go`) -/

/-- Information about the configuration. -/
structure ConfigMetadata where
  Name : String
  Version : String
  Description : String
deriving DecidableEq, Repr

/-- A WoW installation; `Typ` is the field `Type`. -/
structure InstallationConfig where
  Typ : String
  Path : FPath
  Enabled : Bool
  Addons : List String
deriving DecidableEq, Repr

/-- Where an addon comes from; `Typ` is the field `Type`. -/
structure AddonSource where
  Typ : String
  URL : String
  Ref : String
deriving DecidableEq, Repr

/-- An addon and its source. -/
structure AddonConfig where
  Source : AddonSource
  Version : String
  Hash : Option String
  Ignore : List String
  Compatible : List String
  Folder : Option String
deriving DecidableEq, Repr

/-- Profile override of addon settings. -/
structure AddonOverride where
  Ref : Option String
  Version : Option String
  Enabled : Option Bool
deriving DecidableEq, Repr

/-- A profile with specific settings. -/
structure ProfileConfig where
  Installations : List String
  Addons : GoMap AddonOverride
  Description : String
deriving DecidableEq, Repr

/-- Global system configuration. -/
structure SystemSettings where
  AutoUpdate : Bool
  BackupGenerations : Int
  ParallelDownloads : Int
  VerifyHashes : Bool
  StorePath : String
  GenerationsPath : String
deriving DecidableEq, Repr

/-- The complete system configuration. -/
structure DeclarativeConfig where
  Schema : String
  Metadata : ConfigMetadata
  Installations : GoMap InstallationConfig
  Addons : GoMap AddonConfig
  Profiles : GoMap ProfileConfig
  Settings : SystemSettings
deriving DecidableEq, Repr

/-- An addon that is actually installed. -/
structure InstalledAddon where
  ID : String
  Version : String
  Hash : String
  StorePath : FPath
  InstallPath : FPath
  InstalledAt : Time
deriving DecidableEq, Repr

/-- State of one installation. -/
structure InstallationState where
  Path : FPath
  Addons : GoMap InstalledAddon
deriving DecidableEq, Repr

/-- A system state snapshot. -/
structure Generation where
  ID : Int
  Timestamp : Time
  Config : DeclarativeConfig
  StateHash : String
  Description : String
  Installations : GoMap InstallationState
deriving DecidableEq, Repr

/-- Metadata of one blob of the content store. -/
structure StoreEntry where
  Hash : String
  Size : Int
  StorePath : FPath
  SourceURL : String
  SourceRef : String
  CreatedAt : Time
  AccessedAt : Time
deriving DecidableEq, Repr

/-- A single change operation; `Typ` is the field `Type` (the field `Data` is never set). -/
structure Operation where
  Typ : String
  Installation : String
  Addon : String
  From : Option String
  To : String
deriving DecidableEq, Repr

/-- A download that needs to happen. -/
structure DownloadOperation where
  AddonID : String
  Source : AddonSource
  Hash : String
  StorePath : FPath
deriving DecidableEq, Repr

/-- Changes needed for one installation. -/
structure InstallPlan where
  Path : FPath
  Operations : List Operation
  Symlinks : GoMap FPath
deriving DecidableEq, Repr

/-- The changes needed to achieve the desired state. -/
structure BuildPlan where
  CurrentGeneration : Int
  TargetGeneration : Int
  Operations : List Operation
  Downloads : List DownloadOperation
  Installations : GoMap InstallPlan
deriving DecidableEq, Repr

/-- Result of a reconciliation (the field `Duration` is not modelled). -/
structure ReconcileResult where
  Success : Bool
  Generation : Int
  Operations : Nat
  Downloaded : Nat
  Installed : Nat
  Errors : List Err
deriving DecidableEq, Repr

/-! ## Filesystem -/

/-- What a path holds. -/
inductive Node where
  | dir
  | blob (data : Bytes)
  | generationFile (g : Generation)
  | metadataFile (e : StoreEntry)
  | symlink (target : String)
deriving DecidableEq, Repr

/-- Filesystem state: a table from paths to nodes, the first binding of a path counts. -/
abbrev FS := List (FPath × Node)

/-- Node at a path; the origin `[]` is always a directory. -/
def FS.lookup (fs : FS) (p : FPath) : Option Node :=
  if p = [] then some Node.dir else List.lookup p fs

/-- Puts a node at a path, replacing what was there. -/
def FS.write (fs : FS) (p : FPath) (n : Node) : FS :=
  (p, n) :: fs.filter (fun e => e.1 ≠ p)

/-- Removes the entry of one path. -/
def FS.erase (fs : FS) (p : FPath) : FS := fs.filter (fun e => e.1 ≠ p)

/-- Whether something lies strictly below a path. -/
def FS.hasChild (fs : FS) (p : FPath) : Bool :=
  fs.any (fun e => p.isPrefixOf e.1 && decide (e.1 ≠ p))

/-- The call `os.MkdirAll`, on the reversed path. -/
def osMkdirAllRev (fs : FS) : List String → Except Err FS
  | [] => Except.ok fs
  | name :: parentRev =>
    match fs.lookup (name :: parentRev).reverse with
    | some Node.dir => Except.ok fs
    | some _ => Except.error "not a directory"
    | none =>
      match osMkdirAllRev fs parentRev with
      | Except.error e => Except.error e
      | Except.ok fs1 => Except.ok (fs1.write (name :: parentRev).reverse Node.dir)

/-- The call `os.MkdirAll(p, 0755)`. -/
def osMkdirAll (fs : FS) (p : FPath) : Except Err FS := osMkdirAllRev fs p.reverse

/-- Whether `os.Stat(p)` returns no error. -/
def osStat (fs : FS) (p : FPath) : Bool :=
  match fs.lookup p with
  | some (Node.symlink _) => false
  | some _ => true
  | none => false

/-- Whether `os.Lstat(p)` returns no error. -/
def osLstat (fs : FS) (p : FPath) : Bool := (fs.lookup p).isSome

/-- The call `os.Open(p)`: the node opened. -/
def osOpen (fs : FS) (p : FPath) : Option Node :=
  match fs.lookup p with
  | some (Node.symlink _) => none
  | r => r

/-- The call `os.Create(p)` followed by writing a whole file. -/
def osCreate (fs : FS) (p : FPath) (n : Node) : Except Err FS :=
  match fs.lookup p with
  | some Node.dir => Except.error "is a directory"
  | _ => Except.ok (fs.write p n)

/-- The temporary file of `Store.Add`, made by `os.CreateTemp("", ...)` in `os.TempDir()`
and so outside the modelled tree. Each flag says that the step named fails: `os.CreateTemp`,
`io.Copy` into the file, `tempFile.Close()`; `crossDevice` says that the temporary directory
is on another filesystem than the store, where `os.Rename` fails. -/
structure TempFile where
  createFails : Bool
  writeFails : Bool
  closeFails : Bool
  crossDevice : Bool
deriving DecidableEq, Repr

/-- The call `os.Rename(temp, p)` for a temporary file holding `n`; it fails when the
temporary file is on another filesystem. -/
def osRename (fs : FS) (crossDevice : Bool) (p : FPath) (n : Node) : Except Err FS :=
  if crossDevice then Except.error "invalid cross-device link"
  else
    match fs.lookup p with
    | some Node.dir => Except.error "file exists"
    | _ => Except.ok (fs.write p n)

/-- The call `os.Remove(p)`. -/
def osRemove (fs : FS) (p : FPath) : Except Err FS :=
  match fs.lookup p with
  | none => Except.error "no such file or directory"
  | some Node.dir =>
    if fs.hasChild p then Except.error "directory not empty" else Except.ok (fs.erase p)
  | some _ => Except.ok (fs.erase p)

/-- The call `os.RemoveAll(p)`. -/
def osRemoveAll (fs : FS) (p : FPath) : FS := fs.filter (fun e => !p.isPrefixOf e.1)

/-- The call `os.Symlink(target, p)`. -/
def osSymlink (fs : FS) (target : String) (p : FPath) : Except Err FS :=
  match fs.lookup p with
  | some _ => Except.error "file exists"
  | none => Except.ok (fs.write p (Node.symlink target))

/-- Outcome of `os.Readlink`. -/
inductive ReadlinkResult where
  | target (t : String)
  | notExist
  | failed
deriving DecidableEq, Repr

/-- The call `os.Readlink(p)`. -/
def osReadlink (fs : FS) (p : FPath) : ReadlinkResult :=
  match fs.lookup p with
  | some (Node.symlink t) => ReadlinkResult.target t
  | none => ReadlinkResult.notExist
  | some _ => ReadlinkResult.failed

/-- Outcome of `os.ReadDir`. -/
inductive ReadDirResult where
  | entries (es : List (String × Node))
  | notExist
  | failed
deriving DecidableEq, Repr

/-- Name and node of the entries directly inside a directory. -/
def FS.children (fs : FS) (d : FPath) : List (String × Node) :=
  GoMap.range (fs.filterMap fun e =>
    match e.1.getLast? with
    | none => none
    | some name => if e.1.dropLast = d then some (name, e.2) else none)

/-- Go string order `a <= b` on the characters. -/
def charsLe : List Char → List Char → Bool
  | [], _ => true
  | _ :: _, [] => false
  | a :: as, b :: bs =>
    if a.toNat < b.toNat then true else if b.toNat < a.toNat then false else charsLe as bs

/-- The call `os.ReadDir(d)`: entries sorted by file name. -/
def osReadDir (fs : FS) (d : FPath) : ReadDirResult :=
  match fs.lookup d with
  | none => ReadDirResult.notExist
  | some Node.dir =>
    ReadDirResult.entries ((fs.children d).insertionSort fun a b => charsLe a.1.data b.1.data = true)
  | some _ => ReadDirResult.failed

/-! ## JSON text (`json.Marshal`)

Only the text is modelled, and only as far as the hashes computed from it need: string
escaping covers the quote and the backslash, a nil slice or map is written like an empty one,
a time is written as its stamp. -/

/-- A JSON string literal. -/
def jsonString (s : String) : String :=
  ⟨Char.ofNat 34 :: (s.data.flatMap fun c =>
      if c = Char.ofNat 34 ∨ c = Char.ofNat 92 then [Char.ofNat 92, c] else [c]) ++
    [Char.ofNat 34]⟩

/-- A JSON string or `null`. -/
def jsonOptString : Option String → String
  | none => "null"
  | some s => jsonString s

/-- A JSON boolean. -/
def jsonBool (b : Bool) : String := if b then "true" else "false"

/-- Comma-separated items. -/
def jsonItems : List String → List Char
  | [] => []
  | [x] => x.data
  | x :: rest => x.data ++ ',' :: jsonItems rest

/-- A JSON array of already encoded items. -/
def jsonArray (xs : List String) : String := ⟨'[' :: jsonItems xs ++ [']']⟩

/-- A JSON object of already encoded values, keys in the given order. -/
def jsonObject (fields : List (String × String)) : String :=
  ⟨Char.ofNat 123 :: jsonItems (fields.map fun f => jsonString f.1 ++ ":" ++ f.2) ++
    [Char.ofNat 125]⟩

/-- A JSON object for a Go map: keys sorted. -/
def jsonMap {V : Type} (enc : V → String) (m : GoMap V) : String :=
  jsonObject (((GoMap.range m).insertionSort fun a b => charsLe a.1.data b.1.data = true).map
    fun e => (e.1, enc e.2))

/-- JSON of an `AddonSource`. -/
def marshalAddonSource (a : AddonSource) : String :=
  jsonObject [("type", jsonString a.Typ), ("url", jsonString a.URL), ("ref", jsonString a.Ref)]

/-- JSON of an `AddonConfig`. -/
def marshalAddonConfig (c : AddonConfig) : String :=
  jsonObject [("source", marshalAddonSource c.Source), ("version", jsonString c.Version),
    ("hash", jsonOptString c.Hash), ("ignore", jsonArray (c.Ignore.map jsonString)),
    ("compatible", jsonArray (c.Compatible.map jsonString)), ("folder", jsonOptString c.Folder)]

/-- JSON of an `InstallationConfig`. -/
def marshalInstallationConfig (c : InstallationConfig) : String :=
  jsonObject [("type", jsonString c.Typ), ("path", jsonString (pathString c.Path)),
    ("enabled", jsonBool c.Enabled), ("addons", jsonArray (c.Addons.map jsonString))]

/-- JSON of an `AddonOverride` (all fields `omitempty`). -/
def marshalAddonOverride (o : AddonOverride) : String :=
  jsonObject ((match o.Ref with | none => [] | some r => [("ref", jsonString r)]) ++
    (match o.Version with | none => [] | some v => [("version", jsonString v)]) ++
    (match o.Enabled with | none => [] | some b => [("enabled", jsonBool b)]))

/-- JSON of a `ProfileConfig`. -/
def marshalProfileConfig (c : ProfileConfig) : String :=
  jsonObject [("installations", jsonArray (c.Installations.map jsonString)),
    ("addons", jsonMap marshalAddonOverride c.Addons), ("description", jsonString c.Description)]

/-- JSON of the `SystemSettings`. -/
def marshalSettings (c : SystemSettings) : String :=
  jsonObject [("auto_update", jsonBool c.AutoUpdate),
    ("backup_generations", itoa c.BackupGenerations),
    ("parallel_downloads", itoa c.ParallelDownloads), ("verify_hashes", jsonBool c.VerifyHashes),
    ("store_path", jsonString c.StorePath), ("generations_path", jsonString c.GenerationsPath)]

/-- JSON of a `DeclarativeConfig`. -/
def marshalConfig (c : DeclarativeConfig) : String :=
  jsonObject [("schema", jsonString c.Schema),
    ("metadata", jsonObject [("name", jsonString c.Metadata.Name),
      ("version", jsonString c.Metadata.Version),
      ("description", jsonString c.Metadata.Description)]),
    ("installations", jsonMap marshalInstallationConfig c.Installations),
    ("addons", jsonMap marshalAddonConfig c.Addons),
    ("profiles", jsonMap marshalProfileConfig c.Profiles),
    ("settings", marshalSettings c.Settings)]

/-- JSON of an `InstalledAddon`. -/
def marshalInstalledAddon (a : InstalledAddon) : String :=
  jsonObject [("id", jsonString a.ID), ("version", jsonString a.Version),
    ("hash", jsonString a.Hash), ("store_path", jsonString (pathString a.StorePath)),
    ("install_path", jsonString (pathString a.InstallPath)),
    ("installed_at", jsonString (formatStamp a.InstalledAt))]

/-- JSON of an `InstallationState`. -/
def marshalInstallationState (s : InstallationState) : String :=
  jsonObject [("path", jsonString (pathString s.Path)),
    ("addons", jsonMap marshalInstalledAddon s.Addons)]

/-! ## Content store (`store.go`) -/

/-- The content-addressed addon storage. -/
structure Store where
  BasePath : FPath
  StorePath : FPath
  MetadataPath : FPath
deriving DecidableEq, Repr

/-- Creates a new content store. -/
def NewStore (basePath : FPath) : Store :=
  { BasePath := basePath, StorePath := basePath ++ ["store"],
    MetadataPath := basePath ++ ["metadata"] }

/-- Runs `os.MkdirAll` over a list of directories, stopping at the first failure. -/
def mkdirEach (fs : FS) : List FPath → FS × Option Err
  | [] => (fs, none)
  | d :: rest =>
    match osMkdirAll fs d with
    | Except.error e => (fs, some ("failed to create directory: " ++ e))
    | Except.ok fs1 => mkdirEach fs1 rest

/-- Creates the store directory structure. -/
def Store.Initialize (s : Store) (fs : FS) : FS × Option Err :=
  mkdirEach fs [s.BasePath, s.StorePath, s.MetadataPath]

/-- File path for content with the given hash; `none` when `hash[:2]` panics. -/
def Store.getStorePath (s : Store) (hash : String) : Option FPath :=
  match sliceTo hash 2, sliceFrom hash 2 with
  | some subdir, some filename => some (joinName (joinName s.StorePath subdir) filename)
  | _, _ => none

/-- Metadata file path for the given hash. -/
def Store.getMetadataPath (s : Store) (hash : String) : FPath :=
  joinName s.MetadataPath (hash ++ ".json")

/-- Saves metadata for a store entry. -/
def Store.saveMetadata (s : Store) (fs : FS) (hash : String) (metadata : StoreEntry) :
    FS × Option Err :=
  let metadataPath := s.getMetadataPath hash
  match osMkdirAll fs (filepathDir metadataPath) with
  | Except.error e => (fs, some ("failed to create metadata directory: " ++ e))
  | Except.ok fs1 =>
    match osCreate fs1 metadataPath (Node.metadataFile metadata) with
    | Except.error e => (fs1, some ("failed to create metadata file: " ++ e))
    | Except.ok fs2 => (fs2, none)

/-- Retrieves metadata for a store entry. -/
def Store.GetMetadata (s : Store) (fs : FS) (hash : String) : Except Err StoreEntry :=
  match osOpen fs (s.getMetadataPath hash) with
  | none => Except.error "failed to open metadata"
  | some (Node.metadataFile e) => Except.ok e
  | some _ => Except.error "failed to decode metadata"

/-- Stores content and returns the hash with the error, if any. The temporary file `temp`
lives outside the modelled tree and is gone (removed or renamed) when `Add` returns. -/
def Store.Add (H : Hasher) (s : Store) (fs : FS) (content : Bytes) (metadata : StoreEntry)
    (now : Time) (temp : TempFile) : Option (FS × String × Option Err) :=
  if temp.createFails then some (fs, "", some "failed to create temp file")
  else if temp.writeFails then some (fs, "", some "failed to write content")
  else
    let hash := hexEncode (H.sum content)
    match s.getStorePath hash with
    | none => none
    | some storePath =>
      if osStat fs storePath then
        match s.saveMetadata fs hash { metadata with AccessedAt := now } with
        | (fs1, e) => some (fs1, hash, e)
      else
        match osMkdirAll fs (filepathDir storePath) with
        | Except.error e => some (fs, "", some ("failed to create store directory: " ++ e))
        | Except.ok fs1 =>
          if temp.closeFails then some (fs1, "", some "failed to close temp file")
          else
            match osRename fs1 temp.crossDevice storePath (Node.blob content) with
            | Except.error e => some (fs1, "", some ("failed to move to store: " ++ e))
            | Except.ok fs2 =>
              match s.saveMetadata fs2 hash
                { metadata with Hash := hash, StorePath := storePath, CreatedAt := now,
                                AccessedAt := now } with
              | (fs3, e) => some (fs3, hash, e)

/-- Retrieves content by hash: the node opened, or an error. -/
def Store.Get (s : Store) (fs : FS) (hash : String) (now : Time) :
    Option (FS × Except Err Node) :=
  match s.getStorePath hash with
  | none => none
  | some storePath =>
    match osOpen fs storePath with
    | none => some (fs, Except.error "failed to open store file")
    | some file =>
      match s.GetMetadata fs hash with
      | Except.ok metadata =>
        some ((s.saveMetadata fs hash { metadata with AccessedAt := now }).1, Except.ok file)
      | Except.error _ => some (fs, Except.ok file)

/-- Checks if content with the given hash exists in the store. -/
def Store.Exists (s : Store) (fs : FS) (hash : String) : Option Bool :=
  match s.getStorePath hash with
  | none => none
  | some storePath => some (osStat fs storePath)

/-- Creates a symlink from the target to the store content. -/
def Store.Link (s : Store) (fs : FS) (hash : String) (targetPath : FPath) :
    Option (FS × Option Err) :=
  match s.getStorePath hash with
  | none => none
  | some storePath =>
    let targetDir := filepathDir targetPath
    match osMkdirAll fs targetDir with
    | Except.error e => some (fs, some ("failed to create target directory: " ++ e))
    | Except.ok fs1 =>
      match (if osLstat fs1 targetPath then osRemove fs1 targetPath else Except.ok fs1) with
      | Except.error e => some (fs1, some ("failed to remove existing target: " ++ e))
      | Except.ok fs2 =>
        match filepathRel targetDir storePath with
        | Except.error e => some (fs2, some ("failed to get relative path: " ++ e))
        | Except.ok relPath =>
          match osSymlink fs2 relPath targetPath with
          | Except.error e => some (fs2, some ("failed to create symlink: " ++ e))
          | Except.ok fs3 => some (fs3, none)

/-- Removes unused store entries (a placeholder in the source). -/
def Store.GarbageCollect (_s : Store) (fs : FS) (_keepGenerations : Int) : FS × Option Err :=
  (fs, none)

/-! ## Generation manager (`generations.go`) -/

/-- A slice `[]Generation`. -/
abbrev Generations := List Generation

/-- Manager of the system state generations. -/
structure GenerationManager where
  BasePath : FPath
  Store : Store
deriving DecidableEq, Repr

/-- Creates a new generation manager. -/
def NewGenerationManager (basePath : FPath) (store : Store) : GenerationManager :=
  { BasePath := basePath, Store := store }

/-- The directory `BasePath/generations`. -/
def GenerationManager.generationsDir (gm : GenerationManager) : FPath :=
  gm.BasePath ++ ["generations"]

/-- The path `BasePath/generations/current`. -/
def GenerationManager.currentPath (gm : GenerationManager) : FPath :=
  gm.generationsDir ++ ["current"]

/-- Creates the generations directory structure. -/
def GenerationManager.Initialize (gm : GenerationManager) (fs : FS) : Except Err FS :=
  osMkdirAll fs gm.generationsDir

/-- Directory name of a generation: reads the fields `ID` and `Timestamp`. -/
def getGenerationDirName (id : Int) (timestamp : Time) : String :=
  itoa id ++ "-" ++ formatStamp timestamp

/-- Path of a generation's JSON file; the directory name is built from `&Generation{ID: id}`,
whose `Timestamp` is the zero time. -/
def GenerationManager.getGenerationPath (gm : GenerationManager) (id : Int) : FPath :=
  joinName gm.generationsDir (getGenerationDirName id Time.zero) ++ ["generation.json"]

/-- Hash representing the generation's state; `none` when `hash[:16]` panics. -/
def calculateStateHash (generation : Generation) : Option String :=
  let configBytes := utf8Bytes (marshalConfig generation.Config)
  let installationBytes := utf8Bytes (jsonMap marshalInstallationState generation.Installations)
  sliceTo (hexEncode (configBytes ++ installationBytes)) 16

/-- Persists a generation to disk. -/
def GenerationManager.save (gm : GenerationManager) (fs : FS) (generation : Generation) :
    FS × Option Err :=
  let generationDir :=
    joinName gm.generationsDir (getGenerationDirName generation.ID generation.Timestamp)
  match osMkdirAll fs generationDir with
  | Except.error e => (fs, some ("failed to create generation directory: " ++ e))
  | Except.ok fs1 =>
    match osCreate fs1 (generationDir ++ ["generation.json"]) (Node.generationFile generation) with
    | Except.error e => (fs1, some ("failed to create generation file: " ++ e))
    | Except.ok fs2 => (fs2, none)

/-- Retrieves a specific generation. -/
def GenerationManager.Get (gm : GenerationManager) (fs : FS) (id : Int) :
    Except Err Generation :=
  match osOpen fs (gm.getGenerationPath id) with
  | none => Except.error "failed to open generation file"
  | some (Node.generationFile g) => Except.ok g
  | some _ => Except.error "failed to decode generation"

/-- Returns the current active generation. -/
def GenerationManager.GetCurrent (gm : GenerationManager) (fs : FS) : Except Err Generation :=
  match osReadlink fs gm.currentPath with
  | ReadlinkResult.notExist => Except.error "no current generation set"
  | ReadlinkResult.failed => Except.error "failed to read current symlink"
  | ReadlinkResult.target target =>
    match atoi (splitDashHead (filepathBase target)) with
    | none => Except.error "invalid generation ID in symlink"
    | some id => gm.Get fs id

/-- Sets the current active generation. -/
def GenerationManager.SetCurrent (gm : GenerationManager) (fs : FS) (id : Int) :
    FS × Option Err :=
  match gm.Get fs id with
  | Except.error e => (fs, some ("generation not found: " ++ e))
  | Except.ok generation =>
    let target := getGenerationDirName generation.ID generation.Timestamp
    match (if osLstat fs gm.currentPath then osRemove fs gm.currentPath else Except.ok fs) with
    | Except.error e => (fs, some ("failed to remove current symlink: " ++ e))
    | Except.ok fs1 =>
      match osSymlink fs1 target gm.currentPath with
      | Except.error e => (fs1, some ("failed to create current symlink: " ++ e))
      | Except.ok fs2 => (fs2, none)

/-- The loop of `List` over the directory entries. -/
def GenerationManager.loadEntries (gm : GenerationManager) (fs : FS) :
    List (String × Node) → Generations
  | [] => []
  | (name, node) :: rest =>
    if node = Node.dir ∧ name ≠ "current" then
      match atoi (splitDashHead name) with
      | none => gm.loadEntries fs rest
      | some id =>
        match gm.Get fs id with
        | Except.error _ => gm.loadEntries fs rest
        | Except.ok generation => generation :: gm.loadEntries fs rest
    else gm.loadEntries fs rest

/-- Returns all generations sorted by ID. -/
def GenerationManager.List (gm : GenerationManager) (fs : FS) : Except Err Generations :=
  match osReadDir fs gm.generationsDir with
  | ReadDirResult.notExist => Except.ok []
  | ReadDirResult.failed => Except.error "failed to read generations directory"
  | ReadDirResult.entries entries =>
    Except.ok ((gm.loadEntries fs entries).insertionSort fun a b => a.ID ≤ b.ID)

/-- Creates a new generation from the given configuration. -/
def GenerationManager.Create (gm : GenerationManager) (fs : FS) (config : DeclarativeConfig)
    (description : String) (now : Time) : Option (FS × Except Err Generation) :=
  match gm.List fs with
  | Except.error e => some (fs, Except.error ("failed to list generations: " ++ e))
  | Except.ok generations =>
    let nextID : Int :=
      match generations.getLast? with
      | none => 1
      | some last => wrapInt64 (last.ID + 1)
    let generation : Generation :=
      { ID := nextID, Timestamp := now, Config := config, StateHash := "",
        Description := description, Installations := [] }
    match calculateStateHash generation with
    | none => none
    | some stateHash =>
      let generation := { generation with StateHash := stateHash }
      match gm.save fs generation with
      | (fs1, some e) => some (fs1, Except.error ("failed to save generation: " ++ e))
      | (fs1, none) => some (fs1, Except.ok generation)

/-- Removes a generation (but not if it is current). -/
def GenerationManager.Delete (gm : GenerationManager) (fs : FS) (id : Int) : FS × Option Err :=
  match gm.GetCurrent fs with
  | Except.ok current =>
    if current.ID = id then (fs, some "cannot delete current generation")
    else (osRemoveAll fs (joinName gm.generationsDir (getGenerationDirName id Time.zero)), none)
  | Except.error _ =>
    (osRemoveAll fs (joinName gm.generationsDir (getGenerationDirName id Time.zero)), none)

/-- The deletion loop of `GarbageCollect`. -/
def GenerationManager.deleteEach (gm : GenerationManager) (current : Generation) (fs : FS) :
    Generations → FS × Option Err
  | [] => (fs, none)
  | gen :: rest =>
    if gen.ID = current.ID then gm.deleteEach current fs rest
    else
      match gm.Delete fs gen.ID with
      | (fs1, some e) => (fs1, some ("failed to delete generation: " ++ e))
      | (fs1, none) => gm.deleteEach current fs1 rest

/-- Removes old generations, keeping the specified number; `none` when the slice
`generations[:len(generations)-keep]` panics. -/
def GenerationManager.GarbageCollect (gm : GenerationManager) (fs : FS) (keep : Int) :
    Option (FS × Option Err) :=
  match gm.List fs with
  | Except.error e => some (fs, some ("failed to list generations: " ++ e))
  | Except.ok generations =>
    if (generations.length : Int) ≤ keep then some (fs, none)
    else
      match gm.GetCurrent fs with
      | Except.error e => some (fs, some ("failed to get current generation: " ++ e))
      | Except.ok current =>
        if keep < 0 then none
        else some (gm.deleteEach current fs (generations.take (generations.length - keep.toNat)))

/-! ## Reconciler (`reconcile.go`) -/

/-- Reconciliation between desired and actual state. -/
structure Reconciler where
  Config : DeclarativeConfig
  Store : Store
  GenerationManager : GenerationManager
deriving DecidableEq, Repr

/-- Creates a new reconciler. -/
def NewReconciler (config : DeclarativeConfig) (store : Store) (gm : GenerationManager) :
    Reconciler :=
  { Config := config, Store := store, GenerationManager := gm }

/-- Hash of an addon configuration; `none` when the slice `[:16]` panics. -/
def calculateAddonHash (config : AddonConfig) : Option String :=
  sliceTo (hexEncode (utf8Bytes (marshalAddonConfig config))) 16

/-- The loop of `isCompatible` over the compatibility list. -/
def compatibleLoop (installType : String) : List String → Bool
  | [] => false
  | compatibleType :: rest =>
    if compatibleType = installType then true else compatibleLoop installType rest

/-- Checks if an addon is compatible with an installation type. -/
def isCompatible (addon : AddonConfig) (installType : String) : Bool :=
  compatibleLoop installType addon.Compatible

/-- The operation `planInstallation` emits for one desired addon. -/
def classifyAddon (installID addonID targetHash : String) (currentState : GoMap InstalledAddon) :
    Operation :=
  match currentState.get? addonID with
  | none =>
    { Typ := "install", Installation := installID, Addon := addonID, From := none,
      To := targetHash }
  | some currentAddon =>
    if currentAddon.Hash ≠ targetHash then
      { Typ := "update", Installation := installID, Addon := addonID,
        From := some currentAddon.Hash, To := targetHash }
    else
      { Typ := "symlink", Installation := installID, Addon := addonID, From := none,
        To := targetHash }

/-- First loop of `planInstallation`: one operation and one symlink per desired addon. -/
def Reconciler.planAddons (r : Reconciler) (installID : String) (config : InstallationConfig)
    (currentState : GoMap InstalledAddon) : List String → InstallPlan →
    Option (Except Err InstallPlan)
  | [], plan => some (Except.ok plan)
  | addonID :: rest, plan =>
    match r.Config.Addons.get? addonID with
    | none => some (Except.error ("addon " ++ addonID ++ " not found in configuration"))
    | some addonConfig =>
      if !isCompatible addonConfig config.Typ then
        some (Except.error ("addon " ++ addonID ++
          " is not compatible with installation type " ++ config.Typ))
      else
        match calculateAddonHash addonConfig with
        | none => none
        | some targetHash =>
          match r.Store.getStorePath targetHash with
          | none => none
          | some storePath =>
            r.planAddons installID config currentState rest
              { plan with
                Operations :=
                  plan.Operations ++ [classifyAddon installID addonID targetHash currentState],
                Symlinks := plan.Symlinks.set addonID storePath }

/-- The inner loop `for _, wantedID := range config.Addons`. -/
def wantedLoop (addonID : String) : List String → Bool
  | [] => false
  | wantedID :: rest => if wantedID = addonID then true else wantedLoop addonID rest

/-- Second loop of `planInstallation`: removal of addons that are no longer wanted. -/
def planRemovals (installID : String) (config : InstallationConfig)
    (currentState : GoMap InstalledAddon) : List (String × InstalledAddon) → List Operation
  | [] => []
  | (addonID, _) :: rest =>
    if !wantedLoop addonID config.Addons then
      { Typ := "uninstall", Installation := installID, Addon := addonID,
        From := some (((currentState.get? addonID).map fun a => a.Hash).getD ""), To := "" } ::
        planRemovals installID config currentState rest
    else planRemovals installID config currentState rest

/-- The current state `planInstallation` reads for one installation. -/
def Reconciler.currentState (r : Reconciler) (fs : FS) (installID : String) :
    GoMap InstalledAddon :=
  match r.GenerationManager.GetCurrent fs with
  | Except.ok current =>
    match current.Installations.get? installID with
    | some installState => installState.Addons
    | none => []
  | Except.error _ => []

/-- Creates a plan for a single installation. -/
def Reconciler.planInstallation (r : Reconciler) (fs : FS) (installID : String)
    (config : InstallationConfig) : Option (Except Err InstallPlan) :=
  let currentState := r.currentState fs installID
  match r.planAddons installID config currentState config.Addons
      { Path := config.Path, Operations := [], Symlinks := [] } with
  | none => none
  | some (Except.error e) => some (Except.error e)
  | some (Except.ok plan) =>
    some (Except.ok { plan with
      Operations := plan.Operations ++
        planRemovals installID config currentState (GoMap.range currentState) })

/-- First loop of `Plan`: every enabled installation. -/
def Reconciler.planInstallations (r : Reconciler) (fs : FS) :
    List (String × InstallationConfig) → BuildPlan → Option (Except Err BuildPlan)
  | [], plan => some (Except.ok plan)
  | (installID, installConfig) :: rest, plan =>
    if !installConfig.Enabled then r.planInstallations fs rest plan
    else
      match r.planInstallation fs installID installConfig with
      | none => none
      | some (Except.error e) =>
        some (Except.error ("failed to plan installation " ++ installID ++ ": " ++ e))
      | some (Except.ok installPlan) =>
        r.planInstallations fs rest
          { plan with
            Installations := plan.Installations.set installID installPlan,
            Operations := plan.Operations ++ installPlan.Operations }

/-- Inner loop of the download collection: the operations of one installation plan. -/
def Reconciler.collectDownloads (r : Reconciler) (fs : FS) :
    List Operation → List DownloadOperation → Option (List DownloadOperation)
  | [], downloads => some downloads
  | op :: rest, downloads =>
    if op.Typ = "install" ∨ op.Typ = "update" then
      match r.Config.Addons.get? op.Addon with
      | none => r.collectDownloads fs rest downloads
      | some addonConfig =>
        match calculateAddonHash addonConfig with
        | none => none
        | some hash =>
          match r.Store.Exists fs hash with
          | none => none
          | some true => r.collectDownloads fs rest downloads
          | some false =>
            match r.Store.getStorePath hash with
            | none => none
            | some storePath =>
              r.collectDownloads fs rest
                (downloads ++ [{ AddonID := op.Addon, Source := addonConfig.Source, Hash := hash,
                                 StorePath := storePath }])
    else r.collectDownloads fs rest downloads

/-- Second loop of `Plan`: the required downloads of every installation plan. -/
def Reconciler.planDownloads (r : Reconciler) (fs : FS) :
    List (String × InstallPlan) → List DownloadOperation → Option (List DownloadOperation)
  | [], downloads => some downloads
  | (_, installPlan) :: rest, downloads =>
    match r.collectDownloads fs installPlan.Operations downloads with
    | none => none
    | some downloads1 => r.planDownloads fs rest downloads1

/-- Creates a build plan to achieve the desired state; `none` is a panic. -/
def Reconciler.Plan (r : Reconciler) (fs : FS) : Option (Except Err BuildPlan) :=
  let plan : BuildPlan :=
    { CurrentGeneration :=
        (match r.GenerationManager.GetCurrent fs with
         | Except.ok current => current.ID
         | Except.error _ => 0),
      TargetGeneration := 0, Operations := [], Downloads := [], Installations := [] }
  match r.planInstallations fs (GoMap.range r.Config.Installations) plan with
  | none => none
  | some (Except.error e) => some (Except.error e)
  | some (Except.ok plan1) =>
    match r.planDownloads fs (GoMap.range plan1.Installations) plan1.Downloads with
    | none => none
    | some downloads => some (Except.ok { plan1 with Downloads := downloads })

/-- Downloads and stores an addon: a placeholder in the source, it only prints. -/
def Reconciler.executeDownload (_r : Reconciler) (_download : DownloadOperation) : Option Err :=
  none

/-- The symlink loop of `executeInstallPlan`. -/
def Reconciler.linkEach (r : Reconciler) (plan : InstallPlan) (now : Time) :
    FS → InstallationState → List (String × FPath) → Option (FS × Except Err InstallationState)
  | fs, installState, [] => some (fs, Except.ok installState)
  | fs, installState, (addonID, storePath) :: rest =>
    let targetPath := joinName plan.Path addonID
    match r.Store.Link fs (pathBase storePath) targetPath with
    | none => none
    | some (fs1, some e) =>
      some (fs1, Except.error ("failed to create symlink for " ++ addonID ++ ": " ++ e))
    | some (fs1, none) =>
      r.linkEach plan now fs1
        { installState with
          Addons := installState.Addons.set addonID
            { ID := addonID, Version := "", Hash := "", StorePath := storePath,
              InstallPath := targetPath, InstalledAt := now } }
        rest

/-- Executes an installation plan: the filesystem, the in-memory generation and the error. -/
def Reconciler.executeInstallPlan (r : Reconciler) (fs : FS) (installID : String)
    (plan : InstallPlan) (generation : Generation) (now : Time) :
    Option (FS × Generation × Option Err) :=
  match r.linkEach plan now fs { Path := plan.Path, Addons := [] } (GoMap.range plan.Symlinks) with
  | none => none
  | some (fs1, Except.error e) => some (fs1, generation, some e)
  | some (fs1, Except.ok installState) =>
    some (fs1, { generation with
      Installations := generation.Installations.set installID installState }, none)

/-- The download loop of `Apply`. -/
def Reconciler.runDownloads (r : Reconciler) :
    List DownloadOperation → ReconcileResult → ReconcileResult
  | [], result => result
  | download :: rest, result =>
    match r.executeDownload download with
    | some e =>
      r.runDownloads rest
        { result with
          Errors := result.Errors ++ ["download " ++ download.AddonID ++ " failed: " ++ e],
          Success := false }
    | none => r.runDownloads rest { result with Downloaded := result.Downloaded + 1 }

/-- The installation loop of `Apply`. -/
def Reconciler.runInstallPlans (r : Reconciler) (now : Time) :
    FS → Generation → ReconcileResult → List (String × InstallPlan) →
    Option (FS × Generation × ReconcileResult)
  | fs, generation, result, [] => some (fs, generation, result)
  | fs, generation, result, (installID, installPlan) :: rest =>
    match r.executeInstallPlan fs installID installPlan generation now with
    | none => none
    | some (fs1, generation1, some e) =>
      r.runInstallPlans now fs1 generation1
        { result with
          Errors := result.Errors ++ ["installation " ++ installID ++ " failed: " ++ e],
          Success := false }
        rest
    | some (fs1, generation1, none) =>
      r.runInstallPlans now fs1 generation1 { result with Installed := result.Installed + 1 } rest

/-- What `Apply` leaves behind: the filesystem, the two returned values, and the in-memory
generation record it was updating (not returned by the source; kept for inspection). -/
structure ApplyOutcome where
  fs : FS
  result : ReconcileResult
  err : Option Err
  generation : Option Generation
deriving DecidableEq, Repr

/-- Executes a build plan; `none` is a panic. Every `time.Now()` of one call reads `now`. -/
def Reconciler.Apply (r : Reconciler) (fs : FS) (plan : BuildPlan) (now : Time) :
    Option ApplyOutcome :=
  let result : ReconcileResult :=
    { Success := true, Generation := 0, Operations := plan.Operations.length, Downloaded := 0,
      Installed := 0, Errors := [] }
  match r.GenerationManager.Create fs r.Config "Applied declarative configuration" now with
  | none => none
  | some (fs1, Except.error e) =>
    some { fs := fs1, result := result, err := some ("failed to create generation: " ++ e),
           generation := none }
  | some (fs1, Except.ok generation) =>
    let result1 := r.runDownloads plan.Downloads { result with Generation := generation.ID }
    match r.runInstallPlans now fs1 generation result1 (GoMap.range plan.Installations) with
    | none => none
    | some (fs2, generation2, result2) =>
      if result2.Success then
        match r.GenerationManager.SetCurrent fs2 generation2.ID with
        | (fs3, some e) =>
          some { fs := fs3,
                 result := { result2 with
                   Errors := result2.Errors ++ ["failed to set current generation: " ++ e],
                   Success := false },
                 err := none, generation := some generation2 }
        | (fs3, none) =>
          some { fs := fs3, result := result2, err := none, generation := some generation2 }
      else some { fs := fs2, result := result2, err := none, generation := some generation2 }

/-! ## Store states -/

/-- The states of a store: the store directory exists, and below it there are only the
fan-out directories and blobs, each blob at the path of the digest of its own bytes. This is
what `Initialize` sets up and `Add` maintains. -/
def StoreInv (H : Hasher) (s : Store) (fs : FS) : Prop :=
  FS.lookup fs s.StorePath = some Node.dir ∧
  ∀ p n, s.StorePath <+: p → FS.lookup fs p = some n →
    (n = Node.dir ∧ p.length ≤ s.StorePath.length + 1) ∨
    (∃ c, n = Node.blob c ∧ s.getStorePath (hexEncode (H.sum c)) = some p)

/-- No blob of the store has the digest of `content` without being `content`
(collision freedom of the digest, as far as this state and this content go). -/
def NoCollision (H : Hasher) (s : Store) (fs : FS) (content : Bytes) : Prop :=
  ∀ p c, s.StorePath <+: p → FS.lookup fs p = some (Node.blob c) →
    hexEncode (H.sum c) = hexEncode (H.sum content) → c = content

/-- The recorded entry of an addon in the current generation's state of an installation,
if there is a current generation and it has one. -/
def recordedAddon (gm : GenerationManager) (fs : FS) (installID addonID : String) :
    Option InstalledAddon :=
  match gm.GetCurrent fs with
  | Except.ok current =>
    match current.Installations.get? installID with
    | some installState => installState.Addons.get? addonID
    | none => none
  | Except.error _ => none

/-- Operations one entry of the configuration's installations contributes to the plan: those
of its installation plan when it is enabled and planned, none otherwise. -/
def Reconciler.installOps (r : Reconciler) (fs : FS) (e : String × InstallationConfig) :
    List Operation :=
  if e.2.Enabled then
    match r.planInstallation fs e.1 e.2 with
    | some (Except.ok installPlan) => installPlan.Operations
    | _ => []
  else []

/-! ## Example states -/

/-- Store of the examples. -/
def exStore : Store := NewStore ["aggon"]

/-- Generation manager of the examples. -/
def exGM : GenerationManager := NewGenerationManager ["aggon"] exStore

/-- A clock reading. -/
def exNow : Time := ⟨2026, 11, 1, 10, 0, 0⟩

/-- A later clock reading. -/
def exLater : Time := ⟨2026, 11, 1, 10, 5, 0⟩

/-- The addon `bigwigs`, compatible with `retail`. -/
def exBigwigs : AddonConfig :=
  { Source := { Typ := "github", URL := "https://github.com/BigWigsMods/BigWigs", Ref := "main" },
    Version := "latest", Hash := none, Ignore := [], Compatible := ["retail"], Folder := none }

/-- Settings of the examples. -/
def exSettings : SystemSettings :=
  { AutoUpdate := false, BackupGenerations := 10, ParallelDownloads := 3, VerifyHashes := true,
    StorePath := "aggon", GenerationsPath := "aggon" }

/-- Desired configuration: installation `retail` wants `bigwigs` (and no `weakauras`). -/
def exConfig : DeclarativeConfig :=
  { Schema := "aggon/v2", Metadata := { Name := "setup", Version := "1.0.0", Description := "" },
    Installations :=
      [("retail", { Typ := "retail", Path := ["wow", "retail"], Enabled := true,
                    Addons := ["bigwigs"] })],
    Addons := [("bigwigs", exBigwigs)], Profiles := [], Settings := exSettings }

/-- Reconciler of the examples. -/
def exReconciler : Reconciler := NewReconciler exConfig exStore exGM

/-- A recorded generation 1 whose installation `retail` holds `weakauras` at `hashX`. -/
def exGenOne : Generation :=
  { ID := 1, Timestamp := Time.zero, Config := exConfig, StateHash := "7b22736368656d61",
    Description := "previous", Installations :=
      [("retail", { Path := ["wow", "retail"], Addons :=
          [("weakauras", { ID := "weakauras", Version := "", Hash := "hashX",
                           StorePath := ["aggon", "store", "ha", "shX"],
                           InstallPath := ["wow", "retail", "weakauras"],
                           InstalledAt := Time.zero })] })] }

/-- A state in which generation 1 is current: its directory carries the zero stamp, the only
directory name `Get` looks under. -/
def exCurrentFS : FS :=
  [(["aggon"], Node.dir), (["aggon", "generations"], Node.dir),
   (["aggon", "generations", "1-0001-01-01-000000"], Node.dir),
   (["aggon", "generations", "1-0001-01-01-000000", "generation.json"],
      Node.generationFile exGenOne),
   (["aggon", "generations", "current"], Node.symlink "1-0001-01-01-000000")]

/-- A plan with one activation link, `wow/retail/bigwigs`. -/
def exPlan : BuildPlan :=
  { CurrentGeneration := 1, TargetGeneration := 0, Operations := [], Downloads := [],
    Installations :=
      [("retail", { Path := ["wow", "retail"], Operations := [],
                    Symlinks := [("bigwigs", ["aggon", "store", "7b", "22736f75726365"])] })] }

/-- The store state after adding the bytes `[1, 2, 3]` to `exInitFS` at `exNow`. -/
def exStoreFS : FS :=
  [(["aggon", "metadata", "0102030000000000000000000000000000000000000000000000000000000000.json"],
      Node.metadataFile
        { Hash := "0102030000000000000000000000000000000000000000000000000000000000", Size := 0,
          StorePath := ["aggon", "store", "01",
            "02030000000000000000000000000000000000000000000000000000000000"],
          SourceURL := "https://example.org/a.zip", SourceRef := "main", CreatedAt := exNow,
          AccessedAt := exNow }),
   (["aggon", "store", "01", "02030000000000000000000000000000000000000000000000000000000000"],
      Node.blob [1, 2, 3]),
   (["aggon", "store", "01"], Node.dir), (["aggon", "metadata"], Node.dir),
   (["aggon", "store"], Node.dir), (["aggon"], Node.dir)]

/-- The installation `retail` of `exConfig`. -/
def exRetail : InstallationConfig :=
  { Typ := "retail", Path := ["wow", "retail"], Enabled := true, Addons := ["bigwigs"] }

/-- The plan of `retail` against `exCurrentFS`: install `bigwigs`, uninstall `weakauras`. -/
def exRetailPlan : InstallPlan :=
  { Path := ["wow", "retail"],
    Operations :=
      [{ Typ := "install", Installation := "retail", Addon := "bigwigs", From := none,
         To := "7b22736f75726365" },
       { Typ := "uninstall", Installation := "retail", Addon := "weakauras",
         From := some "hashX", To := "" }],
    Symlinks := [("bigwigs", ["aggon", "store", "7b", "22736f75726365"])] }

/-- The plan of `exConfig` against `exCurrentFS` (Scenario A). -/
def exScenarioAPlan : BuildPlan :=
  { CurrentGeneration := 1, TargetGeneration := 0,
    Operations := exRetailPlan.Operations,
    Downloads :=
      [{ AddonID := "bigwigs", Source := exBigwigs.Source, Hash := "7b22736f75726365",
         StorePath := ["aggon", "store", "7b", "22736f75726365"] }],
    Installations := [("retail", exRetailPlan)] }

/-- A fresh system: the state after `Store.Initialize` and `GenerationManager.Initialize` on
an empty filesystem. -/
def exFreshFS : FS :=
  [(["aggon", "generations"], Node.dir), (["aggon", "metadata"], Node.dir),
   (["aggon", "store"], Node.dir), (["aggon"], Node.dir)]

/-- The plan of `exConfig` on the fresh system (Scenario B): one install, one download. -/
def exScenarioBPlan : BuildPlan :=
  { CurrentGeneration := 0, TargetGeneration := 0,
    Operations :=
      [{ Typ := "install", Installation := "retail", Addon := "bigwigs", From := none,
         To := "7b22736f75726365" }],
    Downloads :=
      [{ AddonID := "bigwigs", Source := exBigwigs.Source, Hash := "7b22736f75726365",
         StorePath := ["aggon", "store", "7b", "22736f75726365"] }],
    Installations :=
      [("retail", { Path := ["wow", "retail"],
                    Operations :=
                      [{ Typ := "install", Installation := "retail", Addon := "bigwigs",
                         From := none, To := "7b22736f75726365" }],
                    Symlinks := [("bigwigs", ["aggon", "store", "7b", "22736f75726365"])] })] }

/-- A state whose current pointer names generation 1 while no generation exists, and in which
`wow` is a regular file, so that no link below it can be made. -/
def exDanglingFS : FS :=
  [(["aggon"], Node.dir), (["aggon", "generations"], Node.dir),
   (["aggon", "generations", "current"], Node.symlink "1-0001-01-01-000000"),
   (["wow"], Node.blob [])]

/-- A configuration in which two enabled installations, `retail` and `ptr`, both want
`bigwigs`. -/
def exTwoConfig : DeclarativeConfig :=
  { exConfig with
    Installations :=
      [("retail", { Typ := "retail", Path := ["wow", "retail"], Enabled := true,
                    Addons := ["bigwigs"] }),
       ("ptr", { Typ := "retail", Path := ["wow", "ptr"], Enabled := true,
                 Addons := ["bigwigs"] })] }

/-- Reconciler of `exTwoConfig`. -/
def exTwoReconciler : Reconciler := NewReconciler exTwoConfig exStore exGM

/-- A fresh system in which `wow/retail/details` is a directory that holds a file, so the
activation link for `details` cannot replace it. -/
def exBlockedFS : FS :=
  [(["wow", "retail", "details", "notes.txt"], Node.blob []),
   (["wow", "retail", "details"], Node.dir), (["wow", "retail"], Node.dir),
   (["wow"], Node.dir)] ++ exFreshFS

/-- A plan that links `bigwigs`, `details` and `weakauras` into `retail` and `bigwigs` into
`ptr`. -/
def exThreePlan : BuildPlan :=
  { CurrentGeneration := 0, TargetGeneration := 0, Operations := [], Downloads := [],
    Installations :=
      [("retail", { Path := ["wow", "retail"], Operations := [],
                    Symlinks := [("bigwigs", ["aggon", "store", "7b", "22736f75726365"]),
                                 ("details", ["aggon", "store", "7b", "22736f75726365"]),
                                 ("weakauras", ["aggon", "store", "7b", "22736f75726365"])] }),
       ("ptr", { Path := ["wow", "ptr"], Operations := [],
                 Symlinks := [("bigwigs", ["aggon", "store", "7b", "22736f75726365"])] })] }

/-- Where a symbolic link found at `linkPath` with the relative target `target` leads: the
target is resolved against the directory that holds the link. -/
def resolveLink (linkPath : FPath) (target : String) : FPath :=
  joinName (filepathDir linkPath) target

/-- The record of a generation `id` made at the time `exNow` from `exConfig`. -/
def exGenAt (id : Int) : Generation :=
  { ID := id, Timestamp := exNow, Config := exConfig, StateHash := "7b22736368656d61",
    Description := "generation", Installations := [] }

/-- Saves the records of the listed generation ids, one after the other. -/
def exSaveAll (fs : FS) : List Int → FS
  | [] => fs
  | id :: rest => exSaveAll (exGM.save fs (exGenAt id)).1 rest

/-- Scenario C on disk: the records of generations 1 to 5 as `save` writes them, each in the
directory named by its id and time stamp, and the pointer `current` at generation 4. -/
def exFiveFS : FS :=
  [(["aggon", "generations", "current"], Node.symlink "4-2026-11-01-100000"),
   (["aggon", "generations", "5-2026-11-01-100000", "generation.json"],
      Node.generationFile (exGenAt 5)),
   (["aggon", "generations", "5-2026-11-01-100000"], Node.dir),
   (["aggon", "generations", "4-2026-11-01-100000", "generation.json"],
      Node.generationFile (exGenAt 4)),
   (["aggon", "generations", "4-2026-11-01-100000"], Node.dir),
   (["aggon", "generations", "3-2026-11-01-100000", "generation.json"],
      Node.generationFile (exGenAt 3)),
   (["aggon", "generations", "3-2026-11-01-100000"], Node.dir),
   (["aggon", "generations", "2-2026-11-01-100000", "generation.json"],
      Node.generationFile (exGenAt 2)),
   (["aggon", "generations", "2-2026-11-01-100000"], Node.dir),
   (["aggon", "generations", "1-2026-11-01-100000", "generation.json"],
      Node.generationFile (exGenAt 1)),
   (["aggon", "generations", "1-2026-11-01-100000"], Node.dir)] ++ exFreshFS

/-- A configuration in which `retail` wants `weakauras`, described like `bigwigs` but from
another source. -/
def exWeakConfig : DeclarativeConfig :=
  { exConfig with
    Installations :=
      [("retail", { Typ := "retail", Path := ["wow", "retail"], Enabled := true,
                    Addons := ["weakauras"] })],
    Addons :=
      [("weakauras", { exBigwigs with
          Source := { Typ := "github", URL := "https://github.com/WeakAuras/WeakAuras2",
                      Ref := "5.0.0" } })] }

/-- Reconciler of `exWeakConfig`. -/
def exWeakReconciler : Reconciler := NewReconciler exWeakConfig exStore exGM

/-- A generations directory with clutter: the readable generation 1 and the pointer of
`exCurrentFS`, a directory without a numeric prefix, a directory `7-old` without a record, and
a directory `3-0001-01-01-000000` whose record file is not a generation record. -/
def exClutterFS : FS :=
  [(["aggon", "generations", "notes"], Node.dir),
   (["aggon", "generations", "7-old"], Node.dir),
   (["aggon", "generations", "3-0001-01-01-000000"], Node.dir),
   (["aggon", "generations", "3-0001-01-01-000000", "generation.json"], Node.blob [1])] ++
  exCurrentFS

/-- A proper path component: not empty, not `.` or `..`, and without a slash. -/
def isProperName (c : String) : Bool :=
  decide (c ≠ "") && decide (c ≠ ".") && decide (c ≠ "..") && !c.data.contains '/'

/-- A cleaned path: leading `..` components, then proper components only (the form
`filepath.Clean` gives a relative path). -/
def isCleanPath : FPath → Bool
  | [] => true
  | c :: rest => if c = ".." then isCleanPath rest else (c :: rest).all isProperName

/-- A fresh system in which a regular file already sits at `wow/retail/bigwigs`. -/
def exOccupiedFS : FS :=
  [(["wow", "retail", "bigwigs"], Node.blob [7]), (["wow", "retail"], Node.dir),
   (["wow"], Node.dir)] ++ exFreshFS

/-- The order in which the `range` statements visit the keys of their maps: `sched site keys`
is the order the statement `site` uses for a map with the keys `keys`. -/
abbrev Schedule := String → List String → List String

/-- A schedule visits every key exactly once. -/
def Schedule.fair (sched : Schedule) : Prop := ∀ site keys, (sched site keys).Perm keys

/-- Entries visited by `for k, v := range m` at the statement `site` under a schedule. -/
def GoMap.rangeBy {V : Type} (sched : Schedule) (site : String) (m : GoMap V) :
    List (String × V) :=
  (sched site ((GoMap.range m).map Prod.fst)).filterMap fun k => (m.get? k).map fun v => (k, v)

/-- The call `os.Readlink(p)` as a step on the filesystem. -/
def sysReadlink (fs : FS) (p : FPath) : FS × ReadlinkResult := (fs, osReadlink fs p)

/-- The calls `os.Open(p)`, decoding and `Close` as a step on the filesystem. -/
def sysOpen (fs : FS) (p : FPath) : FS × Option Node := (fs, osOpen fs p)

/-- The call `os.Stat(p)` as a step on the filesystem. -/
def sysStat (fs : FS) (p : FPath) : FS × Bool := (fs, osStat fs p)

/-- Run of `Get`: retrieves a specific generation. -/
def GenerationManager.GetRun (gm : GenerationManager) (fs : FS) (id : Int) :
    FS × Except Err Generation :=
  match sysOpen fs (gm.getGenerationPath id) with
  | (fs1, none) => (fs1, Except.error "failed to open generation file")
  | (fs1, some (Node.generationFile g)) => (fs1, Except.ok g)
  | (fs1, some _) => (fs1, Except.error "failed to decode generation")

/-- Run of `GetCurrent`: returns the current active generation. -/
def GenerationManager.GetCurrentRun (gm : GenerationManager) (fs : FS) :
    FS × Except Err Generation :=
  match sysReadlink fs gm.currentPath with
  | (fs1, ReadlinkResult.notExist) => (fs1, Except.error "no current generation set")
  | (fs1, ReadlinkResult.failed) => (fs1, Except.error "failed to read current symlink")
  | (fs1, ReadlinkResult.target target) =>
    match atoi (splitDashHead (filepathBase target)) with
    | none => (fs1, Except.error "invalid generation ID in symlink")
    | some id => gm.GetRun fs1 id

/-- Run of `Exists`: checks if content with the given hash exists in the store. -/
def Store.ExistsRun (s : Store) (fs : FS) (hash : String) : Option (FS × Bool) :=
  match s.getStorePath hash with
  | none => none
  | some storePath => some (sysStat fs storePath)

/-- Run of `planInstallation`: creates a plan for a single installation. -/
def Reconciler.planInstallationRun (r : Reconciler) (sched : Schedule) (fs : FS)
    (installID : String) (config : InstallationConfig) :
    Option (FS × Except Err InstallPlan) :=
  match r.GenerationManager.GetCurrentRun fs with
  | (fs1, cur) =>
    let currentState : GoMap InstalledAddon :=
      match cur with
      | Except.ok current =>
        match current.Installations.get? installID with
        | some installState => installState.Addons
        | none => []
      | Except.error _ => []
    match r.planAddons installID config currentState config.Addons
        { Path := config.Path, Operations := [], Symlinks := [] } with
    | none => none
    | some (Except.error e) => some (fs1, Except.error e)
    | some (Except.ok plan) =>
      some (fs1, Except.ok { plan with
        Operations := plan.Operations ++
          planRemovals installID config currentState
            (GoMap.rangeBy sched ("planInstallation " ++ installID) currentState) })

/-- Run of the first loop of `Plan`: every enabled installation, in the order given. -/
def Reconciler.planInstallationsRun (r : Reconciler) (sched : Schedule) :
    FS → List (String × InstallationConfig) → BuildPlan → Option (FS × Except Err BuildPlan)
  | fs, [], plan => some (fs, Except.ok plan)
  | fs, (installID, installConfig) :: rest, plan =>
    if !installConfig.Enabled then r.planInstallationsRun sched fs rest plan
    else
      match r.planInstallationRun sched fs installID installConfig with
      | none => none
      | some (fs1, Except.error e) =>
        some (fs1, Except.error ("failed to plan installation " ++ installID ++ ": " ++ e))
      | some (fs1, Except.ok installPlan) =>
        r.planInstallationsRun sched fs1 rest
          { plan with
            Installations := plan.Installations.set installID installPlan,
            Operations := plan.Operations ++ installPlan.Operations }

/-- Run of the inner loop of the download collection. -/
def Reconciler.collectDownloadsRun (r : Reconciler) :
    FS → List Operation → List DownloadOperation → Option (FS × List DownloadOperation)
  | fs, [], downloads => some (fs, downloads)
  | fs, op :: rest, downloads =>
    if op.Typ = "install" ∨ op.Typ = "update" then
      match r.Config.Addons.get? op.Addon with
      | none => r.collectDownloadsRun fs rest downloads
      | some addonConfig =>
        match calculateAddonHash addonConfig with
        | none => none
        | some hash =>
          match r.Store.ExistsRun fs hash with
          | none => none
          | some (fs1, true) => r.collectDownloadsRun fs1 rest downloads
          | some (fs1, false) =>
            match r.Store.getStorePath hash with
            | none => none
            | some storePath =>
              r.collectDownloadsRun fs1 rest
                (downloads ++ [{ AddonID := op.Addon, Source := addonConfig.Source, Hash := hash,
                                 StorePath := storePath }])
    else r.collectDownloadsRun fs rest downloads

/-- Run of the second loop of `Plan`: the downloads of every installation plan, in the order
given. -/
def Reconciler.planDownloadsRun (r : Reconciler) :
    FS → List (String × InstallPlan) → List DownloadOperation →
    Option (FS × List DownloadOperation)
  | fs, [], downloads => some (fs, downloads)
  | fs, (_, installPlan) :: rest, downloads =>
    match r.collectDownloadsRun fs installPlan.Operations downloads with
    | none => none
    | some (fs1, downloads1) => r.planDownloadsRun fs1 rest downloads1

/-- Run of `Plan`: the filesystem it leaves and the plan or error it returns; `none` is a
panic. -/
def Reconciler.PlanRun (r : Reconciler) (sched : Schedule) (fs : FS) :
    Option (FS × Except Err BuildPlan) :=
  match r.GenerationManager.GetCurrentRun fs with
  | (fs0, cur) =>
    let plan : BuildPlan :=
      { CurrentGeneration :=
          (match cur with
           | Except.ok current => current.ID
           | Except.error _ => 0),
        TargetGeneration := 0, Operations := [], Downloads := [], Installations := [] }
    match r.planInstallationsRun sched fs0
        (GoMap.rangeBy sched "Plan installations" r.Config.Installations) plan with
    | none => none
    | some (fs1, Except.error e) => some (fs1, Except.error e)
    | some (fs1, Except.ok plan1) =>
      match r.planDownloadsRun fs1 (GoMap.rangeBy sched "Plan downloads" plan1.Installations)
          plan1.Downloads with
      | none => none
      | some (fs2, downloads) => some (fs2, Except.ok { plan1 with Downloads := downloads })

/-- Two installation plans that differ at most in the order of their operations. -/
def InstallPlan.sameAs (a b : InstallPlan) : Prop :=
  a.Path = b.Path ∧ a.Operations.Perm b.Operations ∧ ∀ k, a.Symlinks.get? k = b.Symlinks.get? k

/-- Two build plans with the same set of operations, downloads and per-installation plans:
they differ at most in the order of the operations and of the downloads. -/
def BuildPlan.sameAs (a b : BuildPlan) : Prop :=
  a.CurrentGeneration = b.CurrentGeneration ∧ a.TargetGeneration = b.TargetGeneration ∧
  a.Operations.Perm b.Operations ∧ a.Downloads.Perm b.Downloads ∧
  ∀ i, (a.Installations.get? i = none ∧ b.Installations.get? i = none) ∨
    ∃ x y, a.Installations.get? i = some x ∧ b.Installations.get? i = some y ∧ x.sameAs y

/-- Two outcomes of `Plan` that agree: both are errors, or both are plans with the same
content. -/
def samePlanOutcome : Except Err BuildPlan → Except Err BuildPlan → Prop
  | Except.ok a, Except.ok b => a.sameAs b
  | Except.error _, Except.error _ => True
  | _, _ => False

/-- The installations named by the operations of the plan a run returned, in the order of the
plan (empty for an error or a panic). -/
def planRunOrder : Option (FS × Except Err BuildPlan) → List String
  | some (_, Except.ok plan) => plan.Operations.map fun op => op.Installation
  | _ => []

/-- A schedule that visits the keys in reverse order. -/
def exReverse : Schedule := fun _ keys => keys.reverse

/-- The schedule of `GoMap.range`: the keys in list order. -/
def exInOrder : Schedule := fun _ keys => keys

/-- The download the loop of `Plan` lists for one operation, if any: one for an `install` or
`update` of a configured addon whose content is not in the store. -/
def Reconciler.downloadFor (r : Reconciler) (fs : FS) (op : Operation) :
    Option DownloadOperation :=
  if op.Typ = "install" ∨ op.Typ = "update" then
    match r.Config.Addons.get? op.Addon with
    | none => none
    | some addonConfig =>
      if osStat fs (r.Store.StorePath ++ ["7b", "22736f75726365"]) then none
      else some { AddonID := op.Addon, Source := addonConfig.Source, Hash := "7b22736f75726365",
                  StorePath := r.Store.StorePath ++ ["7b", "22736f75726365"] }
  else none

/-! ## Lemmas -/

/-! ### Filesystem -/

theorem lookup_filter_keep (f : FPath × Node → Bool) (q : FPath) (fs : FS)
    (h : ∀ n, f (q, n) = true) : List.lookup q (fs.filter f) = List.lookup q fs := by
  induction fs with
  | nil => rfl
  | cons e rest ih =>
    obtain ⟨a, n⟩ := e
    by_cases hqa : q = a
    · subst hqa
      rw [List.filter_cons_of_pos (h n)]
      simp only [List.lookup_cons, beq_self_eq_true]
    · have hb : (q == a) = false := beq_eq_false_iff_ne.mpr hqa
      cases hf : f (a, n)
      · rw [List.filter_cons_of_neg (by simp [hf]), ih]
        simp only [List.lookup_cons, hb]
      · rw [List.filter_cons_of_pos hf]
        simp only [List.lookup_cons, hb, ih]

theorem lookup_write (fs : FS) (p q : FPath) (n : Node) (hp : p ≠ []) :
    FS.lookup (FS.write fs p n) q = if q = p then some n else FS.lookup fs q := by
  unfold FS.lookup FS.write
  by_cases hq : q = p
  · subst hq
    simp only [hp, if_false, List.lookup_cons, beq_self_eq_true, if_true]
  · have hb : (q == p) = false := beq_eq_false_iff_ne.mpr hq
    rw [List.lookup_cons, hb, lookup_filter_keep _ q fs (by intro n; simpa using hq)]
    simp only [hq, if_false]

theorem lookup_write_ne (fs : FS) (p q : FPath) (n : Node) (hq : q ≠ p) :
    FS.lookup (FS.write fs p n) q = FS.lookup fs q := by
  unfold FS.lookup FS.write
  have hb : (q == p) = false := beq_eq_false_iff_ne.mpr hq
  rw [List.lookup_cons, hb, lookup_filter_keep _ q fs (by intro n; simpa using hq)]

theorem mkdirAllRev_lookup (fs : FS) (rp : List String) :
    ∀ fs1, osMkdirAllRev fs rp = Except.ok fs1 →
      ∀ q, FS.lookup fs1 q = FS.lookup fs q ∨
        (FS.lookup fs q = none ∧ FS.lookup fs1 q = some Node.dir ∧ q <+: rp.reverse) := by
  induction rp with
  | nil =>
    intro fs1 h q
    simp only [osMkdirAllRev, Except.ok.injEq] at h
    subst h
    exact Or.inl rfl
  | cons name parentRev ih =>
    intro fs1 h q
    have hne : (name :: parentRev).reverse ≠ [] := by simp
    unfold osMkdirAllRev at h
    split at h
    · simp only [Except.ok.injEq] at h
      subst h
      exact Or.inl rfl
    · exact Except.noConfusion h
    · rename_i hnone
      split at h
      · exact Except.noConfusion h
      · rename_i fs2 hrec
        simp only [Except.ok.injEq] at h
        subst h
        rw [lookup_write _ _ _ _ hne]
        by_cases hq : q = (name :: parentRev).reverse
        · subst hq
          exact Or.inr ⟨hnone, by simp, List.prefix_refl _⟩
        · simp only [hq, if_false]
          rcases ih fs2 hrec q with h1 | ⟨h1, h2, h3⟩
          · exact Or.inl h1
          · refine Or.inr ⟨h1, h2, ?_⟩
            rw [List.reverse_cons]
            exact h3.trans (List.prefix_append _ _)

theorem mkdirAll_lookup (fs fs1 : FS) (p : FPath) (h : osMkdirAll fs p = Except.ok fs1) (q : FPath) :
    FS.lookup fs1 q = FS.lookup fs q ∨
      (FS.lookup fs q = none ∧ FS.lookup fs1 q = some Node.dir ∧ q <+: p) := by
  have := mkdirAllRev_lookup fs p.reverse fs1 h q
  simpa using this

theorem mkdirAll_of_dir (fs : FS) (p : FPath) (h : FS.lookup fs p = some Node.dir) :
    osMkdirAll fs p = Except.ok fs := by
  unfold osMkdirAll
  cases hr : p.reverse with
  | nil => rfl
  | cons name parentRev =>
    have hp : (name :: parentRev).reverse = p := by rw [← hr, List.reverse_reverse]
    unfold osMkdirAllRev
    rw [hp, h]

theorem mkdirAll_child (fs : FS) (p : FPath) (x : String) (h : FS.lookup fs p = some Node.dir)
    (hx : FS.lookup fs (p ++ [x]) = none) :
    osMkdirAll fs (p ++ [x]) = Except.ok (FS.write fs (p ++ [x]) Node.dir) := by
  have hp := mkdirAll_of_dir fs p h
  unfold osMkdirAll at hp ⊢
  rw [List.reverse_append, List.reverse_singleton, List.singleton_append]
  unfold osMkdirAllRev
  have hrev : (x :: p.reverse).reverse = p ++ [x] := by simp
  rw [hrev, hx]
  simp only [hp]

theorem mkdirAll_frame (fs fs1 : FS) (p q : FPath) (h : osMkdirAll fs p = Except.ok fs1)
    (hq : ¬ q <+: p) : FS.lookup fs1 q = FS.lookup fs q := by
  rcases mkdirAll_lookup fs fs1 p h q with h1 | ⟨_, _, h3⟩
  · exact h1
  · exact absurd h3 hq

theorem mkdirAllRev_allDirs (fs : FS) (h : ∀ q n, FS.lookup fs q = some n → n = Node.dir)
    (rp : List String) :
    ∃ fs1, osMkdirAllRev fs rp = Except.ok fs1 ∧
      (∀ q n, FS.lookup fs1 q = some n → n = Node.dir) ∧
      FS.lookup fs1 rp.reverse = some Node.dir ∧
      ∀ q, FS.lookup fs q = some Node.dir → FS.lookup fs1 q = some Node.dir := by
  induction rp with
  | nil => exact ⟨fs, rfl, h, by simp [FS.lookup], fun _ hq => hq⟩
  | cons name parentRev ih =>
    have hne : (name :: parentRev).reverse ≠ [] := by simp
    unfold osMkdirAllRev
    cases hl : FS.lookup fs (name :: parentRev).reverse with
    | some n =>
      have hn := h _ n hl
      subst hn
      exact ⟨fs, rfl, h, hl, fun _ hq => hq⟩
    | none =>
      obtain ⟨fsA, hA, hdirs, _, hmono⟩ := ih
      simp only [hA]
      refine ⟨_, rfl, ?_, ?_, ?_⟩
      · intro q n hq
        rw [lookup_write _ _ _ _ hne] at hq
        by_cases hqp : q = (name :: parentRev).reverse
        · rw [if_pos hqp] at hq
          exact (Option.some.inj hq).symm
        · rw [if_neg hqp] at hq
          exact hdirs q n hq
      · rw [lookup_write _ _ _ _ hne, if_pos rfl]
      · intro q hq
        have hqp : q ≠ (name :: parentRev).reverse := by
          intro hh
          rw [hh, hl] at hq
          exact Option.noConfusion hq
        rw [lookup_write_ne _ _ _ _ hqp]
        exact hmono q hq

theorem mkdirAll_allDirs (fs : FS) (h : ∀ q n, FS.lookup fs q = some n → n = Node.dir)
    (p : FPath) :
    ∃ fs1, osMkdirAll fs p = Except.ok fs1 ∧
      (∀ q n, FS.lookup fs1 q = some n → n = Node.dir) ∧
      FS.lookup fs1 p = some Node.dir ∧
      (∀ q, FS.lookup fs q = some Node.dir → FS.lookup fs1 q = some Node.dir) ∧
      ∀ q n, FS.lookup fs1 q = some n → FS.lookup fs q = some n ∨ q <+: p := by
  obtain ⟨fs1, h1, h2, h3, h4⟩ := mkdirAllRev_allDirs fs h p.reverse
  refine ⟨fs1, h1, h2, by simpa using h3, h4, ?_⟩
  intro q n hq
  rcases mkdirAll_lookup fs fs1 p h1 q with hsame | ⟨_, _, hpre⟩
  · exact Or.inl (hsame ▸ hq)
  · exact Or.inr hpre

theorem osCreate_frame (fs fs1 : FS) (n : Node) (p q : FPath)
    (h : osCreate fs p n = Except.ok fs1) (hq : q ≠ p) : FS.lookup fs1 q = FS.lookup fs q := by
  unfold osCreate at h
  split at h
  · exact Except.noConfusion h
  · simp only [Except.ok.injEq] at h
    rw [← h, lookup_write_ne _ _ _ _ hq]

/-! ### Names and paths -/

theorem splitSep_no_slash (cs cur : List Char) (h : '/' ∉ cs) :
    splitSep cs cur = [⟨cur.reverse ++ cs⟩] := by
  induction cs generalizing cur with
  | nil => simp [splitSep]
  | cons c rest ih =>
    have hc : c ≠ '/' := fun hc => h (by simp [hc])
    have hr : '/' ∉ rest := fun hr => h (by simp [hr])
    simp only [splitSep, hc, if_false]
    rw [ih (c :: cur) hr]
    simp

theorem joinName_clean (p : FPath) (s : String) (h1 : '/' ∉ s.data)
    (h2 : ∃ c ∈ s.data, c ≠ '.') : joinName p s = p ++ [s] := by
  obtain ⟨c, hc, hdot⟩ := h2
  have e1 : s ≠ "" := by
    intro h
    rw [h] at hc
    simp at hc
  have e2 : s ≠ "." := by
    intro h
    rw [h] at hc
    simp at hc
    exact hdot hc
  have e3 : s ≠ ".." := by
    intro h
    rw [h] at hc
    simp at hc
    exact hdot hc
  unfold joinName
  rw [splitSep_no_slash s.data [] h1]
  simp [pushComponent, e1, e2, e3]

theorem hexDigit_ok (n : Nat) (h : n < 16) : hexDigit n ≠ '/' ∧ hexDigit n ≠ '.' := by
  interval_cases n <;> decide

theorem hexChars_ok (b : Bytes) : ∀ c ∈ hexChars b, c ≠ '/' ∧ c ≠ '.' := by
  induction b with
  | nil => intro c hc; simp [hexChars] at hc
  | cons x rest ih =>
    intro c hc
    simp only [hexChars, List.mem_cons] at hc
    rcases hc with hc | hc | hc
    · rw [hc]
      exact hexDigit_ok _ (Nat.mod_lt _ (by decide))
    · rw [hc]
      exact hexDigit_ok _ (Nat.mod_lt _ (by decide))
    · exact ih c hc

theorem hexChars_length (b : Bytes) : (hexChars b).length = 2 * b.length := by
  induction b with
  | nil => rfl
  | cons x rest ih => simp only [hexChars, List.length_cons, ih]; omega

theorem hexChars_append (a b : Bytes) : hexChars (a ++ b) = hexChars a ++ hexChars b := by
  induction a with
  | nil => rfl
  | cons x rest ih => simp [hexChars, ih]

theorem digitChar_ok (k : Nat) (h : k < 10) :
    48 ≤ (Nat.digitChar k).toNat ∧ (Nat.digitChar k).toNat ≤ 57 := by
  interval_cases k <;> decide

theorem toDigitsCore_ok (f : Nat) : ∀ (n : Nat) (acc : List Char),
    ∀ c ∈ Nat.toDigitsCore 10 f n acc, c ∈ acc ∨ (48 ≤ c.toNat ∧ c.toNat ≤ 57) := by
  induction f with
  | zero => intro n acc c hc; simp [Nat.toDigitsCore] at hc; exact Or.inl hc
  | succ f ih =>
    intro n acc c hc
    simp only [Nat.toDigitsCore] at hc
    split at hc
    · simp only [List.mem_cons] at hc
      rcases hc with hc | hc
      · rw [hc]; exact Or.inr (digitChar_ok _ (Nat.mod_lt _ (by decide)))
      · exact Or.inl hc
    · rcases ih _ _ c hc with h | h
      · simp only [List.mem_cons] at h
        rcases h with h | h
        · rw [h]; exact Or.inr (digitChar_ok _ (Nat.mod_lt _ (by decide)))
        · exact Or.inl h
      · exact Or.inr h

theorem toDigits_ok (n : Nat) : ∀ c ∈ Nat.toDigits 10 n, 48 ≤ c.toNat ∧ c.toNat ≤ 57 := by
  intro c hc
  rcases toDigitsCore_ok _ _ _ c hc with h | h
  · simp at h
  · exact h

theorem toDigitsCore_ne_nil (f n : Nat) (acc : List Char) (h : acc ≠ []) :
    Nat.toDigitsCore 10 f n acc ≠ [] := by
  induction f generalizing n acc with
  | zero => simpa [Nat.toDigitsCore] using h
  | succ f ih =>
    simp only [Nat.toDigitsCore]
    split
    · simp
    · exact ih _ _ (by simp)

theorem toDigits_ne_nil (n : Nat) : Nat.toDigits 10 n ≠ [] := by
  unfold Nat.toDigits
  simp only [Nat.toDigitsCore]
  split
  · simp
  · exact toDigitsCore_ne_nil _ _ _ (by simp)

theorem dash_split (d1 : List Char) : ∀ (d2 r1 r2 : List Char),
    (∀ c ∈ d1, c ≠ '-') → (∀ c ∈ d2, c ≠ '-') →
    d1 ++ '-' :: r1 = d2 ++ '-' :: r2 → d1 = d2 ∧ r1 = r2 := by
  induction d1 with
  | nil =>
    intro d2 r1 r2 _ h2 h
    cases d2 with
    | nil => simpa using h
    | cons c d2 =>
      simp only [List.nil_append, List.cons_append, List.cons.injEq] at h
      exact absurd h.1.symm (h2 c (by simp))
  | cons c d1 ih =>
    intro d2 r1 r2 h1 h2 h
    cases d2 with
    | nil =>
      simp only [List.nil_append, List.cons_append, List.cons.injEq] at h
      exact absurd h.1 (h1 c (by simp))
    | cons c2 d2 =>
      simp only [List.cons_append, List.cons.injEq] at h
      obtain ⟨hc, hrest⟩ := h
      have := ih d2 r1 r2 (fun x hx => h1 x (by simp [hx])) (fun x hx => h2 x (by simp [hx])) hrest
      exact ⟨by rw [hc, this.1], this.2⟩

theorem toDigits_no_dash (n : Nat) : ∀ c ∈ Nat.toDigits 10 n, c ≠ '-' := by
  intro c hc h
  have := toDigits_ok n c hc
  rw [h] at this
  revert this
  decide

theorem dirName_data (id : Int) (t : Time) :
    (getGenerationDirName id t).data = (itoa id).data ++ '-' :: (formatStamp t).data := by
  simp [getGenerationDirName, String.data_append]

theorem dirName_stamp_inj (a b : Int) (t1 t2 : Time)
    (h : getGenerationDirName a t1 = getGenerationDirName b t2) :
    formatStamp t1 = formatStamp t2 := by
  have hd : (getGenerationDirName a t1).data = (getGenerationDirName b t2).data := by rw [h]
  rw [dirName_data, dirName_data] at hd
  have key : (formatStamp t1).data = (formatStamp t2).data := by
    cases a with
    | ofNat n =>
      cases b with
      | ofNat m =>
        exact (dash_split _ _ _ _ (toDigits_no_dash n) (toDigits_no_dash m) hd).2
      | negSucc m =>
        simp only [itoa, List.cons_append] at hd
        cases hn : Nat.toDigits 10 n with
        | nil => exact absurd hn (toDigits_ne_nil n)
        | cons c rest =>
          rw [hn] at hd
          simp only [List.cons_append, List.cons.injEq] at hd
          exact absurd hd.1 (toDigits_no_dash n c (by rw [hn]; simp))
    | negSucc n =>
      cases b with
      | ofNat m =>
        simp only [itoa, List.cons_append] at hd
        cases hm : Nat.toDigits 10 m with
        | nil => exact absurd hm (toDigits_ne_nil m)
        | cons c rest =>
          rw [hm] at hd
          simp only [List.cons_append, List.cons.injEq] at hd
          exact absurd hd.1.symm (toDigits_no_dash m c (by rw [hm]; simp))
      | negSucc m =>
        simp only [itoa, List.cons_append, List.cons.injEq, true_and] at hd
        exact (dash_split _ _ _ _ (toDigits_no_dash (n + 1)) (toDigits_no_dash (m + 1)) hd).2
  exact String.ext key

theorem itoa_no_slash (id : Int) : ∀ c ∈ (itoa id).data, c ≠ '/' := by
  intro c hc h
  subst h
  cases id with
  | ofNat n =>
    have := toDigits_ok n _ hc
    revert this
    decide
  | negSucc n =>
    simp only [itoa, List.mem_cons] at hc
    rcases hc with hc | hc
    · revert hc; decide
    · have := toDigits_ok _ _ hc
      revert this
      decide

theorem padDigits_no_slash (w n : Nat) : ∀ c ∈ padDigits w n, c ≠ '/' := by
  intro c hc h
  subst h
  simp only [padDigits, List.mem_append, List.mem_replicate] at hc
  rcases hc with hc | hc
  · exact absurd hc.2 (by decide)
  · have := toDigits_ok _ _ hc
    revert this
    decide

theorem formatStamp_no_slash (t : Time) : ∀ c ∈ (formatStamp t).data, c ≠ '/' := by
  intro c hc
  simp only [formatStamp, List.mem_append, List.mem_cons] at hc
  rcases hc with ((((hc | hc | hc) | hc | hc) | hc | hc) | hc) | hc
  · exact padDigits_no_slash _ _ c hc
  · rw [hc]; decide
  · exact padDigits_no_slash _ _ c hc
  · rw [hc]; decide
  · exact padDigits_no_slash _ _ c hc
  · rw [hc]; decide
  · exact padDigits_no_slash _ _ c hc
  · exact padDigits_no_slash _ _ c hc
  · exact padDigits_no_slash _ _ c hc

theorem joinName_dirName (p : FPath) (id : Int) (t : Time) :
    joinName p (getGenerationDirName id t) = p ++ [getGenerationDirName id t] := by
  apply joinName_clean
  · rw [dirName_data]
    intro h
    simp only [List.mem_append, List.mem_cons] at h
    rcases h with h | h | h
    · exact itoa_no_slash id _ h rfl
    · revert h; decide
    · exact formatStamp_no_slash t _ h rfl
  · refine ⟨'-', ?_, by decide⟩
    rw [dirName_data]
    simp

theorem dirName_ne_current (id : Int) (t : Time) : getGenerationDirName id t ≠ "current" := by
  intro h
  have hd : '-' ∈ (getGenerationDirName id t).data := by rw [dirName_data]; simp
  rw [h] at hd
  revert hd
  decide

/-! ### Go maps -/

theorem rangeFrom_filter {V : Type} (m : GoMap V) (a : String) : ∀ seen : List String,
    (GoMap.rangeFrom seen m).filter (fun e => e.1 = a) =
      if a ∈ seen then [] else
        match List.lookup a m with
        | some v => [(a, v)]
        | none => [] := by
  induction m with
  | nil => intro seen; simp [GoMap.rangeFrom]
  | cons e rest ih =>
    intro seen
    obtain ⟨k, v⟩ := e
    unfold GoMap.rangeFrom
    by_cases hk : k ∈ seen
    · simp only [hk, if_true]
      rw [ih seen]
      by_cases ha : a ∈ seen
      · simp [ha]
      · have hak : a ≠ k := fun h => ha (h ▸ hk)
        have hb : (a == k) = false := beq_eq_false_iff_ne.mpr hak
        simp only [ha, if_false, List.lookup_cons, hb]
    · simp only [hk, if_false]
      by_cases hka : k = a
      · subst hka
        rw [List.filter_cons_of_pos (by simp), ih (k :: seen)]
        simp [hk, List.lookup_cons]
      · have hak : a ≠ k := fun h => hka h.symm
        have hb : (a == k) = false := beq_eq_false_iff_ne.mpr hak
        rw [List.filter_cons_of_neg (by simpa using hka), ih (k :: seen)]
        simp only [List.mem_cons, hak, false_or, List.lookup_cons, hb]

theorem range_filter {V : Type} (m : GoMap V) (a : String) :
    (GoMap.range m).filter (fun e => e.1 = a) =
      match m.get? a with
      | some v => [(a, v)]
      | none => [] := by
  unfold GoMap.range GoMap.get?
  rw [rangeFrom_filter m a []]
  simp

theorem rangeFrom_keys {V : Type} (m : GoMap V) : ∀ seen : List String,
    ((GoMap.rangeFrom seen m).map Prod.fst).Nodup ∧
      ∀ k ∈ (GoMap.rangeFrom seen m).map Prod.fst, k ∉ seen := by
  induction m with
  | nil => intro seen; simp [GoMap.rangeFrom]
  | cons e rest ih =>
    intro seen
    obtain ⟨k, v⟩ := e
    unfold GoMap.rangeFrom
    by_cases hk : k ∈ seen
    · simp only [hk, if_true]
      exact ih seen
    · simp only [hk, if_false, List.map_cons, List.nodup_cons, List.mem_cons]
      obtain ⟨h1, h2⟩ := ih (k :: seen)
      refine ⟨⟨fun hmem => h2 k hmem (by simp), h1⟩, ?_⟩
      intro x hx
      rcases hx with hx | hx
      · rw [hx]; exact hk
      · exact fun hs => h2 x hx (by simp [hs])

theorem range_keys_nodup {V : Type} (m : GoMap V) : ((GoMap.range m).map Prod.fst).Nodup :=
  (rangeFrom_keys m []).1

theorem range_mem_iff {V : Type} (m : GoMap V) (k : String) (v : V) :
    (k, v) ∈ GoMap.range m ↔ m.get? k = some v := by
  have hf := range_filter m k
  constructor
  · intro h
    have hmem : (k, v) ∈ (GoMap.range m).filter (fun e => e.1 = k) := by
      rw [List.mem_filter]
      exact ⟨h, by simp⟩
    rw [hf] at hmem
    cases hg : m.get? k with
    | none => rw [hg] at hmem; simp at hmem
    | some w =>
      rw [hg] at hmem
      simp only [List.mem_singleton, Prod.mk.injEq, true_and] at hmem
      rw [hmem]
  · intro h
    rw [h] at hf
    have : (k, v) ∈ (GoMap.range m).filter (fun e => e.1 = k) := by rw [hf]; simp
    exact (List.mem_filter.mp this).1

theorem goMap_get_set_self {V : Type} (m : GoMap V) (k : String) (v : V) :
    (m.set k v).get? k = some v := by
  unfold GoMap.set GoMap.get?
  rw [List.lookup_append]
  have h1 : List.lookup k (m.filter fun e => e.1 ≠ k) = none := by
    rw [List.lookup_eq_none_iff]
    intro p hp
    have := (List.mem_filter.mp hp).2
    simp only [ne_eq, decide_not, Bool.not_eq_true', decide_eq_false_iff_not] at this
    simpa using fun h => this h.symm
  rw [h1]
  simp

theorem goMap_lookup_filter_ne {V : Type} (m : GoMap V) (k i : String) (h : i ≠ k) :
    List.lookup i (m.filter fun e => e.1 ≠ k) = List.lookup i m := by
  induction m with
  | nil => rfl
  | cons e rest ih =>
    obtain ⟨a, v⟩ := e
    by_cases hak : a = k
    · subst hak
      have hb : (i == a) = false := beq_eq_false_iff_ne.mpr h
      rw [List.filter_cons_of_neg (by simp), ih, List.lookup_cons, hb]
    · rw [List.filter_cons_of_pos (by simpa using hak)]
      simp only [List.lookup_cons, ih]

theorem goMap_get_set_ne {V : Type} (m : GoMap V) (k i : String) (v : V) (h : i ≠ k) :
    (m.set k v).get? i = m.get? i := by
  unfold GoMap.set GoMap.get?
  have hb : (i == k) = false := beq_eq_false_iff_ne.mpr h
  rw [List.lookup_append, goMap_lookup_filter_ne m k i h]
  simp [List.lookup_cons, hb]

/-! ### Content store -/

theorem hash_length (H : Hasher) (b : Bytes) : (hexEncode (H.sum b)).data.length = 64 := by
  simp [hexEncode, hexChars_length, H.size]

theorem getStorePath_hex (s : Store) (h : String) (hlen : 2 < h.data.length)
    (hok : ∀ c ∈ h.data, c ≠ '/' ∧ c ≠ '.') :
    s.getStorePath h = some (s.StorePath ++ [⟨h.data.take 2⟩, ⟨h.data.drop 2⟩]) := by
  have h1 : sliceTo h 2 = some ⟨h.data.take 2⟩ := by
    unfold sliceTo
    rw [if_pos (by omega)]
  have h2 : sliceFrom h 2 = some ⟨h.data.drop 2⟩ := by
    unfold sliceFrom
    rw [if_pos (by omega)]
  unfold Store.getStorePath
  rw [h1, h2]
  simp only
  have c1 : ∀ c ∈ h.data.take 2, c ≠ '/' ∧ c ≠ '.' := fun c hc => hok c (List.mem_of_mem_take hc)
  have c2 : ∀ c ∈ h.data.drop 2, c ≠ '/' ∧ c ≠ '.' := fun c hc => hok c (List.mem_of_mem_drop hc)
  have n1 : h.data.take 2 ≠ [] := by
    intro hn
    have h3 := congrArg List.length hn
    rw [List.length_take, List.length_nil] at h3
    omega
  have n2 : h.data.drop 2 ≠ [] := by
    intro hn
    have h3 := congrArg List.length hn
    rw [List.length_drop, List.length_nil] at h3
    omega
  obtain ⟨x, hx⟩ := List.exists_mem_of_ne_nil _ n1
  obtain ⟨y, hy⟩ := List.exists_mem_of_ne_nil _ n2
  rw [joinName_clean _ ⟨h.data.take 2⟩ (fun hm => (c1 _ hm).1 rfl) ⟨x, hx, (c1 x hx).2⟩,
    joinName_clean _ ⟨h.data.drop 2⟩ (fun hm => (c2 _ hm).1 rfl) ⟨y, hy, (c2 y hy).2⟩]
  simp

theorem getStorePath_hash (H : Hasher) (s : Store) (b : Bytes) :
    s.getStorePath (hexEncode (H.sum b)) =
      some (s.StorePath ++ [⟨(hexEncode (H.sum b)).data.take 2⟩,
        ⟨(hexEncode (H.sum b)).data.drop 2⟩]) := by
  apply getStorePath_hex
  · rw [hash_length]; decide
  · exact hexChars_ok _

theorem getStorePath_hash_inj (H : Hasher) (s : Store) (b c : Bytes)
    (h : s.getStorePath (hexEncode (H.sum b)) = s.getStorePath (hexEncode (H.sum c))) :
    hexEncode (H.sum b) = hexEncode (H.sum c) := by
  rw [getStorePath_hash, getStorePath_hash] at h
  simp only [Option.some.injEq, List.append_cancel_left_eq, List.cons.injEq, and_true] at h
  have h1 := congrArg String.data h.1
  have h2 := congrArg String.data h.2
  simp only at h1 h2
  apply String.ext
  rw [← List.take_append_drop 2 (hexEncode (H.sum b)).data,
    ← List.take_append_drop 2 (hexEncode (H.sum c)).data, h1, h2]

theorem getMetadataPath_hash (H : Hasher) (s : Store) (b : Bytes) :
    s.getMetadataPath (hexEncode (H.sum b)) =
      s.MetadataPath ++ [hexEncode (H.sum b) ++ ".json"] := by
  unfold Store.getMetadataPath
  apply joinName_clean
  · rw [String.data_append]
    intro hm
    rw [List.mem_append] at hm
    rcases hm with hm | hm
    · exact (hexChars_ok _ _ hm).1 rfl
    · revert hm; decide
  · exact ⟨'j', by rw [String.data_append]; simp, by decide⟩

theorem store_not_under_metadata (base rest q : FPath)
    (hq : (base ++ ["store"]) <+: q) : ¬ q <+: base ++ "metadata" :: rest := by
  intro h
  have h2 := hq.trans h
  rw [List.prefix_append_right_inj] at h2
  rw [List.cons_prefix_cons] at h2
  exact absurd h2.1 (by decide)

theorem saveMetadata_frame (H : Hasher) (base : FPath) (fs : FS) (b : Bytes) (m : StoreEntry)
    (q : FPath) (hq : (NewStore base).StorePath <+: q) :
    FS.lookup ((NewStore base).saveMetadata fs (hexEncode (H.sum b)) m).1 q = FS.lookup fs q := by
  have hq2 : (base ++ ["store"]) <+: q := hq
  unfold Store.saveMetadata
  simp only [getMetadataPath_hash]
  have hmp : (NewStore base).MetadataPath = base ++ ["metadata"] := rfl
  have hne : q ≠ base ++ ["metadata"] ++ [hexEncode (H.sum b) ++ ".json"] := by
    intro h
    apply store_not_under_metadata base [hexEncode (H.sum b) ++ ".json"] q hq2
    rw [h]
    simp
  have hdir : filepathDir ((NewStore base).MetadataPath ++ [hexEncode (H.sum b) ++ ".json"]) =
      base ++ ["metadata"] := by
    simp [filepathDir, hmp]
  rw [hdir, hmp]
  split
  · rfl
  · rename_i fs1 hmk
    have hfr : FS.lookup fs1 q = FS.lookup fs q := by
      rcases mkdirAll_lookup fs fs1 _ hmk q with h | ⟨_, _, h⟩
      · exact h
      · exact absurd h (store_not_under_metadata base [] q hq2)
    split
    · exact hfr
    · rename_i fs2 hcr
      unfold osCreate at hcr
      split at hcr
      · exact Except.noConfusion hcr
      · simp only [Except.ok.injEq] at hcr
        subst hcr
        simp only
        rw [lookup_write _ _ _ _ (by simp), if_neg hne, hfr]

theorem storeInv_transfer (H : Hasher) (s : Store) (fs fs1 : FS)
    (hfr : ∀ q, s.StorePath <+: q → FS.lookup fs1 q = FS.lookup fs q)
    (hinv : StoreInv H s fs) : StoreInv H s fs1 := by
  refine ⟨?_, ?_⟩
  · rw [hfr _ (List.prefix_refl _)]
    exact hinv.1
  · intro p n hp hl
    rw [hfr p hp] at hl
    exact hinv.2 p n hp hl

theorem noCollision_transfer (H : Hasher) (s : Store) (fs fs1 : FS) (B : Bytes)
    (hfr : ∀ q, s.StorePath <+: q → FS.lookup fs1 q = FS.lookup fs q)
    (hcol : NoCollision H s fs B) : NoCollision H s fs1 B := by
  intro p c hp hl hh
  rw [hfr p hp] at hl
  exact hcol p c hp hl hh

theorem storePath_length (H : Hasher) (s : Store) (c : Bytes) (p : FPath)
    (h : s.getStorePath (hexEncode (H.sum c)) = some p) : p.length = s.StorePath.length + 2 := by
  rw [getStorePath_hash] at h
  simp only [Option.some.injEq] at h
  rw [← h]
  simp

theorem add_tail (H : Hasher) (base : FPath) (fs : FS) (B : Bytes) (m : StoreEntry) :
    ∃ fs1 e,
      (match (NewStore base).saveMetadata fs (hexEncode (H.sum B)) m with
        | (fs1, e) => some (fs1, hexEncode (H.sum B), e)) = some (fs1, hexEncode (H.sum B), e) ∧
      ∀ q, (NewStore base).StorePath <+: q → FS.lookup fs1 q = FS.lookup fs q := by
  rcases hsm : (NewStore base).saveMetadata fs (hexEncode (H.sum B)) m with ⟨fs1, e⟩
  refine ⟨fs1, e, rfl, ?_⟩
  intro q hq
  have := saveMetadata_frame H base fs B m q hq
  rw [hsm] at this
  exact this

theorem add_spec (H : Hasher) (base : FPath) (fs : FS) (B : Bytes) (m : StoreEntry) (t : Time)
    (temp : TempFile)
    (hinv : StoreInv H (NewStore base) fs) (hcol : NoCollision H (NewStore base) fs B) :
    ∃ fs1 h e sp, (NewStore base).Add H fs B m t temp = some (fs1, h, e) ∧
      (NewStore base).getStorePath (hexEncode (H.sum B)) = some sp ∧
      StoreInv H (NewStore base) fs1 ∧ NoCollision H (NewStore base) fs1 B ∧
      ((h = hexEncode (H.sum B) ∧ FS.lookup fs1 sp = some (Node.blob B)) ∨
        (h = "" ∧ e ≠ none ∧ FS.lookup fs1 sp = FS.lookup fs sp)) := by
  have hsp := getStorePath_hash H (NewStore base) B
  generalize hsub : (⟨(hexEncode (H.sum B)).data.take 2⟩ : String) = sub at hsp
  generalize hfile : (⟨(hexEncode (H.sum B)).data.drop 2⟩ : String) = file at hsp
  have hlen := storePath_length H (NewStore base) B _ hsp
  have hSPne : (NewStore base).StorePath ≠ [] := by simp [NewStore]
  unfold Store.Add
  by_cases hcf : temp.createFails = true
  · rw [if_pos hcf]
    exact ⟨fs, "", _, _, rfl, hsp, hinv, hcol, Or.inr ⟨rfl, by simp, rfl⟩⟩
  rw [if_neg hcf]
  by_cases hwf : temp.writeFails = true
  · rw [if_pos hwf]
    exact ⟨fs, "", _, _, rfl, hsp, hinv, hcol, Or.inr ⟨rfl, by simp, rfl⟩⟩
  rw [if_neg hwf]
  simp only [hsp]
  by_cases hst : osStat fs ((NewStore base).StorePath ++ [sub, file]) = true
  · -- the content is already there
    rw [if_pos hst]
    obtain ⟨fs1, e, heq, hfr⟩ := add_tail H base fs B { m with AccessedAt := t }
    refine ⟨fs1, _, e, _, heq, rfl, storeInv_transfer H _ fs fs1 hfr hinv,
      noCollision_transfer H _ fs fs1 B hfr hcol, Or.inl ⟨rfl, ?_⟩⟩
    rw [hfr _ (List.prefix_append _ _)]
    unfold osStat at hst
    split at hst
    · exact absurd hst (by decide)
    · rename_i n _ hn
      rcases hinv.2 _ n (List.prefix_append _ _) hn with ⟨_, hl⟩ | ⟨c, hc, hpath⟩
      · simp at hl
      · have hh := getStorePath_hash_inj H (NewStore base) c B (by rw [hpath, hsp])
        have hcB := hcol _ c (List.prefix_append _ _) (by rw [hn, hc]) hh
        rw [hn, hc, hcB]
    · exact absurd hst (by decide)
  · -- the content is published
    rw [if_neg hst]
    have hnone : FS.lookup fs ((NewStore base).StorePath ++ [sub, file]) = none := by
      cases hl : FS.lookup fs ((NewStore base).StorePath ++ [sub, file]) with
      | none => rfl
      | some n =>
        exfalso
        apply hst
        unfold osStat
        rw [hl]
        rcases hinv.2 _ n (List.prefix_append _ _) hl with ⟨hd, _⟩ | ⟨c, hc, _⟩
        · rw [hd]
        · rw [hc]
    have hdir : filepathDir ((NewStore base).StorePath ++ [sub, file]) =
        (NewStore base).StorePath ++ [sub] := by
      simp [filepathDir, List.dropLast_append_cons, List.dropLast]
    have hne1 : (NewStore base).StorePath ++ [sub, file] ≠ (NewStore base).StorePath ++ [sub] := by
      intro h
      have := congrArg List.length h
      simp at this
    have hmk : ∃ fsA, osMkdirAll fs ((NewStore base).StorePath ++ [sub]) = Except.ok fsA ∧
        ∀ q, FS.lookup fsA q =
          if q = (NewStore base).StorePath ++ [sub] then some Node.dir else FS.lookup fs q := by
      cases hl : FS.lookup fs ((NewStore base).StorePath ++ [sub]) with
      | none =>
        refine ⟨_, mkdirAll_child fs _ sub hinv.1 hl, ?_⟩
        intro q
        rw [lookup_write _ _ _ _ (by simp)]
      | some n =>
        rcases hinv.2 _ n (List.prefix_append _ _) hl with ⟨hd, _⟩ | ⟨c, _, hpath⟩
        · rw [hd] at hl
          refine ⟨fs, mkdirAll_of_dir fs _ hl, ?_⟩
          intro q
          by_cases hq : q = (NewStore base).StorePath ++ [sub]
          · rw [if_pos hq, hq, hl]
          · rw [if_neg hq]
        · have := storePath_length H (NewStore base) c _ hpath
          simp at this
    obtain ⟨fsA, hmkA, hA⟩ := hmk
    rw [hdir, hmkA]
    simp only
    have hAsp : FS.lookup fsA ((NewStore base).StorePath ++ [sub, file]) = none := by
      rw [hA, if_neg hne1, hnone]
    have hinvA : StoreInv H (NewStore base) fsA := by
      refine ⟨?_, ?_⟩
      · rw [hA, if_neg (by intro h; have := congrArg List.length h; simp at this)]
        exact hinv.1
      · intro p n hp hl
        rw [hA] at hl
        by_cases h2 : p = (NewStore base).StorePath ++ [sub]
        · rw [if_pos h2] at hl
          simp only [Option.some.injEq] at hl
          exact Or.inl ⟨hl.symm, by rw [h2]; simp⟩
        · rw [if_neg h2] at hl
          exact hinv.2 p n hp hl
    have hcolA : NoCollision H (NewStore base) fsA B := by
      intro p c hp hl hh
      rw [hA] at hl
      by_cases h2 : p = (NewStore base).StorePath ++ [sub]
      · rw [if_pos h2] at hl
        simp at hl
      · rw [if_neg h2] at hl
        exact hcol p c hp hl hh
    have hfailA : FS.lookup fsA ((NewStore base).StorePath ++ [sub, file]) =
        FS.lookup fs ((NewStore base).StorePath ++ [sub, file]) := by
      rw [hAsp, hnone]
    by_cases hclose : temp.closeFails = true
    · rw [if_pos hclose]
      exact ⟨fsA, "", _, _, rfl, rfl, hinvA, hcolA, Or.inr ⟨rfl, by simp, hfailA⟩⟩
    rw [if_neg hclose]
    by_cases hcross : temp.crossDevice = true
    · have hren : osRename fsA temp.crossDevice ((NewStore base).StorePath ++ [sub, file])
          (Node.blob B) = Except.error "invalid cross-device link" := by
        unfold osRename
        rw [if_pos hcross]
      rw [hren]
      exact ⟨fsA, "", _, _, rfl, rfl, hinvA, hcolA, Or.inr ⟨rfl, by simp, hfailA⟩⟩
    have hren : osRename fsA temp.crossDevice ((NewStore base).StorePath ++ [sub, file])
        (Node.blob B) =
        Except.ok (FS.write fsA ((NewStore base).StorePath ++ [sub, file]) (Node.blob B)) := by
      unfold osRename
      rw [if_neg hcross, hAsp]
    rw [hren]
    simp only
    generalize hfsB : FS.write fsA ((NewStore base).StorePath ++ [sub, file]) (Node.blob B) = fsB
    have hB : ∀ q, FS.lookup fsB q =
        if q = (NewStore base).StorePath ++ [sub, file] then some (Node.blob B)
        else if q = (NewStore base).StorePath ++ [sub] then some Node.dir else FS.lookup fs q := by
      intro q
      rw [← hfsB, lookup_write _ _ _ _ (by simp), hA]
    have hinvB : StoreInv H (NewStore base) fsB := by
      refine ⟨?_, ?_⟩
      · rw [hB, if_neg (by intro h; have := congrArg List.length h; simp at this),
          if_neg (by intro h; have := congrArg List.length h; simp at this)]
        exact hinv.1
      · intro p n hp hl
        rw [hB] at hl
        by_cases h1 : p = (NewStore base).StorePath ++ [sub, file]
        · rw [if_pos h1] at hl
          simp only [Option.some.injEq] at hl
          exact Or.inr ⟨B, hl.symm, by rw [hsp, h1]⟩
        · rw [if_neg h1] at hl
          by_cases h2 : p = (NewStore base).StorePath ++ [sub]
          · rw [if_pos h2] at hl
            simp only [Option.some.injEq] at hl
            exact Or.inl ⟨hl.symm, by rw [h2]; simp⟩
          · rw [if_neg h2] at hl
            exact hinv.2 p n hp hl
    have hcolB : NoCollision H (NewStore base) fsB B := by
      intro p c hp hl hh
      rw [hB] at hl
      by_cases h1 : p = (NewStore base).StorePath ++ [sub, file]
      · rw [if_pos h1] at hl
        simp only [Option.some.injEq, Node.blob.injEq] at hl
        exact hl.symm
      · rw [if_neg h1] at hl
        by_cases h2 : p = (NewStore base).StorePath ++ [sub]
        · rw [if_pos h2] at hl
          simp at hl
        · rw [if_neg h2] at hl
          exact hcol p c hp hl hh
    obtain ⟨fs1, e, heq, hfr⟩ := add_tail H base fsB B
      { m with Hash := hexEncode (H.sum B), StorePath := (NewStore base).StorePath ++ [sub, file],
               CreatedAt := t, AccessedAt := t }
    refine ⟨fs1, _, e, _, heq, rfl, storeInv_transfer H _ fsB fs1 hfr hinvB,
      noCollision_transfer H _ fsB fs1 B hfr hcolB, Or.inl ⟨rfl, ?_⟩⟩
    rw [hfr _ (List.prefix_append _ _), hB, if_pos rfl]

/-- The state `Initialize` produces on an empty filesystem is a store state. -/
theorem storeInv_initialize (H : Hasher) (base : FPath) :
    ∃ fs1, (NewStore base).Initialize [] = (fs1, none) ∧ StoreInv H (NewStore base) fs1 := by
  have h0 : ∀ q n, FS.lookup ([] : FS) q = some n → n = Node.dir := by
    intro q n hq
    unfold FS.lookup at hq
    split at hq
    · exact (Option.some.inj hq).symm
    · simp at hq
  have hroot : ∀ q n, FS.lookup ([] : FS) q = some n → q = [] := by
    intro q n hq
    unfold FS.lookup at hq
    split at hq
    · assumption
    · simp at hq
  obtain ⟨fsA, hA, dA, _, _, pA⟩ := mkdirAll_allDirs [] h0 base
  obtain ⟨fsB, hB, dB, lB, _, pB⟩ := mkdirAll_allDirs fsA dA (base ++ ["store"])
  obtain ⟨fsC, hC, dC, _, mC, pC⟩ := mkdirAll_allDirs fsB dB (base ++ ["metadata"])
  refine ⟨fsC, ?_, ?_, ?_⟩
  · simp [Store.Initialize, mkdirEach, NewStore, hA, hB, hC]
  · exact mC _ lB
  · intro p n hp hl
    refine Or.inl ⟨dC p n hl, ?_⟩
    have hlen : p.length ≤ base.length + 1 := by
      rcases pC p n hl with h1 | h1
      · rcases pB p n h1 with h2 | h2
        · rcases pA p n h2 with h3 | h3
          · rw [hroot p n h3]
            simp
          · have := h3.length_le
            omega
        · have := h2.length_le
          simpa using this
      · have := h1.length_le
        simpa using this
    simp only [NewStore, List.length_append, List.length_singleton]
    omega

/-- The method `Add` keeps store states: with the digest free of collisions for the added bytes,
the state after `Add` is again a store state, and the digest stays free of collisions for
these bytes. -/
theorem add_preserves_storeInv (H : Hasher) (base : FPath) (fs : FS) (B : Bytes)
    (m : StoreEntry) (t : Time) (temp : TempFile) (hinv : StoreInv H (NewStore base) fs)
    (hcol : NoCollision H (NewStore base) fs B) :
    ∃ fs1 h e, (NewStore base).Add H fs B m t temp = some (fs1, h, e) ∧
      StoreInv H (NewStore base) fs1 ∧ NoCollision H (NewStore base) fs1 B := by
  obtain ⟨fs1, h, e, _, hadd, _, hinv1, hcol1, _⟩ := add_spec H base fs B m t temp hinv hcol
  exact ⟨fs1, h, e, hadd, hinv1, hcol1⟩

/-- The fresh system of the examples is what the two `Initialize` calls produce. -/
theorem exFreshFS_initialized :
    exGM.Initialize (exStore.Initialize []).1 = Except.ok exFreshFS := by
  decide

theorem save_frame (gm : GenerationManager) (fs : FS) (g : Generation) (q : FPath)
    (h1 : ¬ q <+: gm.generationsDir ++ [getGenerationDirName g.ID g.Timestamp])
    (h2 : q ≠ gm.generationsDir ++ [getGenerationDirName g.ID g.Timestamp, "generation.json"]) :
    FS.lookup (gm.save fs g).1 q = FS.lookup fs q := by
  unfold GenerationManager.save
  simp only [joinName_dirName]
  split
  · rfl
  · rename_i fsA hA
    have fA := mkdirAll_frame fs fsA _ q hA h1
    split
    · exact fA
    · rename_i fsB hB
      simp only
      rw [osCreate_frame fsA fsB _ _ q hB (by simpa using h2), fA]

theorem save_witness (gm : GenerationManager) (fs : FS) (now : Time) (g : Generation)
    (x : FS × Option Err) (h : gm.save fs g = x) (ht : g.Timestamp = now) :
    ∃ g1 : Generation, g1.Timestamp = now ∧ x.1 = (gm.save fs g1).1 :=
  ⟨g, ht, by rw [h]⟩

theorem create_cases (gm : GenerationManager) (fs fs1 : FS) (config : DeclarativeConfig)
    (description : String) (now : Time) (res : Except Err Generation)
    (h : gm.Create fs config description now = some (fs1, res)) :
    fs1 = fs ∨ ∃ g : Generation, g.Timestamp = now ∧ fs1 = (gm.save fs g).1 := by
  unfold GenerationManager.Create at h
  split at h
  · simp only [Option.some.injEq, Prod.mk.injEq] at h
    exact Or.inl h.1.symm
  · simp only at h
    split at h
    · exact Option.noConfusion h
    · right
      split at h
      · rename_i fsA err hs
        simp only [Option.some.injEq, Prod.mk.injEq] at h
        obtain ⟨g1, ht, hx⟩ := save_witness gm fs now _ _ hs rfl
        exact ⟨g1, ht, by rw [← h.1]; exact hx⟩
      · rename_i fsA hs
        simp only [Option.some.injEq, Prod.mk.injEq] at h
        obtain ⟨g1, ht, hx⟩ := save_witness gm fs now _ _ hs rfl
        exact ⟨g1, ht, by rw [← h.1]; exact hx⟩

theorem create_frame (gm : GenerationManager) (fs fs1 : FS) (config : DeclarativeConfig)
    (description : String) (now : Time) (res : Except Err Generation)
    (hclock : formatStamp now ≠ formatStamp Time.zero)
    (h : gm.Create fs config description now = some (fs1, res)) :
    FS.lookup fs1 gm.currentPath = FS.lookup fs gm.currentPath ∧
    ∀ c, FS.lookup fs1 (gm.getGenerationPath c) = FS.lookup fs (gm.getGenerationPath c) := by
  rcases create_cases gm fs fs1 config description now res h with h1 | ⟨g, hts, hfs1⟩
  · rw [h1]
    exact ⟨rfl, fun _ => rfl⟩
  · rw [hfs1]
    refine ⟨?_, ?_⟩
    · apply save_frame
      · intro hp
        unfold GenerationManager.currentPath at hp
        rw [List.prefix_append_right_inj, List.cons_prefix_cons] at hp
        exact dirName_ne_current _ _ hp.1.symm
      · intro hp
        have := congrArg List.length hp
        simp [GenerationManager.currentPath] at this
    · intro c
      unfold GenerationManager.getGenerationPath
      rw [joinName_dirName]
      apply save_frame
      · intro hp
        have := hp.length_le
        simp at this
      · intro hp
        simp only [List.append_assoc, List.singleton_append, List.append_cancel_left_eq,
          List.cons.injEq, and_true] at hp
        apply hclock
        rw [← hts]
        exact (dirName_stamp_inj _ _ _ _ hp).symm

/-- Supporting fact for C3, C4 and C5: with a clock that does not read the zero time, `Create`
never changes what `Get` returns, for any id; the record it writes is out of the reach of
`Get`. -/
theorem create_invisible_to_get (gm : GenerationManager) (fs fs1 : FS)
    (config : DeclarativeConfig) (description : String) (now : Time)
    (res : Except Err Generation) (hclock : formatStamp now ≠ formatStamp Time.zero)
    (h : gm.Create fs config description now = some (fs1, res)) (id : Int) :
    gm.Get fs1 id = gm.Get fs id := by
  unfold GenerationManager.Get osOpen
  rw [(create_frame gm fs fs1 config description now res hclock h).2 id]

/-- C3 (code bug): on the fresh system `Create` returns generation 1 and writes its record
under the directory `1-2026-11-01-100000`; the following `Get 1` opens
`1-0001-01-01-000000/generation.json` and fails, although a generation directory resolves to
the id. -/
theorem create_then_get_fails :
    (exGM.Create exFreshFS exConfig "first" exNow).map
        (fun r => (r.2.map (fun g => g.ID),
          (FS.lookup r.1 ["aggon", "generations", "1-2026-11-01-100000", "generation.json"]).isSome,
          exGM.getGenerationPath 1, exGM.Get r.1 1)) =
      some (Except.ok 1, true,
        ["aggon", "generations", "1-0001-01-01-000000", "generation.json"],
        Except.error "failed to open generation file") := by
  decide!

/-- C4 (code bug): on the fresh system two sequential `Create` calls both return ID 1:
`List` cannot load the first generation, so the second call sees no generation. -/
theorem create_twice_repeats_id :
    (exGM.Create exFreshFS exConfig "first" exNow).bind
        (fun r1 => (exGM.Create r1.1 exConfig "second" exLater).map
          fun r2 => (r1.2.map (fun g => g.ID), exGM.List r1.1, r2.2.map (fun g => g.ID))) =
      some (Except.ok 1, Except.ok [], Except.ok 1) := by
  decide!

/-- C5 (code bug): on the fresh system, after `Create` has returned generation 1,
`SetCurrent 1` returns an error and `GetCurrent` still finds no current generation. -/
theorem setCurrent_after_create_fails :
    (exGM.Create exFreshFS exConfig "first" exNow).map
        (fun r => (r.2.map (fun g => g.ID), (exGM.SetCurrent r.1 1).2,
          exGM.GetCurrent (exGM.SetCurrent r.1 1).1)) =
      some (Except.ok 1, some "generation not found: failed to open generation file",
        Except.error "no current generation set") := by
  decide!

/-- C6 (delete of the current generation is rejected): whenever `GetCurrent` succeeds with a
generation, `Delete` of its ID returns an error and leaves the whole filesystem, hence every
generation record and the current pointer, as it was. -/
theorem delete_current_rejected (gm : GenerationManager) (fs : FS) (g : Generation)
    (h : gm.GetCurrent fs = Except.ok g) :
    gm.Delete fs g.ID = (fs, some "cannot delete current generation") := by
  unfold GenerationManager.Delete
  rw [h]
  simp

/-- Witness for C6: in `exCurrentFS` generation 1 is current and `Delete 1` is rejected. -/
theorem delete_current_rejected_witness :
    exGM.GetCurrent exCurrentFS = Except.ok exGenOne ∧
    exGM.Delete exCurrentFS 1 = (exCurrentFS, some "cannot delete current generation") :=
  ⟨by decide, delete_current_rejected exGM exCurrentFS exGenOne (by decide)⟩

/-! ### Reconciler: planning -/

theorem marshalAddonConfig_head (c : AddonConfig) :
    ∃ rest, (marshalAddonConfig c).data =
      [Char.ofNat 123, Char.ofNat 34, 's', 'o', 'u', 'r', 'c', 'e'] ++ rest := by
  have hs : (jsonString "source").data =
      [Char.ofNat 34, 's', 'o', 'u', 'r', 'c', 'e', Char.ofNat 34] := by decide
  apply Exists.intro
  simp only [marshalAddonConfig, jsonObject, List.map, jsonItems, String.data_append, hs,
    List.cons_append, List.append_assoc, List.nil_append]
  rfl

theorem calculateAddonHash_eq (c : AddonConfig) :
    calculateAddonHash c = some "7b22736f75726365" := by
  obtain ⟨rest, hrest⟩ := marshalAddonConfig_head c
  have hb : utf8Bytes (marshalAddonConfig c) =
      [123, 34, 115, 111, 117, 114, 99, 101] ++ rest.map Char.toNat := by
    unfold utf8Bytes
    rw [hrest, List.map_append]
    rfl
  unfold calculateAddonHash hexEncode sliceTo
  rw [hb, hexChars_append]
  have h16 : hexChars [123, 34, 115, 111, 117, 114, 99, 101] = "7b22736f75726365".data := by
    decide
  rw [h16]
  simp

theorem getStorePath_addonHash (s : Store) :
    s.getStorePath "7b22736f75726365" = some (s.StorePath ++ ["7b", "22736f75726365"]) := by
  have h1 : sliceTo "7b22736f75726365" 2 = some "7b" := by decide
  have h2 : sliceFrom "7b22736f75726365" 2 = some "22736f75726365" := by decide
  unfold Store.getStorePath
  rw [h1, h2]
  simp only
  rw [joinName_clean _ "7b" (by decide) ⟨'7', by decide, by decide⟩,
    joinName_clean _ "22736f75726365" (by decide) ⟨'2', by decide, by decide⟩]
  simp

theorem compatibleLoop_iff (t : String) (l : List String) :
    compatibleLoop t l = true ↔ t ∈ l := by
  induction l with
  | nil => simp [compatibleLoop]
  | cons x rest ih =>
    unfold compatibleLoop
    by_cases hx : x = t
    · simp [hx]
    · have hx2 : ¬ t = x := fun h => hx h.symm
      simp [hx, hx2, ih]

theorem wantedLoop_iff (a : String) (l : List String) : wantedLoop a l = true ↔ a ∈ l := by
  induction l with
  | nil => simp [wantedLoop]
  | cons x rest ih =>
    unfold wantedLoop
    by_cases hx : x = a
    · simp [hx]
    · have hx2 : ¬ a = x := fun h => hx h.symm
      simp [hx, hx2, ih]

theorem planAddons_ops (r : Reconciler) (installID : String) (config : InstallationConfig)
    (cs : GoMap InstalledAddon) (l : List String) :
    ∀ plan0 plan, r.planAddons installID config cs l plan0 = some (Except.ok plan) →
      plan.Operations = plan0.Operations ++
        l.map (fun a => classifyAddon installID a "7b22736f75726365" cs) := by
  induction l with
  | nil =>
    intro plan0 plan h
    simp only [Reconciler.planAddons, Option.some.injEq, Except.ok.injEq] at h
    subst h
    simp
  | cons a rest ih =>
    intro plan0 plan h
    unfold Reconciler.planAddons at h
    split at h
    · simp at h
    · rename_i ac hac
      split at h
      · simp at h
      · rw [calculateAddonHash_eq] at h
        simp only [getStorePath_addonHash] at h
        rw [ih _ _ h]
        simp

theorem planAddons_ok (r : Reconciler) (installID : String) (config : InstallationConfig)
    (cs : GoMap InstalledAddon) (l : List String)
    (hok : ∀ a ∈ l, ∃ ac, r.Config.Addons.get? a = some ac ∧ config.Typ ∈ ac.Compatible) :
    ∀ plan0, ∃ plan, r.planAddons installID config cs l plan0 = some (Except.ok plan) := by
  induction l with
  | nil => intro plan0; exact ⟨plan0, rfl⟩
  | cons a rest ih =>
    intro plan0
    obtain ⟨ac, hac, hcompat⟩ := hok a (by simp)
    have hc : isCompatible ac config.Typ = true := (compatibleLoop_iff _ _).mpr hcompat
    unfold Reconciler.planAddons
    rw [hac]
    simp only [hc, Bool.not_true, Bool.false_eq_true, if_false]
    rw [calculateAddonHash_eq]
    simp only [getStorePath_addonHash]
    exact ih (fun b hb => hok b (by simp [hb])) _

theorem currentState_get (r : Reconciler) (fs : FS) (installID a : String) :
    (r.currentState fs installID).get? a = recordedAddon r.GenerationManager fs installID a := by
  unfold Reconciler.currentState recordedAddon
  split
  · split <;> rfl
  · rfl

theorem classifyAddon_fields (installID a th : String) (cs : GoMap InstalledAddon) :
    (classifyAddon installID a th cs).Addon = a ∧
    (classifyAddon installID a th cs).Installation = installID ∧
    (classifyAddon installID a th cs).To = th ∧
    (classifyAddon installID a th cs).Typ ≠ "uninstall" := by
  unfold classifyAddon
  split
  · exact ⟨rfl, rfl, rfl, by simp⟩
  · split
    · exact ⟨rfl, rfl, rfl, by simp⟩
    · exact ⟨rfl, rfl, rfl, by simp⟩

theorem planRemovals_mem (installID : String) (config : InstallationConfig)
    (cs : GoMap InstalledAddon) (es : List (String × InstalledAddon)) :
    ∀ op ∈ planRemovals installID config cs es,
      op = { Typ := "uninstall", Installation := installID, Addon := op.Addon,
             From := some (((cs.get? op.Addon).map fun x => x.Hash).getD ""), To := "" } ∧
      op.Addon ∉ config.Addons ∧ op.Addon ∈ es.map Prod.fst := by
  induction es with
  | nil => intro op h; simp [planRemovals] at h
  | cons e rest ih =>
    obtain ⟨k, v⟩ := e
    intro op h
    unfold planRemovals at h
    split at h
    · rename_i hw
      simp only [List.mem_cons] at h
      rcases h with h | h
      · subst h
        refine ⟨rfl, ?_, by simp⟩
        intro hmem
        have := (wantedLoop_iff k config.Addons).mpr hmem
        simp [this] at hw
      · obtain ⟨h1, h2, h3⟩ := ih op h
        exact ⟨h1, h2, by simp [h3]⟩
    · obtain ⟨h1, h2, h3⟩ := ih op h
      exact ⟨h1, h2, by simp [h3]⟩

theorem planRemovals_filter (installID : String) (config : InstallationConfig)
    (cs : GoMap InstalledAddon) (a : String) (es : List (String × InstalledAddon)) :
    (planRemovals installID config cs es).filter (fun op => op.Typ = "uninstall" ∧ op.Addon = a) =
      if a ∈ config.Addons then [] else
        (es.filter (fun e => e.1 = a)).map fun _ =>
          ({ Typ := "uninstall", Installation := installID, Addon := a,
             From := some (((cs.get? a).map fun x => x.Hash).getD ""), To := "" } : Operation) := by
  induction es with
  | nil => simp [planRemovals]
  | cons e rest ih =>
    obtain ⟨k, v⟩ := e
    unfold planRemovals
    by_cases hw : wantedLoop k config.Addons = true
    · have hk : k ∈ config.Addons := (wantedLoop_iff _ _).mp hw
      simp only [hw, Bool.not_true, Bool.false_eq_true, if_false]
      rw [ih]
      by_cases ha : a ∈ config.Addons
      · simp [ha]
      · have hka : k ≠ a := fun h => ha (h ▸ hk)
        simp [ha, hka]
    · have hk : k ∉ config.Addons := fun h => hw ((wantedLoop_iff _ _).mpr h)
      simp only [hw, Bool.not_false, if_true]
      by_cases hka : k = a
      · subst hka
        rw [List.filter_cons_of_pos (by simp), ih]
        simp [hk]
      · rw [List.filter_cons_of_neg (by simp [hka]), ih]
        simp [hka]

theorem planInstallation_ops (r : Reconciler) (fs : FS) (installID : String)
    (config : InstallationConfig) (plan : InstallPlan)
    (h : r.planInstallation fs installID config = some (Except.ok plan)) :
    plan.Operations =
      config.Addons.map (fun a =>
        classifyAddon installID a "7b22736f75726365" (r.currentState fs installID)) ++
      planRemovals installID config (r.currentState fs installID)
        (GoMap.range (r.currentState fs installID)) := by
  unfold Reconciler.planInstallation at h
  simp only at h
  split at h
  · simp at h
  · simp at h
  · rename_i plan1 hplan1
    simp only [Option.some.injEq, Except.ok.injEq] at h
    subst h
    simp only
    rw [planAddons_ops _ _ _ _ _ _ _ hplan1]
    simp

theorem classify_filter_length (installID a th : String) (cs : GoMap InstalledAddon)
    (l : List String) :
    ((l.map fun b => classifyAddon installID b th cs).filter fun op => op.Addon = a).length =
      l.count a := by
  induction l with
  | nil => rfl
  | cons b rest ih =>
    have hb := (classifyAddon_fields installID b th cs).1
    by_cases hba : b = a
    · subst hba
      rw [List.map_cons, List.filter_cons_of_pos (by simp [hb]), List.length_cons, ih]
      simp
    · rw [List.map_cons, List.filter_cons_of_neg (by simp [hb, hba]), ih]
      simp [List.count_cons, hba]

theorem planInstallation_uninstall_ops (r : Reconciler) (fs : FS) (installID : String)
    (config : InstallationConfig) (plan : InstallPlan)
    (h : r.planInstallation fs installID config = some (Except.ok plan)) (a : String) :
    plan.Operations.filter (fun op => op.Typ = "uninstall" ∧ op.Addon = a) =
      match recordedAddon r.GenerationManager fs installID a with
      | some cur =>
        if a ∈ config.Addons then []
        else [{ Typ := "uninstall", Installation := installID, Addon := a,
                From := some cur.Hash, To := "" }]
      | none => [] := by
  rw [planInstallation_ops r fs installID config plan h, List.filter_append]
  have hnil : (config.Addons.map fun b => classifyAddon installID b "7b22736f75726365"
      (r.currentState fs installID)).filter (fun op => op.Typ = "uninstall" ∧ op.Addon = a)
      = [] := by
    rw [List.filter_eq_nil_iff]
    intro op hop hp
    rw [List.mem_map] at hop
    obtain ⟨b, _, hb⟩ := hop
    have hf := classifyAddon_fields installID b "7b22736f75726365" (r.currentState fs installID)
    rw [hb] at hf
    simp only [decide_eq_true_eq] at hp
    exact hf.2.2.2 hp.1
  rw [hnil, List.nil_append, planRemovals_filter, range_filter, currentState_get]
  cases recordedAddon r.GenerationManager fs installID a with
  | none => simp
  | some cur => simp

theorem planInstallation_installation (r : Reconciler) (fs : FS) (installID : String)
    (config : InstallationConfig) (plan : InstallPlan)
    (h : r.planInstallation fs installID config = some (Except.ok plan)) :
    ∀ op ∈ plan.Operations, op.Installation = installID := by
  intro op hop
  rw [planInstallation_ops r fs installID config plan h, List.mem_append] at hop
  rcases hop with hop | hop
  · rw [List.mem_map] at hop
    obtain ⟨b, _, hb⟩ := hop
    rw [← hb]
    exact (classifyAddon_fields _ _ _ _).2.1
  · have := (planRemovals_mem _ _ _ _ op hop).1
    rw [this]

theorem installOps_installation (r : Reconciler) (fs : FS) (e : String × InstallationConfig) :
    ∀ op ∈ r.installOps fs e, op.Installation = e.1 := by
  intro op hop
  unfold Reconciler.installOps at hop
  split at hop
  · split at hop
    · rename_i ip hip
      exact planInstallation_installation r fs _ _ ip hip op hop
    · simp at hop
  · simp at hop

theorem planInstallations_spec (r : Reconciler) (fs : FS)
    (l : List (String × InstallationConfig)) :
    ∀ plan0 plan, r.planInstallations fs l plan0 = some (Except.ok plan) →
      plan.Operations = plan0.Operations ++ l.flatMap (r.installOps fs) ∧
      (∀ i, i ∉ l.map Prod.fst → plan.Installations.get? i = plan0.Installations.get? i) ∧
      ((l.map Prod.fst).Nodup → ∀ e ∈ l, e.2.Enabled = true →
        ∃ ip, r.planInstallation fs e.1 e.2 = some (Except.ok ip) ∧
          plan.Installations.get? e.1 = some ip) := by
  induction l with
  | nil =>
    intro plan0 plan h
    simp only [Reconciler.planInstallations, Option.some.injEq, Except.ok.injEq] at h
    subst h
    simp
  | cons e rest ih =>
    obtain ⟨k, c⟩ := e
    intro plan0 plan h
    unfold Reconciler.planInstallations at h
    by_cases hen : c.Enabled = true
    · simp only [hen, Bool.not_true, Bool.false_eq_true, if_false] at h
      split at h
      · exact Option.noConfusion h
      · simp at h
      · rename_i ip hip
        obtain ⟨h1, h2, h3⟩ := ih _ _ h
        have hops : r.installOps fs (k, c) = ip.Operations := by
          simp [Reconciler.installOps, hen, hip]
        refine ⟨?_, ?_, ?_⟩
        · rw [h1, List.flatMap_cons, hops]
          simp
        · intro i hi
          simp only [List.map_cons, List.mem_cons, not_or] at hi
          rw [h2 i hi.2]
          exact goMap_get_set_ne _ _ _ _ hi.1
        · intro hnd x hx _
          simp only [List.map_cons, List.nodup_cons] at hnd
          simp only [List.mem_cons] at hx
          rcases hx with hx | hx
          · subst hx
            refine ⟨ip, hip, ?_⟩
            rw [h2 k hnd.1]
            exact goMap_get_set_self _ _ _
          · exact h3 hnd.2 x hx (by assumption)
    · have hen2 : c.Enabled = false := by simpa using hen
      simp only [hen2, Bool.not_false, if_true] at h
      obtain ⟨h1, h2, h3⟩ := ih _ _ h
      have hops : r.installOps fs (k, c) = [] := by
        simp [Reconciler.installOps, hen2]
      refine ⟨?_, ?_, ?_⟩
      · rw [h1, List.flatMap_cons, hops]
        simp
      · intro i hi
        simp only [List.map_cons, List.mem_cons, not_or] at hi
        exact h2 i hi.2
      · intro hnd x hx hxen
        simp only [List.map_cons, List.nodup_cons] at hnd
        simp only [List.mem_cons] at hx
        rcases hx with hx | hx
        · subst hx
          rw [hen2] at hxen
          exact Bool.noConfusion hxen
        · exact h3 hnd.2 x hx hxen

theorem plan_spec (r : Reconciler) (fs : FS) (plan : BuildPlan)
    (h : r.Plan fs = some (Except.ok plan)) :
    plan.Operations = (GoMap.range r.Config.Installations).flatMap (r.installOps fs) ∧
    ∀ i cfg, r.Config.Installations.get? i = some cfg → cfg.Enabled = true →
      ∃ ip, r.planInstallation fs i cfg = some (Except.ok ip) ∧
        plan.Installations.get? i = some ip := by
  unfold Reconciler.Plan at h
  simp only at h
  split at h
  · exact Option.noConfusion h
  · simp at h
  · rename_i plan1 h1
    split at h
    · exact Option.noConfusion h
    · simp only [Option.some.injEq, Except.ok.injEq] at h
      obtain ⟨hops, _, hins⟩ := planInstallations_spec r fs _ _ _ h1
      rw [← h]
      refine ⟨by simpa using hops, ?_⟩
      intro i cfg hget hen
      exact hins (range_keys_nodup _) (i, cfg) ((range_mem_iff _ _ _).mpr hget) hen

theorem flatMap_filter_key (f : String × InstallationConfig → List Operation)
    (hf : ∀ e, ∀ op ∈ f e, op.Installation = e.1) (P : Operation → Bool) (i : String)
    (l : List (String × InstallationConfig)) :
    (l.flatMap f).filter (fun op => P op && decide (op.Installation = i)) =
      ((l.filter fun e => e.1 = i).flatMap f).filter
        (fun op => P op && decide (op.Installation = i)) := by
  induction l with
  | nil => rfl
  | cons e rest ih =>
    by_cases hei : e.1 = i
    · rw [List.filter_cons_of_pos (by simpa using hei), List.flatMap_cons, List.flatMap_cons,
        List.filter_append, List.filter_append, ih]
    · rw [List.filter_cons_of_neg (by simpa using hei), List.flatMap_cons, List.filter_append,
        ih]
      have hnil : (f e).filter (fun op => P op && decide (op.Installation = i)) = [] := by
        rw [List.filter_eq_nil_iff]
        intro op hop
        have := hf e op hop
        simp [this, hei]
      rw [hnil, List.nil_append]

theorem plan_filter_installation (r : Reconciler) (fs : FS) (plan : BuildPlan) (i : String)
    (cfg : InstallationConfig) (ip : InstallPlan) (P : Operation → Bool)
    (hplan : r.Plan fs = some (Except.ok plan))
    (hget : r.Config.Installations.get? i = some cfg) (hen : cfg.Enabled = true)
    (hip : r.planInstallation fs i cfg = some (Except.ok ip)) :
    plan.Operations.filter (fun op => P op && decide (op.Installation = i)) =
      ip.Operations.filter P := by
  rw [(plan_spec r fs plan hplan).1,
    flatMap_filter_key _ (installOps_installation r fs) P i, range_filter, hget]
  have hops : r.installOps fs (i, cfg) = ip.Operations := by
    simp [Reconciler.installOps, hen, hip]
  simp only [List.flatMap_cons, List.flatMap_nil, List.append_nil, hops]
  apply List.filter_congr
  intro op hop
  simp [planInstallation_installation r fs i cfg ip hip op hop]

/-- C9 (plan classification): for an installation all of whose desired addons are present in
the configuration and compatible, `planInstallation` succeeds and its plan holds, for every
desired addon `a`, exactly one operation per occurrence of `a`; each of them names the
installation, has `To` equal to the target hash, and is `install` when `a` has no recorded entry
(no current generation, or none for this installation or addon), `update` with `From` the
recorded hash when that hash differs from the target hash, `symlink` when it is the same.
When the installation is an enabled one of the configuration, this plan is the entry `Plan`
stores for it. -/
theorem planInstallation_classifies (r : Reconciler) (fs : FS) (installID : String)
    (config : InstallationConfig)
    (hok : ∀ a ∈ config.Addons,
      ∃ ac, r.Config.Addons.get? a = some ac ∧ config.Typ ∈ ac.Compatible) :
    ∃ plan, r.planInstallation fs installID config = some (Except.ok plan) ∧
      (∀ a ∈ config.Addons, ∀ ac, r.Config.Addons.get? a = some ac →
        ∃ targetHash, calculateAddonHash ac = some targetHash ∧
          (plan.Operations.filter (fun op => op.Addon = a)).length = config.Addons.count a ∧
          ∀ op ∈ plan.Operations, op.Addon = a →
            op.Installation = installID ∧ op.To = targetHash ∧
            (recordedAddon r.GenerationManager fs installID a = none →
              op.Typ = "install" ∧ op.From = none) ∧
            (∀ cur, recordedAddon r.GenerationManager fs installID a = some cur →
              cur.Hash ≠ targetHash → op.Typ = "update" ∧ op.From = some cur.Hash) ∧
            (∀ cur, recordedAddon r.GenerationManager fs installID a = some cur →
              cur.Hash = targetHash → op.Typ = "symlink" ∧ op.From = none)) ∧
      (∀ buildPlan, r.Plan fs = some (Except.ok buildPlan) →
        r.Config.Installations.get? installID = some config → config.Enabled = true →
        buildPlan.Installations.get? installID = some plan) := by
  obtain ⟨plan1, h1⟩ := planAddons_ok r installID config (r.currentState fs installID)
    config.Addons hok { Path := config.Path, Operations := [], Symlinks := [] }
  have hplan : ∃ plan, r.planInstallation fs installID config = some (Except.ok plan) := by
    unfold Reconciler.planInstallation
    simp only [h1]
    exact ⟨_, rfl⟩
  obtain ⟨plan, hplan⟩ := hplan
  have hops := planInstallation_ops r fs installID config plan hplan
  refine ⟨plan, hplan, ?_, ?_⟩
  · intro a ha ac _
    refine ⟨"7b22736f75726365", calculateAddonHash_eq ac, ?_, ?_⟩
    · rw [hops, List.filter_append, List.length_append, classify_filter_length]
      have hnil : (planRemovals installID config (r.currentState fs installID)
          (GoMap.range (r.currentState fs installID))).filter (fun op => op.Addon = a) = [] := by
        rw [List.filter_eq_nil_iff]
        intro op hop hopa
        have := (planRemovals_mem _ _ _ _ op hop).2.1
        simp only [decide_eq_true_eq] at hopa
        rw [hopa] at this
        exact this ha
      rw [hnil]
      simp
    · intro op hop hopa
      rw [hops, List.mem_append] at hop
      rcases hop with hop | hop
      · rw [List.mem_map] at hop
        obtain ⟨b, _, hb⟩ := hop
        have hf :=
          classifyAddon_fields installID b "7b22736f75726365" (r.currentState fs installID)
        have hba : b = a := by rw [← hopa, ← hb]; exact hf.1.symm
        subst hba
        refine ⟨by rw [← hb]; exact hf.2.1, by rw [← hb]; exact hf.2.2.1, ?_, ?_, ?_⟩
        · intro hnone
          rw [← hb]
          unfold classifyAddon
          rw [currentState_get, hnone]
          exact ⟨rfl, rfl⟩
        · intro cur hcur hne
          rw [← hb]
          unfold classifyAddon
          rw [currentState_get, hcur]
          simp [hne]
        · intro cur hcur heq
          rw [← hb]
          unfold classifyAddon
          rw [currentState_get, hcur]
          simp [heq]
      · have := (planRemovals_mem _ _ _ _ op hop).2.1
        rw [hopa] at this
        exact absurd ha this
  · intro buildPlan hbp hget hen
    obtain ⟨ip, hip, hentry⟩ := (plan_spec r fs buildPlan hbp).2 installID config hget hen
    rw [hplan] at hip
    simp only [Option.some.injEq, Except.ok.injEq] at hip
    rw [hip]
    exact hentry

/-- Witness for C9: `retail` wants the present, compatible addon `bigwigs`. -/
theorem planInstallation_classifies_witness :
    (∀ a ∈ exRetail.Addons,
      ∃ ac, exReconciler.Config.Addons.get? a = some ac ∧ exRetail.Typ ∈ ac.Compatible) ∧
    ∃ plan, exReconciler.planInstallation exCurrentFS "retail" exRetail =
        some (Except.ok plan) ∧
      (∀ a ∈ exRetail.Addons, ∀ ac, exReconciler.Config.Addons.get? a = some ac →
        ∃ targetHash, calculateAddonHash ac = some targetHash ∧
          (plan.Operations.filter (fun op => op.Addon = a)).length = exRetail.Addons.count a ∧
          ∀ op ∈ plan.Operations, op.Addon = a →
            op.Installation = "retail" ∧ op.To = targetHash ∧
            (recordedAddon exReconciler.GenerationManager exCurrentFS "retail" a = none →
              op.Typ = "install" ∧ op.From = none) ∧
            (∀ cur, recordedAddon exReconciler.GenerationManager exCurrentFS "retail" a =
                some cur →
              cur.Hash ≠ targetHash → op.Typ = "update" ∧ op.From = some cur.Hash) ∧
            (∀ cur, recordedAddon exReconciler.GenerationManager exCurrentFS "retail" a =
                some cur →
              cur.Hash = targetHash → op.Typ = "symlink" ∧ op.From = none)) ∧
      (∀ buildPlan, exReconciler.Plan exCurrentFS = some (Except.ok buildPlan) →
        exReconciler.Config.Installations.get? "retail" = some exRetail →
        exRetail.Enabled = true →
        buildPlan.Installations.get? "retail" = some plan) :=
  have hok : ∀ a ∈ exRetail.Addons,
      ∃ ac, exReconciler.Config.Addons.get? a = some ac ∧ exRetail.Typ ∈ ac.Compatible := by
    intro a ha
    have : a = "bigwigs" := by simpa [exRetail] using ha
    subst this
    exact ⟨exBigwigs, by decide, by decide⟩
  ⟨hok, planInstallation_classifies exReconciler exCurrentFS "retail" exRetail hok⟩

/-- C10 (plan uninstalls): when `Plan` returns a plan, then for every enabled installation `i`
of the configuration and every addon `a`, the `uninstall` operations for `(i, a)` in the plan
(and in the installation plan stored for `i`) are exactly one operation
`(i, a, From = recorded hash)` when `a` has a recorded entry in the current generation's state
of `i` and is not in the desired list of `i`, and none otherwise (in particular none for an
addon that is still desired). -/
theorem plan_uninstalls (r : Reconciler) (fs : FS) (plan : BuildPlan) (i : String)
    (cfg : InstallationConfig) (a : String)
    (hplan : r.Plan fs = some (Except.ok plan))
    (hget : r.Config.Installations.get? i = some cfg) (hen : cfg.Enabled = true) :
    ∃ ip, plan.Installations.get? i = some ip ∧
      ip.Operations.filter (fun op => op.Typ = "uninstall" ∧ op.Addon = a) =
        (match recordedAddon r.GenerationManager fs i a with
         | some cur =>
           if a ∈ cfg.Addons then []
           else [{ Typ := "uninstall", Installation := i, Addon := a,
                   From := some cur.Hash, To := "" }]
         | none => []) ∧
      plan.Operations.filter
          (fun op => op.Typ = "uninstall" ∧ op.Installation = i ∧ op.Addon = a) =
        (match recordedAddon r.GenerationManager fs i a with
         | some cur =>
           if a ∈ cfg.Addons then []
           else [{ Typ := "uninstall", Installation := i, Addon := a,
                   From := some cur.Hash, To := "" }]
         | none => []) := by
  obtain ⟨ip, hip, hentry⟩ := (plan_spec r fs plan hplan).2 i cfg hget hen
  have hper := planInstallation_uninstall_ops r fs i cfg ip hip a
  refine ⟨ip, hentry, hper, ?_⟩
  rw [← hper, ← plan_filter_installation r fs plan i cfg ip
    (fun op => decide (op.Typ = "uninstall" ∧ op.Addon = a)) hplan hget hen hip]
  apply List.filter_congr
  intro op _
  by_cases h1 : op.Typ = "uninstall" <;> by_cases h2 : op.Installation = i <;>
    by_cases h3 : op.Addon = a <;> simp [h1, h2, h3]

/-- Witness for C10 (Scenario A): the current state of `retail` is `weakauras -> hashX`, the
desired list drops `weakauras`; `Plan` yields exactly one `uninstall` operation for it,
`(retail, weakauras, from = hashX)`, and it is the only `uninstall` of the whole plan. -/
theorem plan_uninstalls_witness :
    exReconciler.Plan exCurrentFS = some (Except.ok exScenarioAPlan) ∧
    (∃ ip, exScenarioAPlan.Installations.get? "retail" = some ip ∧
      ip.Operations.filter (fun op => op.Typ = "uninstall" ∧ op.Addon = "weakauras") =
        [{ Typ := "uninstall", Installation := "retail", Addon := "weakauras",
           From := some "hashX", To := "" }] ∧
      exScenarioAPlan.Operations.filter
          (fun op => op.Typ = "uninstall" ∧ op.Installation = "retail" ∧
            op.Addon = "weakauras") =
        [{ Typ := "uninstall", Installation := "retail", Addon := "weakauras",
           From := some "hashX", To := "" }]) ∧
    exScenarioAPlan.Operations.filter (fun op => op.Typ = "uninstall") =
      [{ Typ := "uninstall", Installation := "retail", Addon := "weakauras",
         From := some "hashX", To := "" }] := by
  have hplan : exReconciler.Plan exCurrentFS = some (Except.ok exScenarioAPlan) := by decide!
  have hrec : recordedAddon exReconciler.GenerationManager exCurrentFS "retail" "weakauras" =
      some { ID := "weakauras", Version := "", Hash := "hashX",
             StorePath := ["aggon", "store", "ha", "shX"],
             InstallPath := ["wow", "retail", "weakauras"], InstalledAt := Time.zero } := by
    decide
  have h := plan_uninstalls exReconciler exCurrentFS exScenarioAPlan "retail" exRetail
    "weakauras" hplan (by decide) (by decide)
  rw [hrec] at h
  exact ⟨hplan, h, by decide⟩

/-! ### Reconciler: apply -/

/-- Supporting fact for C7: the assumption on the clock cannot be dropped. At the zero time
`Create` writes generation 1 under `1-0001-01-01-000000`, where a dangling pointer finds it:
`Apply` returns `Success = false` (the link fails) and `GetCurrent` turns from an error into
generation 1. -/
theorem apply_zero_clock_moves_current :
    (exGM.GetCurrent exDanglingFS).map (fun g => g.ID) =
      Except.error "failed to open generation file" ∧
    (exReconciler.Apply exDanglingFS exPlan Time.zero).map
        (fun o => (o.result.Success, (exGM.GetCurrent o.fs).map fun g => g.ID)) =
      some (false, Except.ok 1) := by
  constructor
  · decide
  · decide!

/-- C8 (code bug), Scenario B: on the fresh system the plan is one install and one download of
`bigwigs`; `Apply` creates generation 1, counts one download and one installation and makes the
link `wow/retail/bigwigs`, but it returns `Success = false`, the store holds no content under
the hash, and no generation is current. -/
theorem scenarioB_not_promoted :
    exReconciler.Plan exFreshFS = some (Except.ok exScenarioBPlan) ∧
    (exReconciler.Apply exFreshFS exScenarioBPlan exNow).map (fun o => (o.err, o.result)) =
      some (none,
        { Success := false, Generation := 1, Operations := 1, Downloaded := 1, Installed := 1,
          Errors := ["failed to set current generation: generation not found: " ++
            "failed to open generation file"] }) ∧
    (exReconciler.Apply exFreshFS exScenarioBPlan exNow).map
        (fun o => (exStore.Exists o.fs "7b22736f75726365",
          FS.lookup o.fs ["wow", "retail", "bigwigs"])) =
      some (some false, some (Node.symlink "../../aggon/store/22/736f75726365")) ∧
    (exReconciler.Apply exFreshFS exScenarioBPlan exNow).map
        (fun o => (exGM.GetCurrent o.fs).map fun g => g.ID) =
      some (Except.error "no current generation set") := by
  refine ⟨?_, ?_, ?_, ?_⟩
  · decide!
  · decide!
  · decide!
  · decide!

/-! ### Reconciler: planning, continued -/

theorem planAddons_bad (r : Reconciler) (installID : String) (config : InstallationConfig)
    (cs : GoMap InstalledAddon) (l : List String)
    (hbad : ∃ a ∈ l, r.Config.Addons.get? a = none ∨
      ∃ ac, r.Config.Addons.get? a = some ac ∧ config.Typ ∉ ac.Compatible) :
    ∀ plan0, ∃ e, r.planAddons installID config cs l plan0 = some (Except.error e) := by
  induction l with
  | nil =>
    obtain ⟨a, ha, _⟩ := hbad
    simp at ha
  | cons b rest ih =>
    intro plan0
    unfold Reconciler.planAddons
    cases hb : r.Config.Addons.get? b with
    | none => exact ⟨_, rfl⟩
    | some ac =>
      simp only
      by_cases hc : isCompatible ac config.Typ = true
      · simp only [hc, Bool.not_true, Bool.false_eq_true, if_false]
        rw [calculateAddonHash_eq]
        simp only [getStorePath_addonHash]
        apply ih
        obtain ⟨a, ha, hbada⟩ := hbad
        simp only [List.mem_cons] at ha
        rcases ha with ha | ha
        · subst ha
          exfalso
          rcases hbada with h | ⟨ac2, h2, h3⟩
          · rw [hb] at h
            exact Option.noConfusion h
          · rw [hb] at h2
            simp only [Option.some.injEq] at h2
            subst h2
            exact h3 ((compatibleLoop_iff _ _).mp hc)
        · exact ⟨a, ha, hbada⟩
      · have hc2 : isCompatible ac config.Typ = false := by simpa using hc
        simp only [hc2, Bool.not_false, if_true]
        exact ⟨_, rfl⟩

theorem planInstallation_ok (r : Reconciler) (fs : FS) (installID : String)
    (config : InstallationConfig)
    (hgood : ∀ a ∈ config.Addons,
      ∃ ac, r.Config.Addons.get? a = some ac ∧ config.Typ ∈ ac.Compatible) :
    ∃ plan, r.planInstallation fs installID config = some (Except.ok plan) := by
  obtain ⟨plan1, h1⟩ := planAddons_ok r installID config (r.currentState fs installID)
    config.Addons hgood { Path := config.Path, Operations := [], Symlinks := [] }
  unfold Reconciler.planInstallation
  simp only [h1]
  exact ⟨_, rfl⟩

theorem planInstallation_bad (r : Reconciler) (fs : FS) (installID : String)
    (config : InstallationConfig)
    (hbad : ∃ a ∈ config.Addons, r.Config.Addons.get? a = none ∨
      ∃ ac, r.Config.Addons.get? a = some ac ∧ config.Typ ∉ ac.Compatible) :
    ∃ e, r.planInstallation fs installID config = some (Except.error e) := by
  obtain ⟨e, h1⟩ := planAddons_bad r installID config (r.currentState fs installID)
    config.Addons hbad { Path := config.Path, Operations := [], Symlinks := [] }
  unfold Reconciler.planInstallation
  simp only [h1]
  exact ⟨_, rfl⟩

theorem addon_good_or_bad (r : Reconciler) (config : InstallationConfig) :
    (∀ a ∈ config.Addons,
      ∃ ac, r.Config.Addons.get? a = some ac ∧ config.Typ ∈ ac.Compatible) ∨
    (∃ a ∈ config.Addons, r.Config.Addons.get? a = none ∨
      ∃ ac, r.Config.Addons.get? a = some ac ∧ config.Typ ∉ ac.Compatible) := by
  by_cases h : ∀ a ∈ config.Addons,
      ∃ ac, r.Config.Addons.get? a = some ac ∧ config.Typ ∈ ac.Compatible
  · exact Or.inl h
  · right
    simp only [not_forall] at h
    obtain ⟨a, ha, hna⟩ := h
    refine ⟨a, ha, ?_⟩
    cases hg : r.Config.Addons.get? a with
    | none => exact Or.inl rfl
    | some ac =>
      right
      refine ⟨ac, rfl, ?_⟩
      intro hc
      exact hna ⟨ac, hg, hc⟩

theorem planInstallations_ok (r : Reconciler) (fs : FS)
    (l : List (String × InstallationConfig))
    (hgood : ∀ e ∈ l, e.2.Enabled = true → ∀ a ∈ e.2.Addons,
      ∃ ac, r.Config.Addons.get? a = some ac ∧ e.2.Typ ∈ ac.Compatible) :
    ∀ plan0, ∃ plan, r.planInstallations fs l plan0 = some (Except.ok plan) := by
  induction l with
  | nil => intro plan0; exact ⟨plan0, rfl⟩
  | cons e rest ih =>
    obtain ⟨k, c⟩ := e
    intro plan0
    unfold Reconciler.planInstallations
    by_cases hen : c.Enabled = true
    · simp only [hen, Bool.not_true, Bool.false_eq_true, if_false]
      obtain ⟨ip, hip⟩ := planInstallation_ok r fs k c (hgood (k, c) (by simp) hen)
      simp only [hip]
      exact ih (fun e he => hgood e (by simp [he])) _
    · have hen2 : c.Enabled = false := by simpa using hen
      simp only [hen2, Bool.not_false, if_true]
      exact ih (fun e he => hgood e (by simp [he])) _

theorem planInstallations_bad (r : Reconciler) (fs : FS)
    (l : List (String × InstallationConfig))
    (hbad : ∃ e ∈ l, e.2.Enabled = true ∧ ∃ a ∈ e.2.Addons, r.Config.Addons.get? a = none ∨
      ∃ ac, r.Config.Addons.get? a = some ac ∧ e.2.Typ ∉ ac.Compatible) :
    ∀ plan0, ∃ err, r.planInstallations fs l plan0 = some (Except.error err) := by
  induction l with
  | nil =>
    obtain ⟨e, he, _⟩ := hbad
    simp at he
  | cons e rest ih =>
    obtain ⟨k, c⟩ := e
    intro plan0
    have hrest : (c.Enabled = true ∧ ∃ a ∈ c.Addons, r.Config.Addons.get? a = none ∨
        ∃ ac, r.Config.Addons.get? a = some ac ∧ c.Typ ∉ ac.Compatible) ∨
        ∃ e ∈ rest, e.2.Enabled = true ∧ ∃ a ∈ e.2.Addons, r.Config.Addons.get? a = none ∨
          ∃ ac, r.Config.Addons.get? a = some ac ∧ e.2.Typ ∉ ac.Compatible := by
      obtain ⟨e, he, h1, h2⟩ := hbad
      simp only [List.mem_cons] at he
      rcases he with he | he
      · subst he
        exact Or.inl ⟨h1, h2⟩
      · exact Or.inr ⟨e, he, h1, h2⟩
    unfold Reconciler.planInstallations
    by_cases hen : c.Enabled = true
    · simp only [hen, Bool.not_true, Bool.false_eq_true, if_false]
      rcases addon_good_or_bad r c with hg | hb
      · obtain ⟨ip, hip⟩ := planInstallation_ok r fs k c hg
        simp only [hip]
        rcases hrest with ⟨_, a, ha, hbada⟩ | hrest
        · exfalso
          obtain ⟨ac, h1, h2⟩ := hg a ha
          rcases hbada with h | ⟨ac2, h3, h4⟩
          · rw [h1] at h
            exact Option.noConfusion h
          · rw [h1] at h3
            simp only [Option.some.injEq] at h3
            subst h3
            exact h4 h2
        · exact ih hrest _
      · obtain ⟨err, herr⟩ := planInstallation_bad r fs k c hb
        simp only [herr]
        exact ⟨_, rfl⟩
    · have hen2 : c.Enabled = false := by simpa using hen
      simp only [hen2, Bool.not_false, if_true]
      rcases hrest with ⟨h1, _⟩ | hrest
      · rw [hen2] at h1
        exact Bool.noConfusion h1
      · exact ih hrest _

theorem exists_addonHash (s : Store) (fs : FS) :
    s.Exists fs "7b22736f75726365" =
      some (osStat fs (s.StorePath ++ ["7b", "22736f75726365"])) := by
  unfold Store.Exists
  rw [getStorePath_addonHash]

theorem collectDownloads_total (r : Reconciler) (fs : FS) (ops : List Operation) :
    ∀ d0, ∃ d, r.collectDownloads fs ops d0 = some d := by
  induction ops with
  | nil => intro d0; exact ⟨d0, rfl⟩
  | cons op rest ih =>
    intro d0
    unfold Reconciler.collectDownloads
    by_cases hop : op.Typ = "install" ∨ op.Typ = "update"
    · simp only [hop, if_true]
      cases hg : r.Config.Addons.get? op.Addon with
      | none => exact ih _
      | some ac =>
        simp only [calculateAddonHash_eq, exists_addonHash, getStorePath_addonHash]
        cases osStat fs (r.Store.StorePath ++ ["7b", "22736f75726365"]) with
        | true => exact ih _
        | false => exact ih _
    · simp only [hop, if_false]
      exact ih _

theorem planDownloads_total (r : Reconciler) (fs : FS) (l : List (String × InstallPlan)) :
    ∀ d0, ∃ d, r.planDownloads fs l d0 = some d := by
  induction l with
  | nil => intro d0; exact ⟨d0, rfl⟩
  | cons e rest ih =>
    obtain ⟨k, ip⟩ := e
    intro d0
    unfold Reconciler.planDownloads
    obtain ⟨d1, h1⟩ := collectDownloads_total r fs ip.Operations d0
    simp only [h1]
    exact ih _

/-- C11 (plan fails exactly on structural configuration errors): `Plan` returns an error if and
only if some enabled installation of the configuration lists an addon id that is missing from
the configuration's addons or whose compatibility list does not contain the installation's type
tag; and it returns a plan if and only if there is no such installation, so an incompatible
pairing is never skipped silently and `Plan` has no third outcome. -/
theorem plan_fails_iff_structural_error (r : Reconciler) (fs : FS) :
    ((∃ e, r.Plan fs = some (Except.error e)) ↔
      ∃ i cfg, r.Config.Installations.get? i = some cfg ∧ cfg.Enabled = true ∧
        ∃ a ∈ cfg.Addons, r.Config.Addons.get? a = none ∨
          ∃ ac, r.Config.Addons.get? a = some ac ∧ cfg.Typ ∉ ac.Compatible) ∧
    ((∃ plan, r.Plan fs = some (Except.ok plan)) ↔
      ¬ ∃ i cfg, r.Config.Installations.get? i = some cfg ∧ cfg.Enabled = true ∧
        ∃ a ∈ cfg.Addons, r.Config.Addons.get? a = none ∨
          ∃ ac, r.Config.Addons.get? a = some ac ∧ cfg.Typ ∉ ac.Compatible) := by
  have hbadcase : (∃ i cfg, r.Config.Installations.get? i = some cfg ∧ cfg.Enabled = true ∧
        ∃ a ∈ cfg.Addons, r.Config.Addons.get? a = none ∨
          ∃ ac, r.Config.Addons.get? a = some ac ∧ cfg.Typ ∉ ac.Compatible) →
      ∃ e, r.Plan fs = some (Except.error e) := by
    rintro ⟨i, cfg, hget, hen, hbad⟩
    obtain ⟨err, herr⟩ := planInstallations_bad r fs (GoMap.range r.Config.Installations)
      ⟨(i, cfg), (range_mem_iff _ _ _).mpr hget, hen, hbad⟩
      { CurrentGeneration :=
          (match r.GenerationManager.GetCurrent fs with
           | Except.ok current => current.ID
           | Except.error _ => 0),
        TargetGeneration := 0, Operations := [], Downloads := [], Installations := [] }
    unfold Reconciler.Plan
    simp only [herr]
    exact ⟨_, rfl⟩
  have hgoodcase : (¬ ∃ i cfg, r.Config.Installations.get? i = some cfg ∧ cfg.Enabled = true ∧
        ∃ a ∈ cfg.Addons, r.Config.Addons.get? a = none ∨
          ∃ ac, r.Config.Addons.get? a = some ac ∧ cfg.Typ ∉ ac.Compatible) →
      ∃ plan, r.Plan fs = some (Except.ok plan) := by
    intro hno
    have hgood : ∀ e ∈ GoMap.range r.Config.Installations, e.2.Enabled = true →
        ∀ a ∈ e.2.Addons, ∃ ac, r.Config.Addons.get? a = some ac ∧ e.2.Typ ∈ ac.Compatible := by
      intro e he hen
      rcases addon_good_or_bad r e.2 with hg | hb
      · exact hg
      · exact absurd ⟨e.1, e.2, (range_mem_iff _ _ _).mp he, hen, hb⟩ hno
    obtain ⟨plan1, h1⟩ := planInstallations_ok r fs (GoMap.range r.Config.Installations) hgood
      { CurrentGeneration :=
          (match r.GenerationManager.GetCurrent fs with
           | Except.ok current => current.ID
           | Except.error _ => 0),
        TargetGeneration := 0, Operations := [], Downloads := [], Installations := [] }
    obtain ⟨d, hd⟩ := planDownloads_total r fs (GoMap.range plan1.Installations) plan1.Downloads
    unfold Reconciler.Plan
    simp only [h1, hd]
    exact ⟨_, rfl⟩
  refine ⟨⟨?_, hbadcase⟩, ⟨?_, hgoodcase⟩⟩
  · rintro ⟨e, he⟩
    by_contra hno
    obtain ⟨plan, hplan⟩ := hgoodcase hno
    rw [hplan] at he
    simp at he
  · rintro ⟨plan, hplan⟩ hbad
    obtain ⟨e, he⟩ := hbadcase hbad
    rw [hplan] at he
    simp at he

theorem planInstallation_congr (r : Reconciler) (fs fs2 : FS)
    (hcur : r.GenerationManager.GetCurrent fs2 = r.GenerationManager.GetCurrent fs)
    (installID : String) (config : InstallationConfig) :
    r.planInstallation fs2 installID config = r.planInstallation fs installID config := by
  unfold Reconciler.planInstallation Reconciler.currentState
  rw [hcur]

theorem planInstallations_congr (r : Reconciler) (fs fs2 : FS)
    (hcur : r.GenerationManager.GetCurrent fs2 = r.GenerationManager.GetCurrent fs)
    (l : List (String × InstallationConfig)) :
    ∀ plan0, r.planInstallations fs2 l plan0 = r.planInstallations fs l plan0 := by
  induction l with
  | nil => intro plan0; rfl
  | cons e rest ih =>
    obtain ⟨k, c⟩ := e
    intro plan0
    unfold Reconciler.planInstallations
    rw [planInstallation_congr r fs fs2 hcur, ih]
    split
    · rfl
    · split
      · rfl
      · rfl
      · exact ih _

theorem collectDownloads_congr (r : Reconciler) (fs fs2 : FS)
    (hex : ∀ a ac h, r.Config.Addons.get? a = some ac → calculateAddonHash ac = some h →
      r.Store.Exists fs2 h = r.Store.Exists fs h)
    (ops : List Operation) :
    ∀ d0, r.collectDownloads fs2 ops d0 = r.collectDownloads fs ops d0 := by
  induction ops with
  | nil => intro d0; rfl
  | cons op rest ih =>
    intro d0
    unfold Reconciler.collectDownloads
    by_cases hop : op.Typ = "install" ∨ op.Typ = "update"
    · simp only [hop, if_true]
      cases hg : r.Config.Addons.get? op.Addon with
      | none => exact ih _
      | some ac =>
        have hh := calculateAddonHash_eq ac
        simp only [hh, hex op.Addon ac _ hg hh]
        cases r.Store.Exists fs "7b22736f75726365" with
        | none => rfl
        | some b =>
          cases b with
          | true => exact ih _
          | false =>
            simp only [getStorePath_addonHash]
            exact ih _
    · simp only [hop, if_false]
      exact ih _

theorem planDownloads_congr (r : Reconciler) (fs fs2 : FS)
    (hex : ∀ a ac h, r.Config.Addons.get? a = some ac → calculateAddonHash ac = some h →
      r.Store.Exists fs2 h = r.Store.Exists fs h)
    (l : List (String × InstallPlan)) :
    ∀ d0, r.planDownloads fs2 l d0 = r.planDownloads fs l d0 := by
  induction l with
  | nil => intro d0; rfl
  | cons e rest ih =>
    obtain ⟨k, ip⟩ := e
    intro d0
    unfold Reconciler.planDownloads
    rw [collectDownloads_congr r fs fs2 hex]
    cases r.collectDownloads fs ip.Operations d0 with
    | none => rfl
    | some d1 => exact ih _

/-- The function `Plan` consults the state through nothing but the two read-only queries
`GetCurrent` and `Store.Exists`: on any two states that answer these two queries alike,
whether it succeeds or fails, it returns the same outcome. -/
theorem plan_congr (r : Reconciler) (fs fs2 : FS)
    (hcur : r.GenerationManager.GetCurrent fs2 = r.GenerationManager.GetCurrent fs)
    (hex : ∀ a ac h, r.Config.Addons.get? a = some ac → calculateAddonHash ac = some h →
      r.Store.Exists fs2 h = r.Store.Exists fs h) :
    r.Plan fs2 = r.Plan fs := by
  unfold Reconciler.Plan
  simp only [hcur, planInstallations_congr r fs fs2 hcur]
  split
  · rfl
  · rfl
  · rw [planDownloads_congr r fs fs2 hex]

/-- An instance of `plan_congr`: an added installation directory does not change the plan. -/
theorem plan_congr_example :
    exReconciler.GenerationManager.GetCurrent (exCurrentFS ++ [(["wow", "retail"], Node.dir)]) =
      exReconciler.GenerationManager.GetCurrent exCurrentFS ∧
    exReconciler.Plan (exCurrentFS ++ [(["wow", "retail"], Node.dir)]) =
      exReconciler.Plan exCurrentFS :=
  ⟨by decide!,
   plan_congr exReconciler exCurrentFS (exCurrentFS ++ [(["wow", "retail"], Node.dir)])
     (by decide!)
     (by
       intro a ac h _ hh
       rw [calculateAddonHash_eq] at hh
       simp only [Option.some.injEq] at hh
       subst hh
       decide!)⟩

theorem planInstallation_configured (r : Reconciler) (fs : FS) (installID : String)
    (config : InstallationConfig) (ip : InstallPlan)
    (h : r.planInstallation fs installID config = some (Except.ok ip)) :
    ∀ a ∈ config.Addons,
      ∃ ac, r.Config.Addons.get? a = some ac ∧ config.Typ ∈ ac.Compatible := by
  rcases addon_good_or_bad r config with hg | hb
  · exact hg
  · obtain ⟨e, he⟩ := planInstallation_bad r fs installID config hb
    rw [h] at he
    simp at he

theorem planInstallations_origin (r : Reconciler) (fs : FS)
    (l : List (String × InstallationConfig)) :
    ∀ plan0 plan, r.planInstallations fs l plan0 = some (Except.ok plan) →
      plan.Downloads = plan0.Downloads ∧
      ∀ i ip, plan.Installations.get? i = some ip →
        plan0.Installations.get? i = some ip ∨
        ∃ cfg, (i, cfg) ∈ l ∧ cfg.Enabled = true ∧
          r.planInstallation fs i cfg = some (Except.ok ip) := by
  induction l with
  | nil =>
    intro plan0 plan h
    simp only [Reconciler.planInstallations, Option.some.injEq, Except.ok.injEq] at h
    subst h
    exact ⟨rfl, fun i ip hi => Or.inl hi⟩
  | cons e rest ih =>
    obtain ⟨k, c⟩ := e
    intro plan0 plan h
    unfold Reconciler.planInstallations at h
    by_cases hen : c.Enabled = true
    · simp only [hen, Bool.not_true, Bool.false_eq_true, if_false] at h
      cases hp : r.planInstallation fs k c with
      | none => simp [hp] at h
      | some res =>
        cases res with
        | error e => simp [hp] at h
        | ok ip0 =>
          simp only [hp] at h
          obtain ⟨hd, hin⟩ := ih _ _ h
          refine ⟨hd, ?_⟩
          intro i ip hi
          rcases hin i ip hi with h0 | ⟨cfg, hmem, hen2, hpl⟩
          · simp only at h0
            by_cases hik : i = k
            · subst hik
              rw [goMap_get_set_self] at h0
              simp only [Option.some.injEq] at h0
              subst h0
              exact Or.inr ⟨c, by simp, hen, hp⟩
            · rw [goMap_get_set_ne _ _ _ _ hik] at h0
              exact Or.inl h0
          · exact Or.inr ⟨cfg, by simp [hmem], hen2, hpl⟩
    · have hen2 : c.Enabled = false := by simpa using hen
      simp only [hen2, Bool.not_false, if_true] at h
      obtain ⟨hd, hin⟩ := ih _ _ h
      refine ⟨hd, ?_⟩
      intro i ip hi
      rcases hin i ip hi with h0 | ⟨cfg, hmem, hen3, hpl⟩
      · exact Or.inl h0
      · exact Or.inr ⟨cfg, by simp [hmem], hen3, hpl⟩

/-- Every `install` or `update` operation of a planned installation names a configured addon
and targets the hash computed for it. -/
theorem planInstallation_install_ops (r : Reconciler) (fs : FS) (installID : String)
    (config : InstallationConfig) (ip : InstallPlan)
    (h : r.planInstallation fs installID config = some (Except.ok ip)) :
    ∀ op ∈ ip.Operations, (op.Typ = "install" ∨ op.Typ = "update") →
      (∃ ac, r.Config.Addons.get? op.Addon = some ac) ∧ op.To = "7b22736f75726365" := by
  intro op hop htyp
  rw [planInstallation_ops r fs installID config ip h, List.mem_append] at hop
  rcases hop with hop | hop
  · simp only [List.mem_map] at hop
    obtain ⟨a, ha, rfl⟩ := hop
    obtain ⟨h1, _, h3, _⟩ := classifyAddon_fields installID a "7b22736f75726365"
      (r.currentState fs installID)
    obtain ⟨ac, hac, _⟩ := planInstallation_configured r fs installID config ip h a ha
    rw [h1, h3]
    exact ⟨⟨ac, hac⟩, rfl⟩
  · obtain ⟨heq, _, _⟩ := planRemovals_mem _ _ _ _ op hop
    rw [heq] at htyp
    simp at htyp

theorem create_installations (gm : GenerationManager) (fs fs1 : FS) (config : DeclarativeConfig)
    (description : String) (now : Time) (g : Generation)
    (h : gm.Create fs config description now = some (fs1, Except.ok g)) :
    g.Installations = [] ∧ g.Timestamp = now ∧ g.Config = config ∧
      g.Description = description := by
  unfold GenerationManager.Create at h
  split at h
  · simp at h
  · simp only at h
    split at h
    · exact Option.noConfusion h
    · split at h
      · simp at h
      · simp only [Option.some.injEq, Prod.mk.injEq, Except.ok.injEq] at h
        rw [← h.2]
        exact ⟨rfl, rfl, rfl, rfl⟩

theorem linkEach_ok (r : Reconciler) (plan : InstallPlan) (now : Time)
    (l : List (String × FPath)) :
    ∀ (fs : FS) (st : InstallationState) (fs1 : FS) (st1 : InstallationState),
      r.linkEach plan now fs st l = some (fs1, Except.ok st1) →
      st1.Path = st.Path ∧
      (∀ a, a ∉ l.map Prod.fst → st1.Addons.get? a = st.Addons.get? a) ∧
      ((l.map Prod.fst).Nodup → ∀ a p, (a, p) ∈ l →
        st1.Addons.get? a = some
          { ID := a, Version := "", Hash := "", StorePath := p,
            InstallPath := joinName plan.Path a, InstalledAt := now }) := by
  induction l with
  | nil =>
    intro fs st fs1 st1 h
    simp only [Reconciler.linkEach, Option.some.injEq, Prod.mk.injEq, Except.ok.injEq] at h
    rw [← h.2]
    simp
  | cons e rest ih =>
    obtain ⟨k, sp⟩ := e
    intro fs st fs1 st1 h
    unfold Reconciler.linkEach at h
    simp only at h
    split at h
    · exact Option.noConfusion h
    · simp at h
    · obtain ⟨h1, h2, h3⟩ := ih _ _ _ _ h
      refine ⟨h1, ?_, ?_⟩
      · intro a ha
        simp only [List.map_cons, List.mem_cons, not_or] at ha
        rw [h2 a ha.2]
        exact goMap_get_set_ne _ _ _ _ ha.1
      · intro hnd a p hmem
        simp only [List.map_cons, List.nodup_cons] at hnd
        simp only [List.mem_cons, Prod.mk.injEq] at hmem
        rcases hmem with ⟨rfl, rfl⟩ | hmem
        · rw [h2 a hnd.1]
          exact goMap_get_set_self _ _ _
        · exact h3 hnd.2 a p hmem

/-- What `executeInstallPlan` does to the in-memory generation: on success the installation
is recorded with every addon of the symlinks map, on failure nothing is recorded. -/
theorem executeInstallPlan_record (r : Reconciler) (fs fs1 : FS) (installID : String)
    (ip : InstallPlan) (g g1 : Generation) (now : Time) (err : Option Err)
    (h : r.executeInstallPlan fs installID ip g now = some (fs1, g1, err)) :
    (∀ j, j ≠ installID → g1.Installations.get? j = g.Installations.get? j) ∧
    (err = none → ∃ st, g1.Installations.get? installID = some st ∧ st.Path = ip.Path ∧
      ∀ a p, ip.Symlinks.get? a = some p →
        st.Addons.get? a = some
          { ID := a, Version := "", Hash := "", StorePath := p,
            InstallPath := joinName ip.Path a, InstalledAt := now }) ∧
    (err ≠ none → g1 = g ∧
      ∃ a e, err = some ("failed to create symlink for " ++ a ++ ": " ++ e)) := by
  unfold Reconciler.executeInstallPlan at h
  split at h
  · exact Option.noConfusion h
  · rename_i fsA e hl
    simp only [Option.some.injEq, Prod.mk.injEq] at h
    obtain ⟨_, hg, he⟩ := h
    subst hg
    subst he
    refine ⟨fun j _ => rfl, fun hn => Option.noConfusion hn, fun _ => ⟨rfl, ?_⟩⟩
    revert hl
    generalize ({ Path := ip.Path, Addons := [] } : InstallationState) = st0
    generalize GoMap.range ip.Symlinks = l
    intro hl
    induction l generalizing fs st0 with
    | nil => simp [Reconciler.linkEach] at hl
    | cons x rest ih =>
      obtain ⟨k, sp⟩ := x
      unfold Reconciler.linkEach at hl
      simp only at hl
      split at hl
      · exact Option.noConfusion hl
      · rename_i fsB e0 _
        simp only [Option.some.injEq, Prod.mk.injEq, Except.error.injEq] at hl
        exact ⟨k, e0, by rw [hl.2]⟩
      · exact ih _ _ hl
  · rename_i fsA st hl
    simp only [Option.some.injEq, Prod.mk.injEq] at h
    obtain ⟨_, hg, he⟩ := h
    subst hg
    subst he
    obtain ⟨h1, _, h3⟩ := linkEach_ok r ip now _ _ _ _ _ hl
    refine ⟨fun j hj => goMap_get_set_ne _ _ _ _ hj, fun _ => ?_, fun hn => absurd rfl hn⟩
    refine ⟨st, goMap_get_set_self _ _ _, h1, ?_⟩
    intro a p hap
    exact h3 (range_keys_nodup _) a p ((range_mem_iff _ _ _).mpr hap)

theorem runInstallPlans_record (r : Reconciler) (now : Time) (l : List (String × InstallPlan)) :
    ∀ (fs : FS) (g : Generation) (res : ReconcileResult) (fs1 : FS) (g1 : Generation)
      (res1 : ReconcileResult),
      r.runInstallPlans now fs g res l = some (fs1, g1, res1) →
      (∀ j, j ∉ l.map Prod.fst → g1.Installations.get? j = g.Installations.get? j) ∧
      (∀ x ∈ res.Errors, x ∈ res1.Errors) ∧
      (res.Success = false → res1.Success = false) ∧
      ((l.map Prod.fst).Nodup → ∀ i ip, (i, ip) ∈ l →
        (∃ st, g1.Installations.get? i = some st ∧ st.Path = ip.Path ∧
          ∀ a p, ip.Symlinks.get? a = some p →
            st.Addons.get? a = some
              { ID := a, Version := "", Hash := "", StorePath := p,
                InstallPath := joinName ip.Path a, InstalledAt := now }) ∨
        (g1.Installations.get? i = g.Installations.get? i ∧ res1.Success = false ∧
          ∃ a e, ("installation " ++ i ++ " failed: " ++
            ("failed to create symlink for " ++ a ++ ": " ++ e)) ∈ res1.Errors)) := by
  induction l with
  | nil =>
    intro fs g res fs1 g1 res1 h
    simp only [Reconciler.runInstallPlans, Option.some.injEq, Prod.mk.injEq] at h
    obtain ⟨_, hg, hr⟩ := h
    subst hg
    subst hr
    simp
  | cons x rest ih =>
    obtain ⟨k, ip0⟩ := x
    intro fs g res fs1 g1 res1 h
    unfold Reconciler.runInstallPlans at h
    split at h
    · exact Option.noConfusion h
    · rename_i fsA gA e hx
      obtain ⟨_, _, hfail⟩ := executeInstallPlan_record r _ _ _ _ _ _ now _ hx
      obtain ⟨hgA, a0, e0, he0⟩ := hfail (by simp)
      simp only [Option.some.injEq] at he0
      subst hgA
      obtain ⟨h1, h2, h3, h4⟩ := ih _ _ _ _ _ _ h
      simp only at h2 h3
      refine ⟨?_, ?_, fun _ => h3 trivial, ?_⟩
      · intro j hj
        simp only [List.map_cons, List.mem_cons, not_or] at hj
        exact h1 j hj.2
      · intro y hy
        exact h2 y (by simp [hy])
      · intro hnd i ip hmem
        simp only [List.map_cons, List.nodup_cons] at hnd
        simp only [List.mem_cons, Prod.mk.injEq] at hmem
        rcases hmem with ⟨rfl, rfl⟩ | hmem
        · right
          refine ⟨h1 i hnd.1, h3 trivial, a0, e0, ?_⟩
          apply h2
          rw [he0]
          simp
        · exact h4 hnd.2 i ip hmem
    · rename_i fsA gA hx
      obtain ⟨hother, hok, _⟩ := executeInstallPlan_record r _ _ _ _ _ _ now _ hx
      obtain ⟨st, hst, hpath, haddons⟩ := hok rfl
      obtain ⟨h1, h2, h3, h4⟩ := ih _ _ _ _ _ _ h
      simp only at h2 h3
      refine ⟨?_, h2, h3, ?_⟩
      · intro j hj
        simp only [List.map_cons, List.mem_cons, not_or] at hj
        rw [h1 j hj.2]
        exact hother j hj.1
      · intro hnd i ip hmem
        simp only [List.map_cons, List.nodup_cons] at hnd
        simp only [List.mem_cons, Prod.mk.injEq] at hmem
        rcases hmem with ⟨rfl, rfl⟩ | hmem
        · left
          exact ⟨st, by rw [h1 i hnd.1]; exact hst, hpath, haddons⟩
        · have hik : i ≠ k := by
            intro hik
            subst hik
            exact hnd.1 (List.mem_map_of_mem Prod.fst hmem)
          rcases h4 hnd.2 i ip hmem with hl | ⟨hr1, hr2, hr3⟩
          · exact Or.inl hl
          · exact Or.inr ⟨by rw [hr1]; exact hother i hik, hr2, hr3⟩

/-- C16 counterexample: `wow/retail/details` is a directory holding a file, so `Store.Link`
fails for `details`, the second of the three addons of `retail`. `Apply` records the failure
and still links `bigwigs` into the other installation `ptr`, but in `retail` the link for
`weakauras` is never made, and `bigwigs`, which was linked there before the failure, is not
recorded: the new generation has no state for `retail` at all. -/
theorem apply_link_failure_stops_installation :
    (exReconciler.Apply exBlockedFS exThreePlan exNow).map (fun o => o.result.Errors) =
      some ["installation retail failed: failed to create symlink for details: " ++
        "failed to remove existing target: directory not empty"] ∧
    (exReconciler.Apply exBlockedFS exThreePlan exNow).map
        (fun o => (FS.lookup o.fs ["wow", "retail", "bigwigs"],
          FS.lookup o.fs ["wow", "retail", "weakauras"],
          FS.lookup o.fs ["wow", "ptr", "bigwigs"])) =
      some (some (Node.symlink "../../aggon/store/22/736f75726365"), none,
        some (Node.symlink "../../aggon/store/22/736f75726365")) ∧
    (exReconciler.Apply exBlockedFS exThreePlan exNow).map
        (fun o => o.generation.map fun g =>
          (g.Installations.get? "retail", (g.Installations.get? "ptr").isSome)) =
      some (some (none, true)) := by
  refine ⟨?_, ?_, ?_⟩
  · decide!
  · decide!
  · decide!

/-- C16 (amended: a link failure stops its installation, not the apply): after `Apply` has
created the new generation, every installation of the plan is attempted and ends in one of two
ways. Either all its links were made, and the in-memory generation then records the
installation with an entry (id, store path, install path) for every addon of its symlinks map;
or a link failed, and then nothing is recorded for that installation, the result has
`Success = false`, and `result.Errors` holds the failure, naming the installation and the
addon. -/
theorem apply_installations_all_attempted (r : Reconciler) (fs : FS) (plan : BuildPlan)
    (now : Time) (out : ApplyOutcome) (g : Generation)
    (happly : r.Apply fs plan now = some out) (hg : out.generation = some g) :
    ∀ i ip, plan.Installations.get? i = some ip →
      (∃ st, g.Installations.get? i = some st ∧ st.Path = ip.Path ∧
        ∀ a p, ip.Symlinks.get? a = some p →
          st.Addons.get? a = some
            { ID := a, Version := "", Hash := "", StorePath := p,
              InstallPath := joinName ip.Path a, InstalledAt := now }) ∨
      (g.Installations.get? i = none ∧ out.result.Success = false ∧
        ∃ a e, ("installation " ++ i ++ " failed: " ++
          ("failed to create symlink for " ++ a ++ ": " ++ e)) ∈ out.result.Errors) := by
  intro i ip hi
  unfold Reconciler.Apply at happly
  simp only at happly
  split at happly
  · exact Option.noConfusion happly
  · simp only [Option.some.injEq] at happly
    rw [← happly] at hg
    simp at hg
  · rename_i fs1 g0 hcreate
    obtain ⟨hg0, _⟩ := create_installations _ _ _ _ _ _ _ hcreate
    split at happly
    · exact Option.noConfusion happly
    · rename_i fs2 g2 result2 hrun
      obtain ⟨_, hsub, _, hall⟩ := runInstallPlans_record r now _ _ _ _ _ _ _ hrun
      have hcase := hall (range_keys_nodup _) i ip ((range_mem_iff _ _ _).mpr hi)
      rw [hg0] at hcase
      have hnone : GoMap.get? ([] : GoMap InstallationState) i = none := rfl
      rw [hnone] at hcase
      split at happly
      · rename_i hsucc
        have hleft : ∃ st, g2.Installations.get? i = some st ∧ st.Path = ip.Path ∧
            ∀ a p, ip.Symlinks.get? a = some p →
              st.Addons.get? a = some
                { ID := a, Version := "", Hash := "", StorePath := p,
                  InstallPath := joinName ip.Path a, InstalledAt := now } := by
          rcases hcase with hl | ⟨_, hf, _⟩
          · exact hl
          · rw [hsucc] at hf
            exact Bool.noConfusion hf
        split at happly
        · simp only [Option.some.injEq] at happly
          rw [← happly] at hg
          simp only [Option.some.injEq] at hg
          rw [← hg]
          exact Or.inl hleft
        · simp only [Option.some.injEq] at happly
          rw [← happly] at hg
          simp only [Option.some.injEq] at hg
          rw [← hg]
          exact Or.inl hleft
      · simp only [Option.some.injEq] at happly
        rw [← happly] at hg ⊢
        simp only [Option.some.injEq] at hg
        rw [← hg]
        exact hcase

theorem apply_installations_all_attempted_witness :
    ∃ out g, exReconciler.Apply exBlockedFS exThreePlan exNow = some out ∧
      out.generation = some g ∧
      ∀ i ip, exThreePlan.Installations.get? i = some ip →
        (∃ st, g.Installations.get? i = some st ∧ st.Path = ip.Path ∧
          ∀ a p, ip.Symlinks.get? a = some p →
            st.Addons.get? a = some
              { ID := a, Version := "", Hash := "", StorePath := p,
                InstallPath := joinName ip.Path a, InstalledAt := exNow }) ∨
        (g.Installations.get? i = none ∧ out.result.Success = false ∧
          ∃ a e, ("installation " ++ i ++ " failed: " ++
            ("failed to create symlink for " ++ a ++ ": " ++ e)) ∈ out.result.Errors) := by
  have hsome : ((exReconciler.Apply exBlockedFS exThreePlan exNow).bind
      fun o => o.generation.map fun g => (o, g)).isSome = true := by decide!
  obtain ⟨⟨out, g⟩, hog⟩ := Option.isSome_iff_exists.mp hsome
  simp only [Option.bind_eq_some, Option.map_eq_some', Prod.mk.injEq] at hog
  obtain ⟨o, ho, g1, hg1, rfl, rfl⟩ := hog
  exact ⟨o, g1, ho, hg1,
    apply_installations_all_attempted exReconciler exBlockedFS exThreePlan exNow o g1 ho hg1⟩

/-! ### Content store, continued -/

/-- C12 (code bug), re-run of Scenario B: on the fresh system `Plan` gives the plan
`exScenarioBPlan`, one `install` operation and one download, and `Apply` carries it out.
Planning again, with the same configuration against the state `Apply` left, gives the same plan
once more, so the `install` operation and the download are still there, and applying it again
reports `Downloaded = 1`. -/
theorem scenarioB_rerun_not_idempotent :
    exReconciler.Plan exFreshFS = some (Except.ok exScenarioBPlan) ∧
    (exReconciler.Apply exFreshFS exScenarioBPlan exNow).map (fun o => exReconciler.Plan o.fs) =
      some (some (Except.ok exScenarioBPlan)) ∧
    exScenarioBPlan.Operations.map (fun op => op.Typ) = ["install"] ∧
    exScenarioBPlan.Downloads.map (fun d => d.AddonID) = ["bigwigs"] ∧
    ((exReconciler.Apply exFreshFS exScenarioBPlan exNow).bind
        fun o => exReconciler.Apply o.fs exScenarioBPlan exLater).map
      (fun o => (o.result.Downloaded, o.result.Success)) = some (1, false) := by
  refine ⟨?_, ?_, ?_, ?_, ?_⟩
  · decide!
  · decide!
  · decide
  · decide
  · decide!

/-- C13 (code bug), Scenario C: `exFiveFS` is what saving the records of generations 1 to 5
and pointing `current` at the directory of generation 4 leaves on disk. There `List` finds no
generation, `GarbageCollect(2)` returns without an error and the filesystem is unchanged: the
directories of generations 1, 2 and 3 are still there. -/
theorem gc_scenarioC_deletes_nothing :
    osSymlink (exSaveAll exFreshFS [1, 2, 3, 4, 5]) "4-2026-11-01-100000" exGM.currentPath =
      Except.ok exFiveFS ∧
    exGM.List exFiveFS = Except.ok [] ∧
    exGM.GarbageCollect exFiveFS 2 = some (exFiveFS, none) ∧
    FS.lookup exFiveFS ["aggon", "generations", "1-2026-11-01-100000", "generation.json"] =
      some (Node.generationFile (exGenAt 1)) ∧
    FS.lookup exFiveFS ["aggon", "generations", "2-2026-11-01-100000", "generation.json"] =
      some (Node.generationFile (exGenAt 2)) ∧
    FS.lookup exFiveFS ["aggon", "generations", "3-2026-11-01-100000", "generation.json"] =
      some (Node.generationFile (exGenAt 3)) := by
  refine ⟨?_, ?_, ?_, ?_, ?_, ?_⟩
  · decide!
  · decide!
  · decide!
  · decide!
  · decide!
  · decide!

/-- C17 (code bug), Scenario B: the plan links `bigwigs` to the store path
`aggon/store/7b/22736f75726365`, and this is the store path recorded for it in the generation.
The link `Apply` makes at `wow/retail/bigwigs` has the target
`../../aggon/store/22/736f75726365`, which resolves to `aggon/store/22/736f75726365`: the link
is built from the last component of the store path, taken as if it were the hash. -/
theorem scenarioB_link_misses_store_path :
    (exScenarioBPlan.Installations.get? "retail").map (fun ip => ip.Symlinks.get? "bigwigs") =
      some (some ["aggon", "store", "7b", "22736f75726365"]) ∧
    (exReconciler.Apply exFreshFS exScenarioBPlan exNow).map
        (fun o => FS.lookup o.fs ["wow", "retail", "bigwigs"]) =
      some (some (Node.symlink "../../aggon/store/22/736f75726365")) ∧
    resolveLink ["wow", "retail", "bigwigs"] "../../aggon/store/22/736f75726365" =
      ["aggon", "store", "22", "736f75726365"] ∧
    (exReconciler.Apply exFreshFS exScenarioBPlan exNow).map
        (fun o => o.generation.map fun g =>
          (g.Installations.get? "retail").map fun st =>
            (st.Addons.get? "bigwigs").map fun a => a.StorePath) =
      some (some (some (some ["aggon", "store", "7b", "22736f75726365"]))) := by
  refine ⟨?_, ?_, ?_, ?_⟩
  · decide
  · decide!
  · decide!
  · decide!

/-- C18 (code bug), Scenario B: `Apply` links `bigwigs` into `retail` and counts one
installation, and the generation it holds in memory has the entry for `bigwigs` (with an empty
hash). The record on disk, written by `Create` before any link was made and never written
again, has no installations; and neither `Get`, `List` nor `GetCurrent` loads it. -/
theorem scenarioB_record_lacks_installations :
    (exReconciler.Apply exFreshFS exScenarioBPlan exNow).map
        (fun o => (o.result.Installed, FS.lookup o.fs ["wow", "retail", "bigwigs"])) =
      some (1, some (Node.symlink "../../aggon/store/22/736f75726365")) ∧
    (exReconciler.Apply exFreshFS exScenarioBPlan exNow).map
        (fun o => o.generation.map fun g => g.Installations) =
      some (some [("retail", { Path := ["wow", "retail"], Addons :=
        [("bigwigs", { ID := "bigwigs", Version := "", Hash := "",
                       StorePath := ["aggon", "store", "7b", "22736f75726365"],
                       InstallPath := ["wow", "retail", "bigwigs"],
                       InstalledAt := exNow })] })]) ∧
    (exReconciler.Apply exFreshFS exScenarioBPlan exNow).map
        (fun o => FS.lookup o.fs
          ["aggon", "generations", "1-2026-11-01-100000", "generation.json"]) =
      some (some (Node.generationFile
        { ID := 1, Timestamp := exNow, Config := exConfig, StateHash := "7b22736368656d61",
          Description := "Applied declarative configuration", Installations := [] })) ∧
    (exReconciler.Apply exFreshFS exScenarioBPlan exNow).map (fun o => exGM.Get o.fs 1) =
      some (Except.error "failed to open generation file") ∧
    (exReconciler.Apply exFreshFS exScenarioBPlan exNow).map (fun o => exGM.List o.fs) =
      some (Except.ok []) ∧
    (exReconciler.Apply exFreshFS exScenarioBPlan exNow).map (fun o => exGM.GetCurrent o.fs) =
      some (Except.error "no current generation set") := by
  refine ⟨?_, ?_, ?_, ?_, ?_, ?_⟩
  · decide!
  · decide!
  · decide!
  · decide!
  · decide!
  · decide!

/-- C19 (code bug): two calls of `Create` within the same second of the clock. Each returns a
generation with ID 1, both use the directory `1-2026-11-01-100000`, and the record the first
call wrote there (description `first`) is replaced by the record of the second (description
`second`). -/
theorem create_same_second_overwrites :
    (exGM.Create exFreshFS exConfig "first" exNow).map
        (fun x => (x.2.map (fun g => g.ID), FS.lookup x.1
          ["aggon", "generations", "1-2026-11-01-100000", "generation.json"])) =
      some (Except.ok 1, some (Node.generationFile
        { ID := 1, Timestamp := exNow, Config := exConfig, StateHash := "7b22736368656d61",
          Description := "first", Installations := [] })) ∧
    ((exGM.Create exFreshFS exConfig "first" exNow).bind
        fun x => exGM.Create x.1 exConfig "second" exNow).map
        (fun x => (x.2.map (fun g => g.ID), FS.lookup x.1
          ["aggon", "generations", "1-2026-11-01-100000", "generation.json"])) =
      some (Except.ok 1, some (Node.generationFile
        { ID := 1, Timestamp := exNow, Config := exConfig, StateHash := "7b22736368656d61",
          Description := "second", Installations := [] })) := by
  refine ⟨?_, ?_⟩
  · decide!
  · decide!

/-! ### Hashes and store paths -/

theorem marshalConfig_head (c : DeclarativeConfig) :
    ∃ rest, (marshalConfig c).data =
      [Char.ofNat 123, Char.ofNat 34, 's', 'c', 'h', 'e', 'm', 'a'] ++ rest := by
  have hs : (jsonString "schema").data =
      [Char.ofNat 34, 's', 'c', 'h', 'e', 'm', 'a', Char.ofNat 34] := by decide
  apply Exists.intro
  simp only [marshalConfig, jsonObject, List.map, jsonItems, String.data_append, hs,
    List.cons_append, List.append_assoc, List.nil_append]
  rfl

theorem calculateStateHash_eq (g : Generation) :
    calculateStateHash g = some "7b22736368656d61" := by
  obtain ⟨rest, hrest⟩ := marshalConfig_head g.Config
  have hb : utf8Bytes (marshalConfig g.Config) =
      [123, 34, 115, 99, 104, 101, 109, 97] ++ rest.map Char.toNat := by
    unfold utf8Bytes
    rw [hrest, List.map_append]
    rfl
  unfold calculateStateHash hexEncode sliceTo
  simp only
  rw [hb, List.append_assoc, hexChars_append]
  have h16 : hexChars [123, 34, 115, 99, 104, 101, 109, 97] = "7b22736368656d61".data := by
    decide
  rw [h16]
  simp

/-- C28 (the addon descriptor hash is constant): for every addon configuration
`calculateAddonHash` returns the 16-character string `7b22736f75726365`, the hex encoding of
the eight bytes of the opening brace, the quote and `source` with which the JSON of every
addon configuration starts. Any two addon configurations therefore get the same target hash and
the same store path, and in an installation plan an `update` operation only ever comes from a
recorded hash that differs from this constant: its `From` is that recorded hash and its `To`
the constant, whatever the descriptor says. -/
theorem addon_hash_constant (c c2 : AddonConfig) (s : Store) (r : Reconciler) (fs : FS)
    (installID : String) (config : InstallationConfig) (ip : InstallPlan)
    (hplan : r.planInstallation fs installID config = some (Except.ok ip)) :
    calculateAddonHash c = some "7b22736f75726365" ∧
    "7b22736f75726365".length = 16 ∧
    (marshalAddonConfig c).data.take 8 = "\x7b\"source".data ∧
    hexEncode (utf8Bytes "\x7b\"source") = "7b22736f75726365" ∧
    calculateAddonHash c2 = calculateAddonHash c ∧
    (calculateAddonHash c2).bind s.getStorePath = (calculateAddonHash c).bind s.getStorePath ∧
    ∀ op ∈ ip.Operations, op.Typ = "update" →
      op.To = "7b22736f75726365" ∧
      ∃ cur, (r.currentState fs installID).get? op.Addon = some cur ∧
        cur.Hash ≠ "7b22736f75726365" ∧ op.From = some cur.Hash := by
  refine ⟨calculateAddonHash_eq c, by decide, ?_, by decide, ?_, ?_, ?_⟩
  · obtain ⟨rest, hrest⟩ := marshalAddonConfig_head c
    rw [hrest]
    rfl
  · rw [calculateAddonHash_eq, calculateAddonHash_eq]
  · rw [calculateAddonHash_eq, calculateAddonHash_eq]
  · intro op hop htyp
    rw [planInstallation_ops r fs installID config ip hplan, List.mem_append] at hop
    rcases hop with hop | hop
    · simp only [List.mem_map] at hop
      obtain ⟨a, _, rfl⟩ := hop
      unfold classifyAddon at htyp ⊢
      cases hcur : (r.currentState fs installID).get? a with
      | none =>
        rw [hcur] at htyp
        simp at htyp
      | some cur =>
        rw [hcur] at htyp
        simp only at htyp ⊢
        by_cases hne : cur.Hash ≠ "7b22736f75726365"
        · rw [if_pos hne]
          exact ⟨rfl, cur, hcur, hne, rfl⟩
        · rw [if_neg hne] at htyp
          simp at htyp
    · obtain ⟨heq, _, _⟩ := planRemovals_mem _ _ _ _ op hop
      rw [heq] at htyp
      simp at htyp

theorem addon_hash_constant_witness :
    exWeakReconciler.planInstallation exCurrentFS "retail"
        { Typ := "retail", Path := ["wow", "retail"], Enabled := true,
          Addons := ["weakauras"] } =
      some (Except.ok
        { Path := ["wow", "retail"],
          Operations := [{ Typ := "update", Installation := "retail", Addon := "weakauras",
                           From := some "hashX", To := "7b22736f75726365" }],
          Symlinks := [("weakauras", ["aggon", "store", "7b", "22736f75726365"])] }) ∧
    (calculateAddonHash exBigwigs = some "7b22736f75726365" ∧
    "7b22736f75726365".length = 16 ∧
    (marshalAddonConfig exBigwigs).data.take 8 = "\x7b\"source".data ∧
    hexEncode (utf8Bytes "\x7b\"source") = "7b22736f75726365" ∧
    calculateAddonHash { exBigwigs with Version := "2.0" } = calculateAddonHash exBigwigs ∧
    (calculateAddonHash { exBigwigs with Version := "2.0" }).bind exStore.getStorePath =
      (calculateAddonHash exBigwigs).bind exStore.getStorePath ∧
    ∀ op ∈ [({ Typ := "update", Installation := "retail", Addon := "weakauras",
               From := some "hashX", To := "7b22736f75726365" } : Operation)],
      op.Typ = "update" →
      op.To = "7b22736f75726365" ∧
      ∃ cur, (exWeakReconciler.currentState exCurrentFS "retail").get? op.Addon = some cur ∧
        cur.Hash ≠ "7b22736f75726365" ∧ op.From = some cur.Hash) :=
  ⟨by decide!,
   addon_hash_constant exBigwigs { exBigwigs with Version := "2.0" } exStore exWeakReconciler
     exCurrentFS "retail"
     { Typ := "retail", Path := ["wow", "retail"], Enabled := true, Addons := ["weakauras"] }
     { Path := ["wow", "retail"],
       Operations := [{ Typ := "update", Installation := "retail", Addon := "weakauras",
                        From := some "hashX", To := "7b22736f75726365" }],
       Symlinks := [("weakauras", ["aggon", "store", "7b", "22736f75726365"])] }
     (by decide!)⟩

/-- C29 (the generation state hash is constant): for every generation `calculateStateHash`
returns the 16-character string `7b22736368656d61`, the hex encoding of the eight bytes of the
opening brace, the quote and `schema` with which the JSON of every configuration starts; so
two generations get the same state hash whatever their configurations and installations
are. -/
theorem state_hash_constant (g g2 : Generation) :
    calculateStateHash g = some "7b22736368656d61" ∧
    "7b22736368656d61".length = 16 ∧
    (marshalConfig g.Config).data.take 8 = "\x7b\"schema".data ∧
    hexEncode (utf8Bytes "\x7b\"schema") = "7b22736368656d61" ∧
    calculateStateHash g2 = calculateStateHash g := by
  refine ⟨calculateStateHash_eq g, by decide, ?_, by decide, ?_⟩
  · obtain ⟨rest, hrest⟩ := marshalConfig_head g.Config
    rw [hrest]
    rfl
  · rw [calculateStateHash_eq, calculateStateHash_eq]

theorem link_total (s : Store) (fs : FS) (hash : String) (target : FPath)
    (h : 2 ≤ hash.length) : ∃ res, s.Link fs hash target = some res := by
  have hl : 2 ≤ hash.data.length := h
  have h1 : sliceTo hash 2 = some ⟨hash.data.take 2⟩ := by
    unfold sliceTo
    rw [if_pos hl]
  have h2 : sliceFrom hash 2 = some ⟨hash.data.drop 2⟩ := by
    unfold sliceFrom
    rw [if_pos hl]
  unfold Store.Link Store.getStorePath
  rw [h1, h2]
  simp only
  split
  · exact ⟨_, rfl⟩
  · split
    · exact ⟨_, rfl⟩
    · split
      · exact ⟨_, rfl⟩
      · split
        · exact ⟨_, rfl⟩
        · exact ⟨_, rfl⟩

theorem get_total (s : Store) (fs : FS) (hash : String) (t : Time)
    (h : 2 ≤ hash.length) : ∃ res, s.Get fs hash t = some res := by
  have hl : 2 ≤ hash.data.length := h
  have h1 : sliceTo hash 2 = some ⟨hash.data.take 2⟩ := by
    unfold sliceTo
    rw [if_pos hl]
  have h2 : sliceFrom hash 2 = some ⟨hash.data.drop 2⟩ := by
    unfold sliceFrom
    rw [if_pos hl]
  unfold Store.Get Store.getStorePath
  rw [h1, h2]
  simp only
  split
  · exact ⟨_, rfl⟩
  · split
    · exact ⟨_, rfl⟩
    · exact ⟨_, rfl⟩

theorem add_total (H : Hasher) (s : Store) (fs : FS) (content : Bytes) (m : StoreEntry)
    (t : Time) (temp : TempFile) : ∃ res, s.Add H fs content m t temp = some res := by
  unfold Store.Add
  split
  · exact ⟨_, rfl⟩
  · split
    · exact ⟨_, rfl⟩
    · simp only [getStorePath_hash]
      split
      · exact ⟨_, rfl⟩
      · split
        · exact ⟨_, rfl⟩
        · split
          · exact ⟨_, rfl⟩
          · split
            · exact ⟨_, rfl⟩
            · exact ⟨_, rfl⟩

theorem planAddons_symlinks (r : Reconciler) (installID : String) (config : InstallationConfig)
    (cs : GoMap InstalledAddon) (l : List String) :
    ∀ plan0 plan, r.planAddons installID config cs l plan0 = some (Except.ok plan) →
      ∀ a p, plan.Symlinks.get? a = some p →
        plan0.Symlinks.get? a = some p ∨ p = r.Store.StorePath ++ ["7b", "22736f75726365"] := by
  induction l with
  | nil =>
    intro plan0 plan h a p hp
    simp only [Reconciler.planAddons, Option.some.injEq, Except.ok.injEq] at h
    subst h
    exact Or.inl hp
  | cons b rest ih =>
    intro plan0 plan h a p hp
    unfold Reconciler.planAddons at h
    cases hb : r.Config.Addons.get? b with
    | none => simp [hb] at h
    | some ac =>
      simp only [hb] at h
      by_cases hc : isCompatible ac config.Typ = true
      · simp only [hc, Bool.not_true, Bool.false_eq_true, if_false, calculateAddonHash_eq,
          getStorePath_addonHash] at h
        rcases ih _ _ h a p hp with h0 | h0
        · simp only at h0
          by_cases hab : a = b
          · subst hab
            rw [goMap_get_set_self] at h0
            exact Or.inr (Option.some.inj h0).symm
          · rw [goMap_get_set_ne _ _ _ _ hab] at h0
            exact Or.inl h0
        · exact Or.inr h0
      · have hc2 : isCompatible ac config.Typ = false := by simpa using hc
        simp [hc2] at h

theorem planInstallation_symlinks (r : Reconciler) (fs : FS) (installID : String)
    (config : InstallationConfig) (ip : InstallPlan)
    (h : r.planInstallation fs installID config = some (Except.ok ip)) :
    ∀ a p, ip.Symlinks.get? a = some p →
      p = r.Store.StorePath ++ ["7b", "22736f75726365"] := by
  intro a p hp
  unfold Reconciler.planInstallation at h
  simp only at h
  split at h
  · simp at h
  · simp at h
  · rename_i plan1 h1
    simp only [Option.some.injEq, Except.ok.injEq] at h
    rw [← h] at hp
    simp only at hp
    rcases planAddons_symlinks r _ _ _ _ _ _ h1 a p hp with h0 | h0
    · simp [GoMap.get?] at h0
    · exact h0

theorem linkEach_total (r : Reconciler) (plan : InstallPlan) (now : Time)
    (l : List (String × FPath)) (hl : ∀ e ∈ l, 2 ≤ (pathBase e.2).length) :
    ∀ fs st, ∃ res, r.linkEach plan now fs st l = some res := by
  induction l with
  | nil => intro fs st; exact ⟨_, rfl⟩
  | cons e rest ih =>
    obtain ⟨a, sp⟩ := e
    intro fs st
    unfold Reconciler.linkEach
    simp only
    obtain ⟨⟨fs1, e1⟩, hlink⟩ := link_total r.Store fs (pathBase sp) (joinName plan.Path a)
      (hl (a, sp) (by simp))
    rw [hlink]
    cases e1 with
    | some err => exact ⟨_, rfl⟩
    | none => exact ih (fun e he => hl e (by simp [he])) _ _

theorem runInstallPlans_total (r : Reconciler) (now : Time) (l : List (String × InstallPlan))
    (hl : ∀ ip ∈ l, ∀ e ∈ GoMap.range ip.2.Symlinks, 2 ≤ (pathBase e.2).length) :
    ∀ fs g res, ∃ out, r.runInstallPlans now fs g res l = some out := by
  induction l with
  | nil => intro fs g res; exact ⟨_, rfl⟩
  | cons x rest ih =>
    obtain ⟨k, ip⟩ := x
    intro fs g res
    have hex : ∃ out, r.executeInstallPlan fs k ip g now = some out := by
      unfold Reconciler.executeInstallPlan
      obtain ⟨⟨fs1, res1⟩, hle⟩ := linkEach_total r ip now (GoMap.range ip.Symlinks)
        (hl (k, ip) (by simp)) fs { Path := ip.Path, Addons := [] }
      rw [hle]
      cases res1 with
      | error e => exact ⟨_, rfl⟩
      | ok st => exact ⟨_, rfl⟩
    obtain ⟨⟨fs1, g1, e1⟩, hx⟩ := hex
    unfold Reconciler.runInstallPlans
    rw [hx]
    cases e1 with
    | some err => exact ih (fun ip hip => hl ip (by simp [hip])) _ _ _
    | none => exact ih (fun ip hip => hl ip (by simp [hip])) _ _ _

theorem create_total (gm : GenerationManager) (fs : FS) (config : DeclarativeConfig)
    (description : String) (now : Time) :
    ∃ res, gm.Create fs config description now = some res := by
  unfold GenerationManager.Create
  split
  · exact ⟨_, rfl⟩
  · simp only [calculateStateHash_eq]
    split
    · exact ⟨_, rfl⟩
    · exact ⟨_, rfl⟩

theorem apply_total (r : Reconciler) (fs : FS) (plan : BuildPlan) (now : Time)
    (hl : ∀ ip ∈ GoMap.range plan.Installations, ∀ e ∈ GoMap.range ip.2.Symlinks,
      2 ≤ (pathBase e.2).length) :
    ∃ out, r.Apply fs plan now = some out := by
  obtain ⟨⟨fs1, res⟩, hc⟩ := create_total r.GenerationManager fs r.Config
    "Applied declarative configuration" now
  unfold Reconciler.Apply
  simp only [hc]
  cases res with
  | error e => exact ⟨_, rfl⟩
  | ok g =>
    simp only
    obtain ⟨⟨fs2, g2, res2⟩, hr⟩ := runInstallPlans_total r now _ hl fs1 g
      (r.runDownloads plan.Downloads
        { Success := true, Generation := g.ID, Operations := plan.Operations.length,
          Downloaded := 0, Installed := 0, Errors := [] })
    rw [hr]
    simp only
    split
    · split
      · exact ⟨_, rfl⟩
      · exact ⟨_, rfl⟩
    · exact ⟨_, rfl⟩

theorem plan_symlink_bases (r : Reconciler) (fs : FS) (plan : BuildPlan)
    (h : r.Plan fs = some (Except.ok plan)) :
    ∀ ip ∈ GoMap.range plan.Installations, ∀ e ∈ GoMap.range ip.2.Symlinks,
      pathBase e.2 = "22736f75726365" := by
  intro ip hip e he
  have hsel : ∃ cfg, r.planInstallation fs ip.1 cfg = some (Except.ok ip.2) := by
    unfold Reconciler.Plan at h
    simp only at h
    split at h
    · exact Option.noConfusion h
    · simp at h
    · rename_i plan1 h1
      split at h
      · exact Option.noConfusion h
      · simp only [Option.some.injEq, Except.ok.injEq] at h
        rw [← h] at hip
        simp only at hip
        obtain ⟨_, horigin⟩ := planInstallations_origin r fs _ _ _ h1
        rcases horigin ip.1 ip.2 ((range_mem_iff _ _ _).mp hip) with h0 | ⟨cfg, _, _, hpl⟩
        · simp [GoMap.get?] at h0
        · exact ⟨cfg, hpl⟩
  obtain ⟨cfg, hpl⟩ := hsel
  have := planInstallation_symlinks r fs ip.1 cfg ip.2 hpl e.1 e.2
    ((range_mem_iff _ _ _).mp he)
  rw [this]
  simp [pathBase]

/-- C30 (store paths need a hash of at least 2 bytes): for a hash of two or more bytes
`getStorePath` is the store directory joined with `hash[:2]` and with `hash[2:]`, `Exists`
answers by a `Stat` of that path, and `Get` and `Link` return; for a shorter hash the slice is
out of range and `getStorePath`, `Exists`, `Get` and `Link` panic. Lengths and slices count
bytes: the two-byte hash `é` gets the path `store/é` and `é1` gets `store/é/1`. The hashes the
program produces are long enough: the hex digest computed by `Add` has 64 bytes, so `Add`
never panics, the descriptor hash computed by `Plan` has 16, and the name `Apply` passes to
`Link` for a plan made by `Plan` has 14, so `Plan` followed by `Apply` never panics. -/
theorem getStorePath_needs_two_bytes (s : Store) (hash : String) (fs : FS) (t : Time)
    (target : FPath) (H : Hasher) (content : Bytes) (m : StoreEntry) (temp : TempFile)
    (c : AddonConfig) (r : Reconciler) :
    (2 ≤ hash.length →
      sliceTo hash 2 = some ⟨hash.data.take 2⟩ ∧ sliceFrom hash 2 = some ⟨hash.data.drop 2⟩ ∧
      s.getStorePath hash =
        some (joinName (joinName s.StorePath ⟨hash.data.take 2⟩) ⟨hash.data.drop 2⟩) ∧
      s.Exists fs hash = some (osStat fs
        (joinName (joinName s.StorePath ⟨hash.data.take 2⟩) ⟨hash.data.drop 2⟩)) ∧
      (∃ res, s.Get fs hash t = some res) ∧ (∃ res, s.Link fs hash target = some res)) ∧
    (hash.length < 2 →
      sliceTo hash 2 = none ∧ s.getStorePath hash = none ∧ s.Exists fs hash = none ∧
      s.Get fs hash t = none ∧ s.Link fs hash target = none) ∧
    ((goString "é").length = 2 ∧
      exStore.getStorePath (goString "é") = some ["aggon", "store", goString "é"] ∧
      exStore.Exists exFreshFS (goString "é") = some false ∧
      exStore.getStorePath (goString "é1") = some ["aggon", "store", goString "é", "1"] ∧
      exStore.getStorePath "a" = none) ∧
    ((hexEncode (H.sum content)).length = 64 ∧
      ∃ res, s.Add H fs content m t temp = some res) ∧
    (∃ h, calculateAddonHash c = some h ∧ h.length = 16) ∧
    (∀ fs0 plan, r.Plan fs0 = some (Except.ok plan) → ∃ out, r.Apply fs plan t = some out) := by
  refine ⟨?_, ?_, ⟨by decide, by decide, by decide, by decide, by decide⟩,
    ⟨hash_length H content, add_total H s fs content m t temp⟩,
    ⟨_, calculateAddonHash_eq c, by decide⟩, ?_⟩
  · intro hlen
    have hl : 2 ≤ hash.data.length := hlen
    have h1 : sliceTo hash 2 = some ⟨hash.data.take 2⟩ := by
      unfold sliceTo
      rw [if_pos hl]
    have h2 : sliceFrom hash 2 = some ⟨hash.data.drop 2⟩ := by
      unfold sliceFrom
      rw [if_pos hl]
    refine ⟨h1, h2, ?_, ?_, get_total s fs hash t hlen, link_total s fs hash target hlen⟩
    · unfold Store.getStorePath
      rw [h1, h2]
    · unfold Store.Exists Store.getStorePath
      rw [h1, h2]
  · intro hlen
    have hl : ¬ 2 ≤ hash.data.length := by
      have : hash.data.length < 2 := hlen
      omega
    have h1 : sliceTo hash 2 = none := by
      unfold sliceTo
      rw [if_neg hl]
    have hp : s.getStorePath hash = none := by
      unfold Store.getStorePath
      rw [h1]
    refine ⟨h1, hp, ?_, ?_, ?_⟩
    · unfold Store.Exists
      rw [hp]
    · unfold Store.Get
      rw [hp]
    · unfold Store.Link
      rw [hp]
  · intro fs0 plan hplan
    apply apply_total
    intro ip hip e he
    rw [plan_symlink_bases r fs0 plan hplan ip hip e he]
    decide

/-! ### Scenarios, continued -/

/-- C21 (code bug): on the fresh system `Create` returns generation 1 and writes its record
under `1-2026-11-01-100000`; no generation is current. `Delete(1)` then returns no error, but
it leaves the filesystem exactly as it was: the directory `Create` wrote and the record in it
are still there. -/
theorem delete_leaves_created_directory :
    (exGM.Create exFreshFS exConfig "first" exNow).map
        (fun x => (x.2.map (fun g => g.ID), exGM.GetCurrent x.1)) =
      some (Except.ok 1, Except.error "no current generation set") ∧
    (exGM.Create exFreshFS exConfig "first" exNow).map
        (fun x => FS.lookup x.1 ["aggon", "generations", "1-2026-11-01-100000"]) =
      some (some Node.dir) ∧
    (exGM.Create exFreshFS exConfig "first" exNow).map (fun x => (exGM.Delete x.1 1).2) =
      some none ∧
    (exGM.Create exFreshFS exConfig "first" exNow).map
        (fun x => decide ((exGM.Delete x.1 1).1 = x.1)) = some true ∧
    (exGM.Create exFreshFS exConfig "first" exNow).map
        (fun x => (FS.lookup (exGM.Delete x.1 1).1
            ["aggon", "generations", "1-2026-11-01-100000"],
          (FS.lookup (exGM.Delete x.1 1).1
            ["aggon", "generations", "1-2026-11-01-100000", "generation.json"]).isSome)) =
      some (some Node.dir, true) := by
  refine ⟨?_, ?_, ?_, ?_, ?_⟩
  · decide!
  · decide!
  · decide!
  · decide!
  · decide!

/-- C23 (code bug): the store `exStoreFS` holds the bytes `[1, 2, 3]` under their hash and
there is no generation at all, so nothing reaches that entry. `Store.GarbageCollect` returns no
error and leaves the filesystem as it was: the entry is still in the store. -/
theorem store_gc_removes_nothing :
    exGM.List exStoreFS = Except.ok [] ∧
    exStore.Exists exStoreFS
      "0102030000000000000000000000000000000000000000000000000000000000" = some true ∧
    exStore.GarbageCollect exStoreFS 0 = (exStoreFS, none) ∧
    exStore.Exists (exStore.GarbageCollect exStoreFS 0).1
      "0102030000000000000000000000000000000000000000000000000000000000" = some true := by
  refine ⟨?_, ?_, ?_, ?_⟩
  · decide!
  · decide!
  · decide!
  · decide!

/-! ### Generation manager, continued -/

theorem loadEntries_mem (gm : GenerationManager) (fs : FS) (entries : List (String × Node))
    (g : Generation) :
    g ∈ gm.loadEntries fs entries ↔
      ∃ name id, (name, Node.dir) ∈ entries ∧ name ≠ "current" ∧
        atoi (splitDashHead name) = some id ∧ gm.Get fs id = Except.ok g := by
  induction entries with
  | nil => simp [GenerationManager.loadEntries]
  | cons e rest ih =>
    obtain ⟨name, node⟩ := e
    unfold GenerationManager.loadEntries
    by_cases hc : node = Node.dir ∧ name ≠ "current"
    · obtain ⟨hnode, hname⟩ := hc
      subst hnode
      simp only [hname, ne_eq, not_false_eq_true, and_self, if_true]
      cases ha : atoi (splitDashHead name) with
      | none =>
        simp only
        rw [ih]
        constructor
        · rintro ⟨n, id, hmem, h1, h2, h3⟩
          exact ⟨n, id, List.mem_cons_of_mem _ hmem, h1, h2, h3⟩
        · rintro ⟨n, id, hmem, h1, h2, h3⟩
          simp only [List.mem_cons, Prod.mk.injEq, and_true] at hmem
          rcases hmem with hn | hmem
          · subst hn
            rw [ha] at h2
            exact Option.noConfusion h2
          · exact ⟨n, id, hmem, h1, h2, h3⟩
      | some id0 =>
        simp only
        cases hg : gm.Get fs id0 with
        | error err =>
          simp only
          rw [ih]
          constructor
          · rintro ⟨n, id, hmem, h1, h2, h3⟩
            exact ⟨n, id, List.mem_cons_of_mem _ hmem, h1, h2, h3⟩
          · rintro ⟨n, id, hmem, h1, h2, h3⟩
            simp only [List.mem_cons, Prod.mk.injEq, and_true] at hmem
            rcases hmem with hn | hmem
            · subst hn
              rw [ha] at h2
              simp only [Option.some.injEq] at h2
              subst h2
              rw [hg] at h3
              simp at h3
            · exact ⟨n, id, hmem, h1, h2, h3⟩
        | ok g0 =>
          simp only [List.mem_cons]
          rw [ih]
          constructor
          · rintro (rfl | ⟨n, id, hmem, h1, h2, h3⟩)
            · exact ⟨name, id0, Or.inl rfl, hname, ha, hg⟩
            · exact ⟨n, id, Or.inr hmem, h1, h2, h3⟩
          · rintro ⟨n, id, hmem, h1, h2, h3⟩
            simp only [List.mem_cons, Prod.mk.injEq, and_true] at hmem
            rcases hmem with hn | hmem
            · subst hn
              rw [ha] at h2
              simp only [Option.some.injEq] at h2
              subst h2
              rw [hg] at h3
              simp only [Except.ok.injEq] at h3
              exact Or.inl h3.symm
            · exact Or.inr ⟨n, id, hmem, h1, h2, h3⟩
    · rw [if_neg hc, ih]
      constructor
      · rintro ⟨n, id, hmem, h1, h2, h3⟩
        exact ⟨n, id, List.mem_cons_of_mem _ hmem, h1, h2, h3⟩
      · rintro ⟨n, id, hmem, h1, h2, h3⟩
        simp only [List.mem_cons, Prod.mk.injEq] at hmem
        rcases hmem with ⟨hn, hd⟩ | hmem
        · subst hn
          exact absurd ⟨hd.symm, h1⟩ hc
        · exact ⟨n, id, hmem, h1, h2, h3⟩

/-- C27 (list is sorted and tolerant): when the generations directory is missing `List`
returns the empty list, and when it is a directory `List` returns a list, never an error,
whatever the directory holds. That list is in non-decreasing order of ID, and a generation is
in it exactly when it is the record `Get` loads for the numeric prefix of some entry that is a
directory and is not named `current`; entries without a numeric prefix and entries whose
record is missing or does not decode are passed over. -/
theorem list_sorted_tolerant (gm : GenerationManager) (fs : FS) :
    (FS.lookup fs gm.generationsDir = none → gm.List fs = Except.ok []) ∧
    (FS.lookup fs gm.generationsDir = some Node.dir →
      ∃ gens, gm.List fs = Except.ok gens ∧
        gens.Sorted (fun a b => a.ID ≤ b.ID) ∧
        ∀ g, g ∈ gens ↔
          ∃ name id, (name, Node.dir) ∈ FS.children fs gm.generationsDir ∧
            name ≠ "current" ∧ atoi (splitDashHead name) = some id ∧
            gm.Get fs id = Except.ok g) := by
  constructor
  · intro h
    unfold GenerationManager.List osReadDir
    rw [h]
  · intro h
    haveI : IsTotal Generation (fun a b => a.ID ≤ b.ID) := ⟨fun a b => le_total a.ID b.ID⟩
    haveI : IsTrans Generation (fun a b => a.ID ≤ b.ID) :=
      ⟨fun a b c hab hbc => le_trans hab hbc⟩
    unfold GenerationManager.List osReadDir
    rw [h]
    refine ⟨_, rfl, List.sorted_insertionSort _ _, ?_⟩
    intro g
    rw [List.mem_insertionSort, loadEntries_mem]
    constructor
    · rintro ⟨n, id, hmem, h1, h2, h3⟩
      exact ⟨n, id, (List.mem_insertionSort _).mp hmem, h1, h2, h3⟩
    · rintro ⟨n, id, hmem, h1, h2, h3⟩
      exact ⟨n, id, (List.mem_insertionSort _).mpr hmem, h1, h2, h3⟩

/-- Supporting example for C27: in the cluttered directory `exClutterFS` the listing is
generation 1 alone. -/
theorem list_clutter_example :
    FS.lookup exClutterFS exGM.generationsDir = some Node.dir ∧
    exGM.List exClutterFS = Except.ok [exGenOne] := by
  constructor
  · decide
  · decide!

/-! ### Reconciler: result bookkeeping -/

theorem collectDownloads_mem (r : Reconciler) (fs : FS) (ops : List Operation)
    (hops : ∀ op ∈ ops, (op.Typ = "install" ∨ op.Typ = "update") →
      (∃ ac, r.Config.Addons.get? op.Addon = some ac) ∧ op.To = "7b22736f75726365") :
    ∀ d0 dl, r.collectDownloads fs ops d0 = some dl →
      ∀ d, d ∈ dl ↔ d ∈ d0 ∨ ∃ op ∈ ops,
        (op.Typ = "install" ∨ op.Typ = "update") ∧ r.Store.Exists fs op.To = some false ∧
        ∃ ac sp, r.Config.Addons.get? op.Addon = some ac ∧
          r.Store.getStorePath op.To = some sp ∧
          d = { AddonID := op.Addon, Source := ac.Source, Hash := op.To, StorePath := sp } := by
  induction ops with
  | nil =>
    intro d0 dl h d
    simp only [Reconciler.collectDownloads, Option.some.injEq] at h
    subst h
    simp
  | cons op rest ih =>
    intro d0 dl h d
    have ihr := ih (fun o ho => hops o (by simp [ho]))
    unfold Reconciler.collectDownloads at h
    by_cases hop : op.Typ = "install" ∨ op.Typ = "update"
    · obtain ⟨⟨ac, hac⟩, hto⟩ := hops op (by simp) hop
      simp only [hop, if_true, hac, calculateAddonHash_eq] at h
      cases hex : r.Store.Exists fs "7b22736f75726365" with
      | none => simp [hex] at h
      | some b =>
        cases b with
        | true =>
          simp only [hex] at h
          rw [ihr _ _ h d]
          constructor
          · rintro (h0 | ⟨o, ho, hc⟩)
            · exact Or.inl h0
            · exact Or.inr ⟨o, List.mem_cons_of_mem _ ho, hc⟩
          · rintro (h0 | ⟨o, ho, hc⟩)
            · exact Or.inl h0
            · simp only [List.mem_cons] at ho
              rcases ho with rfl | ho
              · obtain ⟨_, hfalse, _⟩ := hc
                rw [hto, hex] at hfalse
                simp at hfalse
              · exact Or.inr ⟨o, ho, hc⟩
        | false =>
          simp only [hex, getStorePath_addonHash] at h
          rw [ihr _ _ h d]
          constructor
          · rintro (h0 | ⟨o, ho, hc⟩)
            · simp only [List.mem_append, List.mem_singleton] at h0
              rcases h0 with h0 | h0
              · exact Or.inl h0
              · refine Or.inr ⟨op, List.mem_cons_self _ _, hop, by rw [hto]; exact hex,
                  ac, _, hac, by rw [hto]; exact getStorePath_addonHash _, ?_⟩
                rw [h0, hto]
            · exact Or.inr ⟨o, List.mem_cons_of_mem _ ho, hc⟩
          · rintro (h0 | ⟨o, ho, hc⟩)
            · exact Or.inl (List.mem_append_left _ h0)
            · simp only [List.mem_cons] at ho
              rcases ho with rfl | ho
              · left
                obtain ⟨_, _, ac2, sp, hac2, hsp, hd⟩ := hc
                rw [hac] at hac2
                simp only [Option.some.injEq] at hac2
                subst hac2
                rw [hto, getStorePath_addonHash] at hsp
                simp only [Option.some.injEq] at hsp
                subst hsp
                rw [hd, hto]
                simp
              · exact Or.inr ⟨o, ho, hc⟩
    · simp only [hop, if_false] at h
      rw [ihr _ _ h d]
      constructor
      · rintro (h0 | ⟨o, ho, hc⟩)
        · exact Or.inl h0
        · exact Or.inr ⟨o, List.mem_cons_of_mem _ ho, hc⟩
      · rintro (h0 | ⟨o, ho, hc⟩)
        · exact Or.inl h0
        · simp only [List.mem_cons] at ho
          rcases ho with rfl | ho
          · exact absurd hc.1 hop
          · exact Or.inr ⟨o, ho, hc⟩

theorem planDownloads_mem (r : Reconciler) (fs : FS) (l : List (String × InstallPlan))
    (hops : ∀ e ∈ l, ∀ op ∈ e.2.Operations, (op.Typ = "install" ∨ op.Typ = "update") →
      (∃ ac, r.Config.Addons.get? op.Addon = some ac) ∧ op.To = "7b22736f75726365") :
    ∀ d0 dl, r.planDownloads fs l d0 = some dl →
      ∀ d, d ∈ dl ↔ d ∈ d0 ∨ ∃ e ∈ l, ∃ op ∈ e.2.Operations,
        (op.Typ = "install" ∨ op.Typ = "update") ∧ r.Store.Exists fs op.To = some false ∧
        ∃ ac sp, r.Config.Addons.get? op.Addon = some ac ∧
          r.Store.getStorePath op.To = some sp ∧
          d = { AddonID := op.Addon, Source := ac.Source, Hash := op.To, StorePath := sp } := by
  induction l with
  | nil =>
    intro d0 dl h d
    simp only [Reconciler.planDownloads, Option.some.injEq] at h
    subst h
    simp
  | cons e rest ih =>
    obtain ⟨k, ip⟩ := e
    intro d0 dl h d
    unfold Reconciler.planDownloads at h
    cases hc : r.collectDownloads fs ip.Operations d0 with
    | none => simp [hc] at h
    | some d1 =>
      simp only [hc] at h
      rw [ih (fun e he => hops e (by simp [he])) d1 dl h d,
        collectDownloads_mem r fs ip.Operations (hops (k, ip) (by simp)) d0 d1 hc d]
      constructor
      · rintro ((h0 | ⟨op, hop, hc⟩) | ⟨e, he, op, hop, hc⟩)
        · exact Or.inl h0
        · exact Or.inr ⟨(k, ip), List.mem_cons_self _ _, op, hop, hc⟩
        · exact Or.inr ⟨e, List.mem_cons_of_mem _ he, op, hop, hc⟩
      · rintro (h0 | ⟨e, he, op, hop, hc⟩)
        · exact Or.inl (Or.inl h0)
        · simp only [List.mem_cons] at he
          rcases he with rfl | he
          · exact Or.inl (Or.inr ⟨op, hop, hc⟩)
          · exact Or.inr ⟨e, he, op, hop, hc⟩

/-- C26 (download selection): in the plan returned by `Plan`, every per-installation plan is
that of an enabled installation of the configuration, and a download is in the downloads list
exactly when some operation of these plans has type `install` or `update` and a target hash
that `Store.Exists` does not find; the download then carries that operation's addon id, the
source configured for the addon, the target hash and the store path `getStorePath` derives
from the hash. `symlink` and `uninstall` operations account for no download. -/
theorem plan_download_selection (r : Reconciler) (fs : FS) (plan : BuildPlan)
    (h : r.Plan fs = some (Except.ok plan)) :
    (∀ e ∈ GoMap.range plan.Installations,
      ∃ cfg, r.Config.Installations.get? e.1 = some cfg ∧ cfg.Enabled = true ∧
        r.planInstallation fs e.1 cfg = some (Except.ok e.2)) ∧
    ∀ d, d ∈ plan.Downloads ↔
      ∃ e ∈ GoMap.range plan.Installations, ∃ op ∈ e.2.Operations,
        (op.Typ = "install" ∨ op.Typ = "update") ∧ r.Store.Exists fs op.To = some false ∧
        ∃ ac sp, r.Config.Addons.get? op.Addon = some ac ∧
          r.Store.getStorePath op.To = some sp ∧
          d = { AddonID := op.Addon, Source := ac.Source, Hash := op.To, StorePath := sp } := by
  unfold Reconciler.Plan at h
  simp only at h
  cases h1 : r.planInstallations fs (GoMap.range r.Config.Installations)
      { CurrentGeneration :=
          (match r.GenerationManager.GetCurrent fs with
           | Except.ok current => current.ID
           | Except.error _ => 0),
        TargetGeneration := 0, Operations := [], Downloads := [], Installations := [] } with
  | none => simp [h1] at h
  | some res =>
    cases res with
    | error e => simp [h1] at h
    | ok plan1 =>
      simp only [h1] at h
      cases h2 : r.planDownloads fs (GoMap.range plan1.Installations) plan1.Downloads with
      | none => simp [h2] at h
      | some dl =>
        simp only [h2, Option.some.injEq, Except.ok.injEq] at h
        subst h
        obtain ⟨hd, horigin⟩ := planInstallations_origin r fs _ _ _ h1
        simp only at hd
        have hfrom : ∀ e ∈ GoMap.range plan1.Installations,
            ∃ cfg, r.Config.Installations.get? e.1 = some cfg ∧ cfg.Enabled = true ∧
              r.planInstallation fs e.1 cfg = some (Except.ok e.2) := by
          intro e he
          rcases horigin e.1 e.2 ((range_mem_iff _ _ _).mp he) with h0 | ⟨cfg, hmem, hen, hpl⟩
          · simp [GoMap.get?] at h0
          · exact ⟨cfg, (range_mem_iff _ _ _).mp hmem, hen, hpl⟩
        have hops : ∀ e ∈ GoMap.range plan1.Installations, ∀ op ∈ e.2.Operations,
            (op.Typ = "install" ∨ op.Typ = "update") →
            (∃ ac, r.Config.Addons.get? op.Addon = some ac) ∧ op.To = "7b22736f75726365" := by
          intro e he
          obtain ⟨cfg, _, _, hpl⟩ := hfrom e he
          exact planInstallation_install_ops r fs e.1 cfg e.2 hpl
        refine ⟨hfrom, ?_⟩
        intro d
        simp only
        rw [planDownloads_mem r fs _ hops _ _ h2 d, hd]
        simp

theorem plan_download_selection_witness :
    exReconciler.Plan exCurrentFS = some (Except.ok exScenarioAPlan) ∧
    ((∀ e ∈ GoMap.range exScenarioAPlan.Installations,
      ∃ cfg, exReconciler.Config.Installations.get? e.1 = some cfg ∧ cfg.Enabled = true ∧
        exReconciler.planInstallation exCurrentFS e.1 cfg = some (Except.ok e.2)) ∧
    ∀ d, d ∈ exScenarioAPlan.Downloads ↔
      ∃ e ∈ GoMap.range exScenarioAPlan.Installations, ∃ op ∈ e.2.Operations,
        (op.Typ = "install" ∨ op.Typ = "update") ∧
        exReconciler.Store.Exists exCurrentFS op.To = some false ∧
        ∃ ac sp, exReconciler.Config.Addons.get? op.Addon = some ac ∧
          exReconciler.Store.getStorePath op.To = some sp ∧
          d = { AddonID := op.Addon, Source := ac.Source, Hash := op.To, StorePath := sp }) :=
  ⟨by decide!, plan_download_selection exReconciler exCurrentFS exScenarioAPlan (by decide!)⟩

/-! ### Cleaned paths and links -/

theorem intercalate_go_data (sep : String) (l : List String) :
    ∀ acc : String, (String.intercalate.go acc sep l).data =
      acc.data ++ l.flatMap (fun x => sep.data ++ x.data) := by
  induction l with
  | nil => intro acc; simp [String.intercalate.go]
  | cons a rest ih =>
    intro acc
    simp only [String.intercalate.go, ih, String.data_append, List.flatMap_cons,
      List.append_assoc]

theorem splitSep_append (a : List Char) (ha : '/' ∉ a) (rest : List Char) :
    ∀ cur, splitSep (a ++ '/' :: rest) cur = ⟨cur.reverse ++ a⟩ :: splitSep rest [] := by
  induction a with
  | nil =>
    intro cur
    simp [splitSep]
  | cons c cs ih =>
    intro cur
    have hc : c ≠ '/' := fun h => ha (by simp [h])
    have hcs : '/' ∉ cs := fun h => ha (by simp [h])
    have hstep : splitSep (c :: cs ++ '/' :: rest) cur =
        splitSep (cs ++ '/' :: rest) (c :: cur) := by
      simp only [List.cons_append, splitSep, hc, if_false]
      rfl
    rw [hstep, ih hcs]
    simp

theorem splitSep_items (a : String) (l : List String) (ha : '/' ∉ a.data)
    (hl : ∀ x ∈ l, '/' ∉ x.data) :
    splitSep (a.data ++ l.flatMap (fun x => '/' :: x.data)) [] = a :: l := by
  induction l generalizing a with
  | nil =>
    simp only [List.flatMap_nil, List.append_nil]
    rw [splitSep_no_slash _ _ ha]
    simp
  | cons b rest ih =>
    have hstep : a.data ++ (b :: rest).flatMap (fun x => '/' :: x.data) =
        a.data ++ '/' :: (b.data ++ rest.flatMap (fun x => '/' :: x.data)) := by
      simp only [List.flatMap_cons, List.cons_append]
    rw [hstep, splitSep_append a.data ha,
      ih b (hl b (by simp)) (fun x hx => hl x (by simp [hx]))]
    simp

theorem pathString_split (l : List String) (hne : l ≠ []) (hl : ∀ x ∈ l, '/' ∉ x.data) :
    splitSep (pathString l).data [] = l := by
  unfold pathString
  rw [if_neg hne]
  cases l with
  | nil => exact absurd rfl hne
  | cons a rest =>
    have hd : (String.intercalate "/" (a :: rest)).data =
        a.data ++ rest.flatMap (fun x => '/' :: x.data) := by
      show (String.intercalate.go a "/" rest).data = _
      rw [intercalate_go_data]
      rfl
    rw [hd]
    exact splitSep_items a rest (hl a (by simp)) (fun x hx => hl x (by simp [hx]))

theorem properName_iff (c : String) :
    isProperName c = true ↔ c ≠ "" ∧ c ≠ "." ∧ c ≠ ".." ∧ '/' ∉ c.data := by
  simp [isProperName, and_assoc]

theorem cleanPath_of_proper (p : FPath) (h : ∀ c ∈ p, isProperName c = true) :
    isCleanPath p = true := by
  cases p with
  | nil => rfl
  | cons c rest =>
    have hc := (properName_iff c).mp (h c (by simp))
    unfold isCleanPath
    rw [if_neg hc.2.2.1]
    exact List.all_eq_true.mpr h

theorem cleanPath_suffix (cm b : FPath) (h : isCleanPath (cm ++ b) = true) :
    isCleanPath b = true := by
  induction cm with
  | nil => exact h
  | cons x rest ih =>
    rw [List.cons_append] at h
    unfold isCleanPath at h
    by_cases hx : x = ".."
    · rw [if_pos hx] at h
      exact ih h
    · rw [if_neg hx] at h
      apply cleanPath_of_proper
      intro c hc
      exact List.all_eq_true.mp h c (by simp [hc])

theorem cleanPath_before_dotdot (cm t : FPath) (h : isCleanPath (cm ++ ".." :: t) = true) :
    ∀ x ∈ cm, x = ".." := by
  induction cm with
  | nil => intro x hx; simp at hx
  | cons y rest ih =>
    rw [List.cons_append] at h
    unfold isCleanPath at h
    by_cases hy : y = ".."
    · rw [if_pos hy] at h
      intro x hx
      simp only [List.mem_cons] at hx
      rcases hx with rfl | hx
      · exact hy
      · exact ih h x hx
    · rw [if_neg hy] at h
      have := List.all_eq_true.mp h ".." (by simp)
      exact absurd this (by decide)

theorem cleanPath_elem (p : FPath) (h : isCleanPath p = true) :
    ∀ c ∈ p, c = ".." ∨ isProperName c = true := by
  induction p with
  | nil => intro c hc; simp at hc
  | cons y rest ih =>
    unfold isCleanPath at h
    by_cases hy : y = ".."
    · rw [if_pos hy] at h
      intro c hc
      simp only [List.mem_cons] at hc
      rcases hc with rfl | hc
      · exact Or.inl hy
      · exact ih h c hc
    · rw [if_neg hy] at h
      intro c hc
      exact Or.inr (List.all_eq_true.mp h c hc)

theorem cleanPath_proper_tail (b : FPath) (h : isCleanPath b = true)
    (hhead : b.head? ≠ some "..") : ∀ c ∈ b, isProperName c = true := by
  cases b with
  | nil => intro c hc; simp at hc
  | cons y rest =>
    have hy : y ≠ ".." := fun hh => hhead (by simp [hh])
    unfold isCleanPath at h
    rw [if_neg hy] at h
    exact fun c hc => List.all_eq_true.mp h c hc

theorem cleanPath_iff (p : FPath) :
    isCleanPath p = true ↔
      ∃ k comps, p = List.replicate k ".." ++ comps ∧ ∀ c ∈ comps, isProperName c = true := by
  induction p with
  | nil => exact ⟨fun _ => ⟨0, [], rfl, by simp⟩, fun _ => rfl⟩
  | cons y rest ih =>
    by_cases hy : y = ".."
    · subst hy
      have hstep : isCleanPath (".." :: rest) = isCleanPath rest := by
        conv_lhs => unfold isCleanPath
        simp
      rw [hstep, ih]
      constructor
      · rintro ⟨k, comps, hp, hc⟩
        exact ⟨k + 1, comps, by rw [hp, List.replicate_succ, List.cons_append], hc⟩
      · rintro ⟨k, comps, hp, hc⟩
        cases k with
        | zero =>
          simp only [List.replicate_zero, List.nil_append] at hp
          have := hc ".." (by rw [← hp]; simp)
          exact absurd this (by decide)
        | succ k =>
          rw [List.replicate_succ, List.cons_append] at hp
          exact ⟨k, comps, (List.cons.inj hp).2, hc⟩
    · constructor
      · intro h
        refine ⟨0, y :: rest, rfl, ?_⟩
        unfold isCleanPath at h
        rw [if_neg hy] at h
        exact fun c hc => List.all_eq_true.mp h c hc
      · rintro ⟨k, comps, hp, hc⟩
        cases k with
        | zero =>
          simp only [List.replicate_zero, List.nil_append] at hp
          rw [hp]
          exact cleanPath_of_proper _ hc
        | succ k =>
          rw [List.replicate_succ, List.cons_append] at hp
          exact absurd (List.cons.inj hp).1 hy

theorem cleanPath_dropLast (p : FPath) (h : isCleanPath p = true) :
    isCleanPath p.dropLast = true := by
  obtain ⟨k, comps, hp, hc⟩ := (cleanPath_iff p).mp h
  rw [cleanPath_iff]
  by_cases hcomps : comps = []
  · subst hcomps
    rw [List.append_nil] at hp
    refine ⟨k - 1, [], ?_, by simp⟩
    rw [hp, List.append_nil]
    cases k with
    | zero => rfl
    | succ k =>
      rw [List.replicate_succ', List.dropLast_concat]
      rfl
  · refine ⟨k, comps.dropLast, ?_, fun c hcm => hc c (List.mem_of_mem_dropLast hcm)⟩
    rw [hp, List.dropLast_append_of_ne_nil _ hcomps]

theorem pushComponent_clean (p : FPath) (c : String) (h : isCleanPath p = true)
    (hc : '/' ∉ c.data) : isCleanPath (pushComponent p c) = true := by
  unfold pushComponent
  by_cases h1 : c = "" ∨ c = "."
  · rw [if_pos h1]
    exact h
  · rw [if_neg h1]
    by_cases h2 : c = ".."
    · rw [if_pos h2]
      obtain ⟨k, comps, hp, hcomps⟩ := (cleanPath_iff p).mp h
      cases hl : p.getLast? with
      | none =>
        simp only
        rw [List.getLast?_eq_none_iff] at hl
        rw [hl]
        rfl
      | some top =>
        simp only
        by_cases ht : top = ".."
        · rw [if_pos ht]
          subst ht
          have hcn : comps = [] := by
            by_contra hne
            have hlast : p.getLast? = comps.getLast? := by
              rw [hp, List.getLast?_append_of_ne_nil _ hne]
            rw [hl] at hlast
            have hmem : ".." ∈ comps := List.mem_of_getLast?_eq_some hlast.symm
            exact absurd (hcomps _ hmem) (by decide)
          rw [cleanPath_iff]
          refine ⟨k + 1, [], ?_, by simp⟩
          rw [hp, hcn, List.append_nil, List.append_nil, List.replicate_succ']
        · rw [if_neg ht]
          exact cleanPath_dropLast p h
    · rw [if_neg h2]
      obtain ⟨k, comps, hp, hcomps⟩ := (cleanPath_iff p).mp h
      rw [cleanPath_iff]
      refine ⟨k, comps ++ [c], by rw [hp, List.append_assoc], ?_⟩
      intro x hx
      simp only [List.mem_append, List.mem_singleton] at hx
      rcases hx with hx | rfl
      · exact hcomps x hx
      · rw [properName_iff]
        exact ⟨fun hh => h1 (Or.inl hh), fun hh => h1 (Or.inr hh), h2, hc⟩

theorem splitSep_mem_no_slash (cs : List Char) :
    ∀ cur, '/' ∉ cur → ∀ x ∈ splitSep cs cur, '/' ∉ x.data := by
  induction cs with
  | nil =>
    intro cur hcur x hx
    simp only [splitSep, List.mem_singleton] at hx
    rw [hx]
    simpa using hcur
  | cons c rest ih =>
    intro cur hcur x hx
    unfold splitSep at hx
    by_cases hc : c = '/'
    · rw [if_pos hc] at hx
      simp only [List.mem_cons] at hx
      rcases hx with rfl | hx
      · simpa using hcur
      · exact ih [] (by simp) x hx
    · rw [if_neg hc] at hx
      refine ih (c :: cur) ?_ x hx
      intro hm
      simp only [List.mem_cons] at hm
      rcases hm with hm | hm
      · exact hc hm.symm
      · exact hcur hm

theorem foldl_push_clean (l : List String) (hl : ∀ x ∈ l, '/' ∉ x.data) :
    ∀ p, isCleanPath p = true → isCleanPath (l.foldl pushComponent p) = true := by
  induction l with
  | nil => intro p hp; exact hp
  | cons c rest ih =>
    intro p hp
    rw [List.foldl_cons]
    exact ih (fun x hx => hl x (by simp [hx])) _
      (pushComponent_clean p c hp (hl c (by simp)))

theorem joinName_cleanPath (p : FPath) (s : String) (h : isCleanPath p = true) :
    isCleanPath (joinName p s) = true := by
  unfold joinName
  exact foldl_push_clean _ (splitSep_mem_no_slash s.data [] (by simp)) p h

theorem foldl_push_append (t : FPath) :
    ∀ cm, isCleanPath (cm ++ t) = true → t.foldl pushComponent cm = cm ++ t := by
  induction t with
  | nil => intro cm _; simp
  | cons c rest ih =>
    intro cm h
    have hpush : pushComponent cm c = cm ++ [c] := by
      rcases cleanPath_elem _ h c (by simp) with hc | hc
      · subst hc
        have hall := cleanPath_before_dotdot cm rest h
        unfold pushComponent
        rw [if_neg (by decide), if_pos rfl]
        cases hl : cm.getLast? with
        | none => rfl
        | some top =>
          simp only
          rw [if_pos (hall top (List.mem_of_getLast?_eq_some hl))]
      · obtain ⟨h1, h2, h3, _⟩ := (properName_iff c).mp hc
        unfold pushComponent
        rw [if_neg (by simp [h1, h2]), if_neg h3]
    rw [List.foldl_cons, hpush]
    have h2 : isCleanPath ((cm ++ [c]) ++ rest) = true := by
      rw [List.append_assoc]
      exact h
    rw [ih (cm ++ [c]) h2, List.append_assoc]
    rfl

theorem foldl_push_pop (n : Nat) :
    ∀ (cm b : FPath), b.length = n → (∀ c ∈ b, isProperName c = true) →
      (List.replicate n "..").foldl pushComponent (cm ++ b) = cm := by
  induction n with
  | zero =>
    intro cm b hb _
    have : b = [] := List.length_eq_zero.mp hb
    subst this
    simp
  | succ n ih =>
    intro cm b hb hproper
    have hne : b ≠ [] := by
      intro hh
      rw [hh] at hb
      simp at hb
    obtain ⟨b1, x, rfl⟩ : ∃ b1 x, b = b1 ++ [x] :=
      ⟨b.dropLast, b.getLast hne, (List.dropLast_append_getLast hne).symm⟩
    have hx := (properName_iff x).mp (hproper x (by simp))
    have hpush : pushComponent (cm ++ (b1 ++ [x])) ".." = cm ++ b1 := by
      unfold pushComponent
      rw [if_neg (by decide), if_pos rfl, ← List.append_assoc, List.getLast?_concat]
      simp only
      rw [if_neg hx.2.2.1, List.dropLast_concat]
    rw [List.replicate_succ, List.foldl_cons, hpush]
    apply ih
    · simpa using hb
    · exact fun c hc => hproper c (by simp [hc])

theorem stripCommon_spec (base targ : FPath) :
    ∃ cm, base = cm ++ (stripCommon base targ).1 ∧ targ = cm ++ (stripCommon base targ).2 := by
  induction base generalizing targ with
  | nil => exact ⟨[], by simp [stripCommon], by simp [stripCommon]⟩
  | cons a rest ih =>
    cases targ with
    | nil => exact ⟨[], by simp [stripCommon], by simp [stripCommon]⟩
    | cons b bs =>
      unfold stripCommon
      by_cases hab : a = b
      · subst hab
        rw [if_pos rfl]
        obtain ⟨cm, h1, h2⟩ := ih bs
        exact ⟨a :: cm, by rw [List.cons_append, ← h1], by rw [List.cons_append, ← h2]⟩
      · rw [if_neg hab]
        exact ⟨[], rfl, rfl⟩

/-- Resolving the relative path `filepath.Rel(base, targ)` against `base` gives `targ`. -/
theorem filepathRel_resolves (base targ : FPath) (rel : String)
    (hbase : isCleanPath base = true) (htarg : isCleanPath targ = true)
    (h : filepathRel base targ = Except.ok rel) : joinName base rel = targ := by
  obtain ⟨cm, hb, ht⟩ := stripCommon_spec base targ
  unfold filepathRel at h
  generalize stripCommon base targ = bt at h hb ht
  obtain ⟨b, t⟩ := bt
  simp only at h hb ht
  by_cases hhead : b.head? = some ".."
  · rw [if_pos hhead] at h
    exact Except.noConfusion h
  · rw [if_neg hhead] at h
    simp only [Except.ok.injEq] at h
    have hbclean : isCleanPath b = true := cleanPath_suffix cm b (hb ▸ hbase)
    have hbproper := cleanPath_proper_tail b hbclean hhead
    have htclean : isCleanPath (cm ++ t) = true := ht ▸ htarg
    unfold joinName
    by_cases hnil : List.replicate b.length ".." ++ t = []
    · obtain ⟨h1, h2⟩ := List.append_eq_nil.mp hnil
      have hb0 : b = [] := by
        cases b with
        | nil => rfl
        | cons x xs => simp [List.replicate_succ] at h1
      subst hb0
      subst h2
      rw [← h]
      have : splitSep (pathString ([] : FPath)).data [] = ["."] := by decide
      simp only [List.length_nil, List.replicate_zero, List.append_nil] at this ⊢
      rw [this, hb, ht]
      rfl
    · have hsplit : splitSep rel.data [] = List.replicate b.length ".." ++ t := by
        rw [← h]
        apply pathString_split _ hnil
        intro x hx
        rw [List.mem_append] at hx
        rcases hx with hx | hx
        · rw [(List.mem_replicate.mp hx).2]
          decide
        · rcases cleanPath_elem _ (cleanPath_suffix cm t htclean) x hx with hd | hp
          · rw [hd]
            decide
          · exact ((properName_iff x).mp hp).2.2.2
      rw [hsplit, List.foldl_append, hb, foldl_push_pop b.length cm b rfl hbproper,
        foldl_push_append t cm htclean, ht]

/-- C24 (link replaces whatever is at the target): for a store whose directory is a cleaned
path and a cleaned target path, if `Store.Link(hash, target)` returns no error then the hash
has at least two characters, the target is afterwards a symbolic link (whatever was there
before, a file, a link, an empty directory or nothing), and its relative target, resolved from
the directory that holds the link, is the store path `getStorePath(hash)`, the store directory
joined with `hash[:2]` and `hash[2:]`. -/
theorem link_replaces_target (s : Store) (fs fs1 : FS) (hash : String) (target : FPath)
    (hstore : isCleanPath s.StorePath = true) (htarget : isCleanPath target = true)
    (h : s.Link fs hash target = some (fs1, none)) :
    2 ≤ hash.length ∧
    ∃ storePath rel, s.getStorePath hash = some storePath ∧
      storePath = joinName (joinName s.StorePath ⟨hash.data.take 2⟩) ⟨hash.data.drop 2⟩ ∧
      FS.lookup fs1 target = some (Node.symlink rel) ∧
      resolveLink target rel = storePath := by
  have hlen : 2 ≤ hash.data.length := by
    by_contra hl
    have h1 : sliceTo hash 2 = none := by
      unfold sliceTo
      rw [if_neg hl]
    unfold Store.Link Store.getStorePath at h
    rw [h1] at h
    exact Option.noConfusion h
  have h1 : sliceTo hash 2 = some ⟨hash.data.take 2⟩ := by
    unfold sliceTo
    rw [if_pos hlen]
  have h2 : sliceFrom hash 2 = some ⟨hash.data.drop 2⟩ := by
    unfold sliceFrom
    rw [if_pos hlen]
  have hsp : s.getStorePath hash =
      some (joinName (joinName s.StorePath ⟨hash.data.take 2⟩) ⟨hash.data.drop 2⟩) := by
    unfold Store.getStorePath
    rw [h1, h2]
  have hspclean : isCleanPath
      (joinName (joinName s.StorePath ⟨hash.data.take 2⟩) ⟨hash.data.drop 2⟩) = true :=
    joinName_cleanPath _ _ (joinName_cleanPath _ _ hstore)
  have key : ∃ rel, FS.lookup fs1 target = some (Node.symlink rel) ∧
      filepathRel (filepathDir target)
        (joinName (joinName s.StorePath ⟨hash.data.take 2⟩) ⟨hash.data.drop 2⟩) =
          Except.ok rel := by
    unfold Store.Link at h
    rw [hsp] at h
    simp only at h
    split at h
    · simp at h
    · split at h
      · simp at h
      · split at h
        · simp at h
        · rename_i relPath hrel
          split at h
          · simp at h
          · rename_i fs3 hsym
            simp only [Option.some.injEq, Prod.mk.injEq, and_true] at h
            subst h
            refine ⟨relPath, ?_, hrel⟩
            unfold osSymlink at hsym
            split at hsym
            · exact Except.noConfusion hsym
            · rename_i hnone
              simp only [Except.ok.injEq] at hsym
              have hne : target ≠ [] := by
                intro hh
                rw [hh] at hnone
                simp [FS.lookup] at hnone
              rw [← hsym, lookup_write _ _ _ _ hne, if_pos rfl]
  obtain ⟨rel, hlook, hrel⟩ := key
  refine ⟨hlen, _, rel, hsp, rfl, hlook, ?_⟩
  unfold resolveLink
  exact filepathRel_resolves _ _ _ (cleanPath_dropLast target htarget) hspclean hrel

theorem link_replaces_target_witness :
    isCleanPath exStore.StorePath = true ∧ isCleanPath ["wow", "retail", "bigwigs"] = true ∧
    FS.lookup exOccupiedFS ["wow", "retail", "bigwigs"] = some (Node.blob [7]) ∧
    ∃ fs1, exStore.Link exOccupiedFS "7b22736f75726365" ["wow", "retail", "bigwigs"] =
        some (fs1, none) ∧
      2 ≤ "7b22736f75726365".length ∧
      ∃ storePath rel, exStore.getStorePath "7b22736f75726365" = some storePath ∧
        storePath = joinName (joinName exStore.StorePath ⟨"7b22736f75726365".data.take 2⟩)
          ⟨"7b22736f75726365".data.drop 2⟩ ∧
        FS.lookup fs1 ["wow", "retail", "bigwigs"] = some (Node.symlink rel) ∧
        resolveLink ["wow", "retail", "bigwigs"] rel = storePath := by
  have hsome : ((exStore.Link exOccupiedFS "7b22736f75726365" ["wow", "retail", "bigwigs"]).bind
      fun x => if x.2 = none then some x.1 else none).isSome = true := by decide!
  obtain ⟨fs1, hfs1⟩ := Option.isSome_iff_exists.mp hsome
  simp only [Option.bind_eq_some] at hfs1
  obtain ⟨⟨fsx, e⟩, hx, hif⟩ := hfs1
  by_cases he : e = none
  · subst he
    simp only [if_true, Option.some.injEq] at hif
    subst hif
    exact ⟨by decide, by decide, by decide, fsx, hx,
      link_replaces_target exStore exOccupiedFS fsx "7b22736f75726365"
        ["wow", "retail", "bigwigs"] (by decide) (by decide) hx⟩
  · simp only [he, if_false] at hif
    exact Option.noConfusion hif

/-! ### Reconciler: what apply leaves alone -/

theorem getRun_eq (gm : GenerationManager) (fs : FS) (id : Int) :
    gm.GetRun fs id = (fs, gm.Get fs id) := by
  unfold GenerationManager.GetRun GenerationManager.Get sysOpen
  cases osOpen fs (gm.getGenerationPath id) with
  | none => rfl
  | some n => cases n <;> rfl

theorem getCurrentRun_eq (gm : GenerationManager) (fs : FS) :
    gm.GetCurrentRun fs = (fs, gm.GetCurrent fs) := by
  unfold GenerationManager.GetCurrentRun GenerationManager.GetCurrent sysReadlink
  cases osReadlink fs gm.currentPath with
  | notExist => rfl
  | failed => rfl
  | target t =>
    simp only
    cases atoi (splitDashHead (filepathBase t)) with
    | none => rfl
    | some id => exact getRun_eq gm fs id

theorem keys_filterMap {V : Type} (m : GoMap V) (l : List (String × V))
    (h : ∀ e ∈ l, m.get? e.1 = some e.2) :
    (l.map Prod.fst).filterMap (fun k => (m.get? k).map fun v => (k, v)) = l := by
  induction l with
  | nil => rfl
  | cons e rest ih =>
    rw [List.map_cons, List.filterMap_cons, h e (by simp)]
    simp only [Option.map_some']
    rw [ih (fun x hx => h x (by simp [hx]))]

theorem rangeBy_perm {V : Type} (sched : Schedule) (hfair : sched.fair) (site : String)
    (m : GoMap V) : (GoMap.rangeBy sched site m).Perm (GoMap.range m) := by
  have hk := keys_filterMap m (GoMap.range m) (fun e he => (range_mem_iff m e.1 e.2).mp he)
  unfold GoMap.rangeBy
  have hp := List.Perm.filterMap (fun k => (m.get? k).map fun v => (k, v))
    (hfair site ((GoMap.range m).map Prod.fst))
  rw [hk] at hp
  exact hp

theorem rangeBy_inOrder {V : Type} (site : String) (m : GoMap V) :
    GoMap.rangeBy exInOrder site m = GoMap.range m :=
  keys_filterMap m (GoMap.range m) (fun e he => (range_mem_iff m e.1 e.2).mp he)

theorem planRemovals_perm (installID : String) (config : InstallationConfig)
    (cs : GoMap InstalledAddon) (l1 l2 : List (String × InstalledAddon)) (h : l1.Perm l2) :
    (planRemovals installID config cs l1).Perm (planRemovals installID config cs l2) := by
  induction h with
  | nil => exact List.Perm.refl _
  | cons x _ ih =>
    obtain ⟨k, v⟩ := x
    unfold planRemovals
    split
    · exact List.Perm.cons _ ih
    · exact ih
  | swap x y l =>
    obtain ⟨k, v⟩ := x
    obtain ⟨k2, v2⟩ := y
    simp only [planRemovals]
    split <;> split
    · exact List.Perm.swap _ _ _
    · exact List.Perm.refl _
    · exact List.Perm.refl _
    · exact List.Perm.refl _
  | trans _ _ ih1 ih2 => exact ih1.trans ih2

theorem planInstallation_total (r : Reconciler) (fs : FS) (installID : String)
    (config : InstallationConfig) :
    ∃ res, r.planInstallation fs installID config = some res := by
  rcases addon_good_or_bad r config with hg | hb
  · obtain ⟨ip, h⟩ := planInstallation_ok r fs installID config hg
    exact ⟨_, h⟩
  · obtain ⟨e, h⟩ := planInstallation_bad r fs installID config hb
    exact ⟨_, h⟩

theorem planInstallationRun_spec (r : Reconciler) (sched : Schedule) (hfair : sched.fair)
    (fs : FS) (installID : String) (config : InstallationConfig) :
    (∀ e, r.planInstallation fs installID config = some (Except.error e) →
      r.planInstallationRun sched fs installID config = some (fs, Except.error e)) ∧
    (∀ ip, r.planInstallation fs installID config = some (Except.ok ip) →
      ∃ ip2, r.planInstallationRun sched fs installID config = some (fs, Except.ok ip2) ∧
        ip2.sameAs ip) := by
  have hcs : (match r.GenerationManager.GetCurrent fs with
      | Except.ok current =>
        match current.Installations.get? installID with
        | some installState => installState.Addons
        | none => []
      | Except.error _ => []) = r.currentState fs installID := rfl
  unfold Reconciler.planInstallationRun Reconciler.planInstallation
  rw [getCurrentRun_eq]
  simp only [hcs]
  cases hpa : r.planAddons installID config (r.currentState fs installID) config.Addons
      { Path := config.Path, Operations := [], Symlinks := [] } with
  | none => exact ⟨fun e h => by simp at h, fun ip h => by simp at h⟩
  | some res =>
    cases res with
    | error e0 =>
      refine ⟨fun e h => ?_, fun ip h => by simp at h⟩
      simp only [Option.some.injEq, Except.error.injEq] at h
      rw [h]
    | ok plan =>
      refine ⟨fun e h => by simp at h, fun ip h => ?_⟩
      simp only [Option.some.injEq, Except.ok.injEq] at h
      refine ⟨_, rfl, ?_⟩
      rw [← h]
      refine ⟨rfl, ?_, fun _ => rfl⟩
      exact List.Perm.append_left _
        (planRemovals_perm _ _ _ _ _ (rangeBy_perm sched hfair _ _))

theorem planInstallationsRun_bad (r : Reconciler) (sched : Schedule) (hfair : sched.fair)
    (fs : FS) (l : List (String × InstallationConfig))
    (hbad : ∃ e ∈ l, e.2.Enabled = true ∧ ∃ a ∈ e.2.Addons, r.Config.Addons.get? a = none ∨
      ∃ ac, r.Config.Addons.get? a = some ac ∧ e.2.Typ ∉ ac.Compatible) :
    ∀ plan0, ∃ err, r.planInstallationsRun sched fs l plan0 = some (fs, Except.error err) := by
  induction l with
  | nil =>
    obtain ⟨e, he, _⟩ := hbad
    simp at he
  | cons e rest ih =>
    obtain ⟨k, c⟩ := e
    intro plan0
    unfold Reconciler.planInstallationsRun
    by_cases hen : c.Enabled = true
    · simp only [hen, Bool.not_true, Bool.false_eq_true, if_false]
      obtain ⟨hrerr, hrok⟩ := planInstallationRun_spec r sched hfair fs k c
      rcases addon_good_or_bad r c with hg | hb
      · obtain ⟨ip, hip⟩ := planInstallation_ok r fs k c hg
        obtain ⟨ip2, hip2, _⟩ := hrok ip hip
        simp only [hip2]
        apply ih
        obtain ⟨e, he, h1, a, ha, hbada⟩ := hbad
        simp only [List.mem_cons] at he
        rcases he with he | he
        · subst he
          exfalso
          obtain ⟨ac, hac1, hac2⟩ := hg a ha
          rcases hbada with h | ⟨ac2, h3, h4⟩
          · rw [hac1] at h
            exact Option.noConfusion h
          · rw [hac1] at h3
            simp only [Option.some.injEq] at h3
            subst h3
            exact h4 hac2
        · exact ⟨e, he, h1, a, ha, hbada⟩
      · obtain ⟨err, herr⟩ := planInstallation_bad r fs k c hb
        rw [hrerr err herr]
        exact ⟨_, rfl⟩
    · have hen2 : c.Enabled = false := by simpa using hen
      simp only [hen2, Bool.not_false, if_true]
      apply ih
      obtain ⟨e, he, h1, hrest⟩ := hbad
      simp only [List.mem_cons] at he
      rcases he with he | he
      · subst he
        rw [hen2] at h1
        exact Bool.noConfusion h1
      · exact ⟨e, he, h1, hrest⟩

theorem installOps_enabled (r : Reconciler) (fs : FS) (k : String) (c : InstallationConfig)
    (ip : InstallPlan) (hen : c.Enabled = true)
    (hip : r.planInstallation fs k c = some (Except.ok ip)) :
    r.installOps fs (k, c) = ip.Operations := by
  unfold Reconciler.installOps
  simp only [hen, if_true, hip]

theorem installOps_disabled (r : Reconciler) (fs : FS) (e : String × InstallationConfig)
    (hen : e.2.Enabled = false) : r.installOps fs e = [] := by
  unfold Reconciler.installOps
  simp [hen]

theorem planInstallationsRun_ok (r : Reconciler) (sched : Schedule) (hfair : sched.fair)
    (fs : FS) (l : List (String × InstallationConfig))
    (hgood : ∀ e ∈ l, e.2.Enabled = true → ∀ a ∈ e.2.Addons,
      ∃ ac, r.Config.Addons.get? a = some ac ∧ e.2.Typ ∈ ac.Compatible) :
    ∀ plan0, ∃ plan, r.planInstallationsRun sched fs l plan0 = some (fs, Except.ok plan) ∧
      plan.CurrentGeneration = plan0.CurrentGeneration ∧
      plan.TargetGeneration = plan0.TargetGeneration ∧
      plan.Downloads = plan0.Downloads ∧
      plan.Operations.Perm (plan0.Operations ++ l.flatMap (r.installOps fs)) ∧
      (∀ i, (∀ e ∈ l, e.2.Enabled = true → e.1 ≠ i) →
        plan.Installations.get? i = plan0.Installations.get? i) ∧
      ((l.map Prod.fst).Nodup → ∀ e ∈ l, e.2.Enabled = true →
        ∃ ip ip2, r.planInstallation fs e.1 e.2 = some (Except.ok ip) ∧
          plan.Installations.get? e.1 = some ip2 ∧ ip2.sameAs ip) := by
  induction l with
  | nil =>
    intro plan0
    exact ⟨plan0, rfl, rfl, rfl, rfl, by simp, fun _ _ => rfl, fun _ e he => by simp at he⟩
  | cons e rest ih =>
    obtain ⟨k, c⟩ := e
    intro plan0
    have hrest : ∀ e ∈ rest, e.2.Enabled = true → ∀ a ∈ e.2.Addons,
        ∃ ac, r.Config.Addons.get? a = some ac ∧ e.2.Typ ∈ ac.Compatible :=
      fun e he => hgood e (by simp [he])
    unfold Reconciler.planInstallationsRun
    by_cases hen : c.Enabled = true
    · simp only [hen, Bool.not_true, Bool.false_eq_true, if_false]
      obtain ⟨ip, hip⟩ := planInstallation_ok r fs k c (hgood (k, c) (by simp) hen)
      obtain ⟨ip2, hip2, hsame⟩ := (planInstallationRun_spec r sched hfair fs k c).2 ip hip
      simp only [hip2]
      obtain ⟨plan, hrun, hcg, htg, hdl, hops, hother, hmine⟩ := ih hrest
        { plan0 with
          Installations := plan0.Installations.set k ip2,
          Operations := plan0.Operations ++ ip2.Operations }
      refine ⟨plan, hrun, hcg, htg, hdl, ?_, ?_, ?_⟩
      · refine hops.trans ?_
        simp only [List.flatMap_cons, installOps_enabled r fs k c ip hen hip,
          List.append_assoc]
        exact List.Perm.append_left _ (List.Perm.append_right _ hsame.2.1)
      · intro i hi
        rw [hother i (fun e he => hi e (by simp [he]))]
        simp only
        exact goMap_get_set_ne _ _ _ _ (fun h => hi (k, c) (by simp) hen h.symm)
      · intro hnd e he hene
        simp only [List.map_cons, List.nodup_cons] at hnd
        simp only [List.mem_cons] at he
        rcases he with rfl | he
        · refine ⟨ip, ip2, hip, ?_, hsame⟩
          rw [hother k (fun e he _ hek => hnd.1 (hek ▸ List.mem_map_of_mem Prod.fst he))]
          exact goMap_get_set_self _ _ _
        · exact hmine hnd.2 e he hene
    · have hen2 : c.Enabled = false := by simpa using hen
      simp only [hen2, Bool.not_false, if_true]
      obtain ⟨plan, hrun, hcg, htg, hdl, hops, hother, hmine⟩ := ih hrest plan0
      refine ⟨plan, hrun, hcg, htg, hdl, ?_, ?_, ?_⟩
      · simp only [List.flatMap_cons, installOps_disabled r fs (k, c) hen2, List.nil_append]
        exact hops
      · intro i hi
        exact hother i (fun e he => hi e (by simp [he]))
      · intro hnd e he hene
        simp only [List.map_cons, List.nodup_cons] at hnd
        simp only [List.mem_cons] at he
        rcases he with rfl | he
        · rw [hen2] at hene
          exact Bool.noConfusion hene
        · exact hmine hnd.2 e he hene

theorem existsRun_addonHash (s : Store) (fs : FS) :
    s.ExistsRun fs "7b22736f75726365" =
      some (fs, osStat fs (s.StorePath ++ ["7b", "22736f75726365"])) := by
  unfold Store.ExistsRun sysStat
  rw [getStorePath_addonHash]

theorem collectDownloadsRun_eq (r : Reconciler) (fs : FS) (ops : List Operation) :
    ∀ d0, r.collectDownloadsRun fs ops d0 = some (fs, d0 ++ ops.filterMap (r.downloadFor fs)) := by
  induction ops with
  | nil => intro d0; simp [Reconciler.collectDownloadsRun]
  | cons op rest ih =>
    intro d0
    unfold Reconciler.collectDownloadsRun
    by_cases hop : op.Typ = "install" ∨ op.Typ = "update"
    · simp only [hop, if_true]
      cases hg : r.Config.Addons.get? op.Addon with
      | none =>
        simp only
        rw [ih, List.filterMap_cons]
        simp [Reconciler.downloadFor, hop, hg]
      | some ac =>
        simp only [calculateAddonHash_eq, existsRun_addonHash, getStorePath_addonHash]
        cases hst : osStat fs (r.Store.StorePath ++ ["7b", "22736f75726365"]) with
        | true =>
          simp only
          rw [ih, List.filterMap_cons]
          simp [Reconciler.downloadFor, hop, hg, hst]
        | false =>
          simp only
          rw [ih, List.filterMap_cons]
          simp [Reconciler.downloadFor, hop, hg, hst]
    · simp only [hop, if_false]
      rw [ih, List.filterMap_cons]
      simp [Reconciler.downloadFor, hop]

theorem planDownloadsRun_eq (r : Reconciler) (fs : FS) (l : List (String × InstallPlan)) :
    ∀ d0, r.planDownloadsRun fs l d0 =
      some (fs, d0 ++ l.flatMap (fun e => e.2.Operations.filterMap (r.downloadFor fs))) := by
  induction l with
  | nil => intro d0; simp [Reconciler.planDownloadsRun]
  | cons e rest ih =>
    obtain ⟨k, ip⟩ := e
    intro d0
    unfold Reconciler.planDownloadsRun
    rw [collectDownloadsRun_eq]
    simp only
    rw [ih]
    simp [List.flatMap_cons, List.append_assoc]

theorem flatMap_filter_nil {α β : Type} (l : List α) (p : α → Bool) (f : α → List β)
    (h : ∀ a ∈ l, p a = false → f a = []) : (l.filter p).flatMap f = l.flatMap f := by
  induction l with
  | nil => rfl
  | cons a rest ih =>
    have ihr := ih (fun x hx => h x (by simp [hx]))
    by_cases hp : p a = true
    · rw [List.filter_cons_of_pos hp, List.flatMap_cons, List.flatMap_cons, ihr]
    · have hp2 : p a = false := by simpa using hp
      rw [List.filter_cons_of_neg hp, List.flatMap_cons, h a (by simp) hp2, ihr]
      rfl

theorem samePlan_refl (a : InstallPlan) : a.sameAs a :=
  ⟨rfl, List.Perm.refl _, fun _ => rfl⟩

theorem samePlan_symm (a b : InstallPlan) (h : a.sameAs b) : b.sameAs a :=
  ⟨h.1.symm, h.2.1.symm, fun k => (h.2.2 k).symm⟩

theorem samePlan_trans (a b c : InstallPlan) (h1 : a.sameAs b) (h2 : b.sameAs c) :
    a.sameAs c :=
  ⟨h1.1.trans h2.1, h1.2.1.trans h2.2.1, fun k => (h1.2.2 k).trans (h2.2.2 k)⟩

/-- What a run of `Plan` returns under any fair schedule, stated without reference to the
order: the filesystem is the one it started from; the outcome is an error exactly for a
configuration with a structural error; otherwise the plan holds, up to order, the operations
and downloads of the enabled installations and, for each of them, its installation plan. -/
theorem planRun_spec (r : Reconciler) (sched : Schedule) (hfair : sched.fair) (fs : FS) :
    ((∃ e ∈ GoMap.range r.Config.Installations, e.2.Enabled = true ∧
        ∃ a ∈ e.2.Addons, r.Config.Addons.get? a = none ∨
          ∃ ac, r.Config.Addons.get? a = some ac ∧ e.2.Typ ∉ ac.Compatible) →
      ∃ err, r.PlanRun sched fs = some (fs, Except.error err)) ∧
    ((∀ e ∈ GoMap.range r.Config.Installations, e.2.Enabled = true → ∀ a ∈ e.2.Addons,
        ∃ ac, r.Config.Addons.get? a = some ac ∧ e.2.Typ ∈ ac.Compatible) →
      ∃ plan, r.PlanRun sched fs = some (fs, Except.ok plan) ∧
        plan.CurrentGeneration =
          (match r.GenerationManager.GetCurrent fs with
           | Except.ok current => current.ID
           | Except.error _ => 0) ∧
        plan.TargetGeneration = 0 ∧
        plan.Operations.Perm ((GoMap.range r.Config.Installations).flatMap (r.installOps fs)) ∧
        plan.Downloads.Perm ((GoMap.range r.Config.Installations).flatMap
          (fun e => (r.installOps fs e).filterMap (r.downloadFor fs))) ∧
        ∀ i, (plan.Installations.get? i = none ∧
            ∀ cfg, r.Config.Installations.get? i = some cfg → cfg.Enabled = false) ∨
          ∃ cfg ip ip2, r.Config.Installations.get? i = some cfg ∧ cfg.Enabled = true ∧
            r.planInstallation fs i cfg = some (Except.ok ip) ∧
            plan.Installations.get? i = some ip2 ∧ ip2.sameAs ip) := by
  have hL := rangeBy_perm sched hfair "Plan installations" r.Config.Installations
  constructor
  · rintro ⟨e, he, hbad⟩
    obtain ⟨err, herr⟩ := planInstallationsRun_bad r sched hfair fs
      (GoMap.rangeBy sched "Plan installations" r.Config.Installations)
      ⟨e, hL.mem_iff.mpr he, hbad⟩
      { CurrentGeneration :=
          (match r.GenerationManager.GetCurrent fs with
           | Except.ok current => current.ID
           | Except.error _ => 0),
        TargetGeneration := 0, Operations := [], Downloads := [], Installations := [] }
    unfold Reconciler.PlanRun
    rw [getCurrentRun_eq]
    simp only [herr]
    exact ⟨_, rfl⟩
  · intro hgood
    obtain ⟨plan1, hrun, hcg, htg, hdl, hops, hother, hmine⟩ :=
      planInstallationsRun_ok r sched hfair fs
        (GoMap.rangeBy sched "Plan installations" r.Config.Installations)
        (fun e he => hgood e (hL.mem_iff.mp he))
        { CurrentGeneration :=
            (match r.GenerationManager.GetCurrent fs with
             | Except.ok current => current.ID
             | Except.error _ => 0),
          TargetGeneration := 0, Operations := [], Downloads := [], Installations := [] }
    simp only [List.nil_append] at hops
    simp only at hcg htg hdl hother
    have hnodupL : ((GoMap.rangeBy sched "Plan installations"
        r.Config.Installations).map Prod.fst).Nodup :=
      ((hL.map Prod.fst).nodup_iff).mpr (range_keys_nodup _)
    have hinst : ∀ i, (plan1.Installations.get? i = none ∧
          ∀ cfg, r.Config.Installations.get? i = some cfg → cfg.Enabled = false) ∨
        ∃ cfg ip ip2, r.Config.Installations.get? i = some cfg ∧ cfg.Enabled = true ∧
          r.planInstallation fs i cfg = some (Except.ok ip) ∧
          plan1.Installations.get? i = some ip2 ∧ ip2.sameAs ip := by
      intro i
      by_cases hi : ∃ cfg, r.Config.Installations.get? i = some cfg ∧ cfg.Enabled = true
      · obtain ⟨cfg, hcfg, hen⟩ := hi
        right
        obtain ⟨ip, ip2, h1, h2, h3⟩ := hmine hnodupL (i, cfg)
          (hL.mem_iff.mpr ((range_mem_iff _ _ _).mpr hcfg)) hen
        exact ⟨cfg, ip, ip2, hcfg, hen, h1, h2, h3⟩
      · left
        constructor
        · rw [hother i]
          · rfl
          · intro e he hen hei
            apply hi
            refine ⟨e.2, ?_, hen⟩
            rw [← hei]
            exact (range_mem_iff _ _ _).mp (hL.mem_iff.mp he)
        · intro cfg hcfg
          cases hen : cfg.Enabled with
          | false => rfl
          | true => exact absurd ⟨cfg, hcfg, hen⟩ hi
    refine ⟨
        { plan1 with
          Downloads := plan1.Downloads ++
            (GoMap.rangeBy sched "Plan downloads" plan1.Installations).flatMap
              (fun e => e.2.Operations.filterMap (r.downloadFor fs)) },
        ?_, hcg, htg, ?_, ?_, hinst⟩
    · unfold Reconciler.PlanRun
      rw [getCurrentRun_eq]
      simp only [hrun, planDownloadsRun_eq]
    · exact hops.trans (List.Perm.flatMap_right _ hL)
    · simp only
      rw [hdl, List.nil_append]
      refine (List.Perm.flatMap_right _
        (rangeBy_perm sched hfair "Plan downloads" plan1.Installations)).trans ?_
      -- align the entries of the plan with the enabled installations of the configuration
      have hnodupRA : (GoMap.range plan1.Installations).Nodup :=
        List.Nodup.of_map Prod.fst (range_keys_nodup _)
      have hnodupLA : (((GoMap.range r.Config.Installations).filter
          (fun e => e.2.Enabled)).map (fun e => (e.1,
            (plan1.Installations.get? e.1).getD
              { Path := [], Operations := [], Symlinks := [] }))).Nodup := by
        apply List.Nodup.of_map Prod.fst
        rw [List.map_map]
        exact List.Nodup.sublist ((List.filter_sublist _).map Prod.fst) (range_keys_nodup _)
      have hperm : (GoMap.range plan1.Installations).Perm
          (((GoMap.range r.Config.Installations).filter (fun e => e.2.Enabled)).map
            (fun e => (e.1, (plan1.Installations.get? e.1).getD
              { Path := [], Operations := [], Symlinks := [] }))) := by
        rw [List.perm_ext_iff_of_nodup hnodupRA hnodupLA]
        rintro ⟨i, v⟩
        rw [range_mem_iff, List.mem_map]
        constructor
        · intro hv
          rcases hinst i with ⟨hnone, _⟩ | ⟨cfg, ip, ip2, hcfg, hen, _, hget, _⟩
          · rw [hnone] at hv
            exact Option.noConfusion hv
          · refine ⟨(i, cfg), List.mem_filter.mpr ⟨(range_mem_iff _ _ _).mpr hcfg, hen⟩, ?_⟩
            simp only [hv, Option.getD_some]
        · rintro ⟨e, he, heq⟩
          obtain ⟨heR, hen⟩ := List.mem_filter.mp he
          simp only [Prod.mk.injEq] at heq
          obtain ⟨h1, h2⟩ := heq
          subst h1
          rcases hinst e.1 with ⟨_, hdis⟩ | ⟨cfg, ip, ip2, hcfg, _, _, hget, _⟩
          · have := hdis e.2 ((range_mem_iff _ _ _).mp heR)
            rw [this] at hen
            exact Bool.noConfusion hen
          · rw [hget] at h2
            simp only [Option.getD_some] at h2
            rw [← h2]
            exact hget
      refine (List.Perm.flatMap_right _ hperm).trans ?_
      rw [List.flatMap_map,
        ← flatMap_filter_nil (GoMap.range r.Config.Installations) (fun e => e.2.Enabled)
          (fun e => (r.installOps fs e).filterMap (r.downloadFor fs))
          (fun e _ hen => by
            show List.filterMap (r.downloadFor fs) (r.installOps fs e) = []
            rw [installOps_disabled r fs e hen]; rfl)]
      apply List.Perm.flatMap_left
      intro e he
      obtain ⟨heR, hen⟩ := List.mem_filter.mp he
      rcases hinst e.1 with ⟨_, hdis⟩ | ⟨cfg, ip, ip2, hcfg, _, hpl, hget, hsame⟩
      · have := hdis e.2 ((range_mem_iff _ _ _).mp heR)
        rw [this] at hen
        exact Bool.noConfusion hen
      · have hce : cfg = e.2 := by
          have := (range_mem_iff _ _ _).mp heR
          rw [hcfg] at this
          exact Option.some.inj this
        subst hce
        simp only [Function.comp, hget, Option.getD_some]
        rw [installOps_enabled r fs e.1 e.2 ip hen hpl]
        exact List.Perm.filterMap _ hsame.2.1

/-! The function `Plan` is the run under the schedule that visits every map in list order. -/

theorem planInstallationRun_inOrder (r : Reconciler) (fs : FS) (installID : String)
    (config : InstallationConfig) :
    r.planInstallationRun exInOrder fs installID config =
      (r.planInstallation fs installID config).map (fun res => (fs, res)) := by
  have hcs : (match r.GenerationManager.GetCurrent fs with
      | Except.ok current =>
        match current.Installations.get? installID with
        | some installState => installState.Addons
        | none => []
      | Except.error _ => []) = r.currentState fs installID := rfl
  unfold Reconciler.planInstallationRun Reconciler.planInstallation
  rw [getCurrentRun_eq]
  simp only [hcs, rangeBy_inOrder]
  cases r.planAddons installID config (r.currentState fs installID) config.Addons
      { Path := config.Path, Operations := [], Symlinks := [] } with
  | none => rfl
  | some res =>
    cases res with
    | error e => rfl
    | ok plan => rfl

theorem planInstallationsRun_inOrder (r : Reconciler) (fs : FS)
    (l : List (String × InstallationConfig)) :
    ∀ plan0, r.planInstallationsRun exInOrder fs l plan0 =
      (r.planInstallations fs l plan0).map (fun res => (fs, res)) := by
  induction l with
  | nil => intro plan0; rfl
  | cons e rest ih =>
    obtain ⟨k, c⟩ := e
    intro plan0
    unfold Reconciler.planInstallationsRun Reconciler.planInstallations
    rw [planInstallationRun_inOrder, ih]
    split
    · rfl
    · cases r.planInstallation fs k c with
      | none => rfl
      | some res =>
        cases res with
        | error e => rfl
        | ok ip => exact ih _

theorem collectDownloadsRun_plain (r : Reconciler) (fs : FS) (ops : List Operation) :
    ∀ d0, r.collectDownloadsRun fs ops d0 =
      (r.collectDownloads fs ops d0).map (fun d => (fs, d)) := by
  induction ops with
  | nil => intro d0; rfl
  | cons op rest ih =>
    intro d0
    unfold Reconciler.collectDownloadsRun Reconciler.collectDownloads
    by_cases hop : op.Typ = "install" ∨ op.Typ = "update"
    · simp only [hop, if_true]
      cases hg : r.Config.Addons.get? op.Addon with
      | none => exact ih _
      | some ac =>
        have hh := calculateAddonHash_eq ac
        simp only [hh, existsRun_addonHash, exists_addonHash]
        cases osStat fs (r.Store.StorePath ++ ["7b", "22736f75726365"]) with
        | true => exact ih _
        | false =>
          simp only [getStorePath_addonHash]
          exact ih _
    · simp only [hop, if_false]
      exact ih _

theorem planDownloadsRun_plain (r : Reconciler) (fs : FS) (l : List (String × InstallPlan)) :
    ∀ d0, r.planDownloadsRun fs l d0 = (r.planDownloads fs l d0).map (fun d => (fs, d)) := by
  induction l with
  | nil => intro d0; rfl
  | cons e rest ih =>
    obtain ⟨k, ip⟩ := e
    intro d0
    unfold Reconciler.planDownloadsRun Reconciler.planDownloads
    rw [collectDownloadsRun_plain]
    cases r.collectDownloads fs ip.Operations d0 with
    | none => rfl
    | some d1 => exact ih _

/-- The function `Plan` used above is the run of `Plan` under the schedule that visits every
map in list order, with the filesystem dropped. -/
theorem planRun_inOrder (r : Reconciler) (fs : FS) :
    r.PlanRun exInOrder fs = (r.Plan fs).map (fun res => (fs, res)) := by
  unfold Reconciler.PlanRun Reconciler.Plan
  rw [getCurrentRun_eq]
  simp only [rangeBy_inOrder, planInstallationsRun_inOrder]
  cases r.planInstallations fs (GoMap.range r.Config.Installations)
      { CurrentGeneration :=
          (match r.GenerationManager.GetCurrent fs with
           | Except.ok current => current.ID
           | Except.error _ => 0),
        TargetGeneration := 0, Operations := [], Downloads := [], Installations := [] } with
  | none => rfl
  | some res =>
    cases res with
    | error e => rfl
    | ok plan1 =>
      simp only [Option.map_some', planDownloadsRun_plain]
      cases r.planDownloads fs (GoMap.range plan1.Installations) plan1.Downloads with
      | none => rfl
      | some d => rfl

/-- C14 (Plan is read-only): a run of `Plan`, with the filesystem threaded through every
call it makes (`Readlink` and `Open` in `GetCurrent`, `Stat` in `Store.Exists`) and with the
order of each `range` over a map left to an arbitrary fair schedule, never panics and returns
the filesystem it was given, whether the outcome is a plan or an error, for every
configuration and every filesystem. So a second run, started from the state the first one
left and free to iterate in another order, also returns that filesystem, and the two
outcomes agree: both are errors, or both are plans with the same current and target
generation, the same operations and the same downloads up to order, and for each
installation the same plan (same path, same operations up to order, same symlinks). -/
theorem plan_read_only (r : Reconciler) (fs : FS) (sched1 sched2 : Schedule)
    (h1 : sched1.fair) (h2 : sched2.fair) :
    ∃ fs1 res1 fs2 res2, r.PlanRun sched1 fs = some (fs1, res1) ∧ fs1 = fs ∧
      r.PlanRun sched2 fs1 = some (fs2, res2) ∧ fs2 = fs ∧ samePlanOutcome res1 res2 := by
  obtain ⟨hbad1, hgood1⟩ := planRun_spec r sched1 h1 fs
  obtain ⟨hbad2, hgood2⟩ := planRun_spec r sched2 h2 fs
  by_cases hb : ∃ e ∈ GoMap.range r.Config.Installations, e.2.Enabled = true ∧
      ∃ a ∈ e.2.Addons, r.Config.Addons.get? a = none ∨
        ∃ ac, r.Config.Addons.get? a = some ac ∧ e.2.Typ ∉ ac.Compatible
  · obtain ⟨e1, he1⟩ := hbad1 hb
    obtain ⟨e2, he2⟩ := hbad2 hb
    exact ⟨fs, Except.error e1, fs, Except.error e2, he1, rfl, he2, rfl, trivial⟩
  · have hg : ∀ e ∈ GoMap.range r.Config.Installations, e.2.Enabled = true →
        ∀ a ∈ e.2.Addons, ∃ ac, r.Config.Addons.get? a = some ac ∧ e.2.Typ ∈ ac.Compatible := by
      intro e he hen
      rcases addon_good_or_bad r e.2 with hgood | hbad
      · exact hgood
      · exact absurd ⟨e, he, hen, hbad⟩ hb
    obtain ⟨p1, hp1, hcg1, htg1, hops1, hdl1, hin1⟩ := hgood1 hg
    obtain ⟨p2, hp2, hcg2, htg2, hops2, hdl2, hin2⟩ := hgood2 hg
    refine ⟨fs, Except.ok p1, fs, Except.ok p2, hp1, rfl, hp2, rfl, ?_⟩
    refine ⟨hcg1.trans hcg2.symm, htg1.trans htg2.symm, hops1.trans hops2.symm,
      hdl1.trans hdl2.symm, ?_⟩
    intro i
    rcases hin1 i with ⟨hn1, hd1⟩ | ⟨cfg1, ip1, x, hc1, hen1, hpl1, hx, hsx⟩
    · rcases hin2 i with ⟨hn2, _⟩ | ⟨cfg2, _, _, hc2, hen2, _, _, _⟩
      · exact Or.inl ⟨hn1, hn2⟩
      · rw [hd1 cfg2 hc2] at hen2
        exact Bool.noConfusion hen2
    · rcases hin2 i with ⟨_, hd2⟩ | ⟨cfg2, ip2, y, hc2, _, hpl2, hy, hsy⟩
      · rw [hd2 cfg1 hc1] at hen1
        exact Bool.noConfusion hen1
      · right
        have hcc : cfg1 = cfg2 := Option.some.inj (hc1.symm.trans hc2)
        subst hcc
        have hii : ip1 = ip2 := Except.ok.inj (Option.some.inj (hpl1.symm.trans hpl2))
        subst hii
        exact ⟨x, y, hx, hy, samePlan_trans x ip1 y hsx (samePlan_symm y ip1 hsy)⟩

/-- C14 at the configuration with two installations, run once in list order and once in
reverse: both runs return the filesystem unchanged, the first lists the operations for
`retail` before those for `ptr` and the second the other way round, and the outcomes agree
up to that order. -/
theorem plan_read_only_witness :
    exInOrder.fair ∧ exReverse.fair ∧
    planRunOrder (exTwoReconciler.PlanRun exInOrder exFreshFS) = ["retail", "ptr"] ∧
    planRunOrder (exTwoReconciler.PlanRun exReverse exFreshFS) = ["ptr", "retail"] ∧
    ∃ fs1 res1 fs2 res2, exTwoReconciler.PlanRun exInOrder exFreshFS = some (fs1, res1) ∧
      fs1 = exFreshFS ∧ exTwoReconciler.PlanRun exReverse fs1 = some (fs2, res2) ∧
      fs2 = exFreshFS ∧ samePlanOutcome res1 res2 :=
  ⟨fun _ _ => List.Perm.refl _, fun _ keys => List.reverse_perm keys,
   by decide!, by decide!,
   plan_read_only exTwoReconciler exFreshFS exInOrder exReverse
     (fun _ _ => List.Perm.refl _) (fun _ keys => List.reverse_perm keys)⟩

end Aggon
